import Mathlib

/-!
Verification of the OpenAPI 3.x / Swagger 2.0 converter engine
(`src/lib/converter.ts`) against its natural-language specification.

The engine is shallowly embedded here.  JavaScript values flowing through
the converter are modeled by the inductive type `Json`; arrays and objects
are encoded as cons spines so that every function over them is structurally
recursive and kernel-reducible.  JavaScript runtime errors (TypeError on
property access of null/undefined, the URL constructor throwing, and the
two explicit `throw new Error(...)` sites of the converter) are modeled in
an `Except JsErr` monad.  The YAML text boundary (`yaml.load` / `yaml.dump`)
is an external collaborator per the specification, so the converters here
take the parse result (`Option Json`, `none` = parse failure) and return
the converted tree; serialization is out of scope.

Numbers are modeled as integers (no claim under scrutiny involves
non-integral numerics), and JavaScript object enumeration order is modeled
as insertion order (no claim depends on the numeric-key reordering of
`Object.entries`).
-/

/-- A JavaScript value as used by the converter.  `undef` is JavaScript's
`undefined` (distinct from `null`); arrays and objects are cons spines
(`arrCons`/`objCons`), which keeps every traversal structurally recursive. -/
inductive Json where
  | undef
  | null
  | bool (b : Bool)
  | num (n : Int)
  | str (s : String)
  | arrNil
  | arrCons (hd tl : Json)
  | objNil
  | objCons (key : String) (val tl : Json)
  deriving Repr, DecidableEq

/-- Build an array value from a list. -/
def jarr : List Json → Json := fun xs => xs.foldr Json.arrCons Json.arrNil

/-- Build an object value from a list of fields (insertion order kept). -/
def jobj : List (String × Json) → Json :=
  fun fs => fs.foldr (fun p t => Json.objCons p.1 p.2 t) Json.objNil

namespace Json

/-- JavaScript truthiness.  Empty arrays and objects are truthy. -/
def truthy : Json → Bool
  | undef => false
  | null => false
  | bool b => b
  | num n => n != 0
  | str s => s != ""
  | _ => true

/-- Is this a string value? (JavaScript `typeof x === 'string'`.) -/
def isStr : Json → Bool
  | str _ => true
  | _ => false

/-- Is this an array? (JavaScript `Array.isArray`.) -/
def isArrForm : Json → Bool
  | arrNil => true
  | arrCons _ _ => true
  | _ => false

/-- Is this an object or array (a container)?  JavaScript
`typeof x === 'object' && x !== null`. -/
def isContainer : Json → Bool
  | arrNil => true
  | arrCons _ _ => true
  | objNil => true
  | objCons _ _ _ => true
  | _ => false

/-- JavaScript `typeof x === 'object'` (which includes `null`). -/
def typeofObject : Json → Bool
  | null => true
  | j => j.isContainer

/-- Pure property read.  On objects this is first-binding lookup; on every
other value it yields `undefined`.  It deliberately does NOT model the
TypeError on `null`/`undefined` receivers: use `jsGet` for accesses that can
throw; `getF` is used where the receiver is already known non-nullish or
where the source uses optional chaining. -/
def getF : Json → String → Json
  | objCons k v t, key => if k = key then v else getF t key
  | _, _ => undef

/-- Is the given key present on the object? (JavaScript `k in obj`.) -/
def hasKeyB : Json → String → Bool
  | objCons k _ t, key => k = key || hasKeyB t key
  | _, _ => false

/-- JavaScript property assignment `obj[k] = v`: overwrite in place if the
key is present (keeping its position), otherwise append. -/
def setKey : Json → String → Json → Json
  | objCons k v t, key, nv =>
      if k = key then objCons k nv t else objCons k v (setKey t key nv)
  | objNil, key, nv => objCons key nv objNil
  | j, _, _ => j

/-- JavaScript `delete obj[k]`. -/
def removeKey : Json → String → Json
  | objCons k v t, key =>
      if k = key then removeKey t key else objCons k v (removeKey t key)
  | j, _ => j

/-- The fields of an object value, in order. -/
def fieldsOf : Json → List (String × Json)
  | objCons k v t => (k, v) :: fieldsOf t
  | _ => []

/-- The elements of an array value, in order. -/
def elemsOf : Json → List Json
  | arrCons h t => h :: elemsOf t
  | _ => []

/-- Append an element to an array value (JavaScript `push`). -/
def arrPush : Json → Json → Json
  | arrCons h t, x => arrCons h (arrPush t x)
  | arrNil, x => arrCons x arrNil
  | j, _ => j

/-- A weight measure used as recursion fuel for the reference rewriter. -/
def weight : Json → Nat
  | arrCons h t => 1 + weight h + weight t
  | objCons _ v t => 1 + weight v + weight t
  | _ => 1

end Json

/-- Errors the embedded engine can raise. -/
inductive JsErr where
  /-- A JavaScript TypeError (property access on null/undefined, calling a
  non-function such as `.filter` on a non-array, iterating a non-iterable). -/
  | typeError
  /-- The TypeError thrown by the `URL` constructor on a non-absolute URL. -/
  | urlError
  /-- The input text did not parse (thrown by the YAML parser; modeled at
  the boundary by `Option.none` input). -/
  | malformedInput
  /-- The explicit `throw new Error('... not a valid ... specification')`
  of the converters' version checks. -/
  | dialectMismatch
  deriving Repr, DecidableEq

instance instDecEqExceptJson {ε α : Type} [DecidableEq ε] [DecidableEq α] :
    DecidableEq (Except ε α) := fun a b =>
  match a, b with
  | .ok x, .ok y =>
      if h : x = y then isTrue (by rw [h])
      else isFalse (by intro hc; cases hc; exact h rfl)
  | .error x, .error y =>
      if h : x = y then isTrue (by rw [h])
      else isFalse (by intro hc; cases hc; exact h rfl)
  | .ok _, .error _ => isFalse (by intro hc; cases hc)
  | .error _, .ok _ => isFalse (by intro hc; cases hc)

/-- Property access that models the JavaScript TypeError on a nullish
receiver (`x.k` with `x` null or undefined throws). -/
def jsGet (j : Json) (k : String) : Except JsErr Json :=
  match j with
  | .null => .error .typeError
  | .undef => .error .typeError
  | _ => pure (j.getF k)

/-- `Object.entries` as a pure list: object fields, array elements indexed by
decimal strings, string characters indexed by decimal strings, nothing for
other primitives.  (`Object.entries` on null/undefined throws; callers that
can reach that case check first.) -/
def jsEntries (j : Json) : List (String × Json) :=
  match j with
  | .objCons _ _ _ => j.fieldsOf
  | .objNil => []
  | .arrCons _ _ => (j.elemsOf.enum.map fun p => (toString p.1, p.2))
  | .arrNil => []
  | .str s => (s.data.enum.map fun p => (toString p.1, Json.str (String.mk [p.2])))
  | _ => []

/-- `Object.keys(x).length` (indices for arrays and strings). -/
def keyCount (j : Json) : Nat :=
  match j with
  | .objCons _ _ _ => j.fieldsOf.length
  | .arrCons _ _ => j.elemsOf.length
  | .str s => s.data.length
  | _ => 0

/-- JavaScript `.length` compared against a numeric bound: arrays and
strings have a numeric length; on other values the read yields `undefined`
and any `>` comparison is false. -/
def jsLengthGt (j : Json) (bound : Int) : Bool :=
  match j with
  | .arrCons _ _ => (Int.ofNat j.elemsOf.length) > bound
  | .arrNil => (0 : Int) > bound
  | .str s => (Int.ofNat s.data.length) > bound
  | _ => false

/-- `{...x}` object spread: copies entries (so spreading a string yields
indexed character fields, spreading other primitives or nullish values
yields an empty object). -/
def objSpread (j : Json) : Json :=
  match j with
  | .objCons _ _ _ => j
  | _ => jobj (jsEntries j)

/-- `Object.assign(target, src)`: fold the entries of `src` into `target`
(no-op for nullish `src`, mirroring JavaScript). -/
def objAssign (target src : Json) : Json :=
  (jsEntries src).foldl (fun acc p => acc.setKey p.1 p.2) target

/-- The elements of a value required to be an array (`none` when the value
is not an array, which is where JavaScript array methods would throw). -/
def asArr : Json → Option (List Json)
  | .arrNil => some []
  | .arrCons h t => (asArr t).map (h :: ·)
  | _ => none

/-- `for ... of` iteration: arrays yield elements, strings yield 1-character
strings, anything else is not iterable and throws. -/
def jsIterate (j : Json) : Except JsErr (List Json) :=
  match j with
  | .str s => pure (s.data.map fun c => Json.str (String.mk [c]))
  | _ => match asArr j with
         | some xs => pure xs
         | none => .error .typeError

/- ### Character-level string operations (kernel-reducible). -/

/-- Replace the first occurrence of `pat` in a character list. -/
def replFirstL (pat repl : List Char) : List Char → List Char
  | [] => []
  | c :: cs =>
      if pat.isPrefixOf (c :: cs) then repl ++ (c :: cs).drop pat.length
      else c :: replFirstL pat repl cs

/-- JavaScript `String.prototype.replace` with a string pattern: replaces
only the first occurrence. -/
def sReplaceFirst (s pat repl : String) : String :=
  String.mk (replFirstL pat.data repl.data s.data)

/-- Substring containment over character lists. -/
def containsL (pat : List Char) : List Char → Bool
  | [] => pat.isEmpty
  | c :: cs => pat.isPrefixOf (c :: cs) || containsL pat cs

/-- JavaScript `String.prototype.includes`. -/
def sIncludes (s sub : String) : Bool := sub.data.isEmpty || containsL sub.data s.data

/-- JavaScript `String.prototype.startsWith`. -/
def sStartsWith (s pre : String) : Bool := pre.data.isPrefixOf s.data

/-- JavaScript `String.prototype.toUpperCase` (ASCII is all we need). -/
def sToUpper (s : String) : String := String.mk (s.data.map Char.toUpper)

/-- JavaScript string coercion `String(x)` as used by `+` on strings,
template literals and `Array.prototype.join`.  Arrays flatten to their
comma-joined element strings; plain objects render as `[object Object]`. -/
def jsToString : Json → String
  | .undef => "undefined"
  | .null => "null"
  | .bool b => if b then "true" else "false"
  | .num n => toString n
  | .str s => s
  | .arrNil => ""
  | .arrCons h t =>
      jsToString h ++ (match t with | .arrNil => "" | _ => "," ++ jsToString t)
  | .objNil => "[object Object]"
  | .objCons _ _ _ => "[object Object]"

/-- `(x || '')` coerced to a string, the idiom used when appending notes to
a possibly-absent `description`. -/
def descOrEmpty (j : Json) : String := if j.truthy then jsToString j else ""

/-- Worker for `jsonStringify`.  The mode argument selects between value
position (`0`), array-tail position (`1`) and object-tail position (`2`);
keeping all three in one function keeps the recursion structural. -/
def jsonStrM : Nat → Json → String
  | 0, .undef => "null"
  | 0, .null => "null"
  | 0, .bool b => if b then "true" else "false"
  | 0, .num n => toString n
  | 0, .str s => "\"" ++ s ++ "\""
  | 0, .arrNil => "[]"
  | 0, .arrCons h t => "[" ++ jsonStrM 0 h ++ jsonStrM 1 t ++ "]"
  | 0, .objNil => "\x7b\x7d"
  | 0, .objCons k v t =>
      "\x7b" ++ "\"" ++ k ++ "\":" ++ jsonStrM 0 v ++ jsonStrM 2 t ++ "\x7d"
  | 1, .arrCons h t => "," ++ jsonStrM 0 h ++ jsonStrM 1 t
  | 2, .objCons k v t => ",\"" ++ k ++ "\":" ++ jsonStrM 0 v ++ jsonStrM 2 t
  | _, _ => ""

/-- `JSON.stringify`, as used to preserve dropped enum values in a note.
(`undefined` inside an array stringifies as `null`; minimal string quoting
suffices for the values exercised here.) -/
def jsonStringify (j : Json) : String := jsonStrM 0 j

/- ### The reference & composition rewriter (`fixSwagger2References`). -/

/-- The modern registry prefix rewritten away for the legacy target. -/
def modernPre : String := "#/components/schemas/"

/-- The legacy registry prefix. -/
def legacyPre : String := "#/definitions/"

/-- `hasInvalidEnumValues`: an `enum` whose members cannot be represented
under the declared `array`/`object` type in the legacy dialect. -/
def hasInvalidEnumValues (schema : Json) : Bool :=
  if ¬ schema.truthy then false
  else
    match asArr (schema.getF "enum") with
    | none => false
    | some items =>
      if schema.getF "type" == Json.str "array" then
        items.any fun it => it.isArrForm || (it.typeofObject && !(it == Json.null))
      else if schema.getF "type" == Json.str "object" then
        items.any fun it => it.typeofObject && !(it == Json.null)
      else false

/-- `simplifyInvalidEnumSchema`: copy the schema, drop the enum, and record
the original enum values in the description. -/
def simplifyInvalidEnumSchema (schema : Json) : Json :=
  let simplified := objSpread schema
  let originalEnum := jsonStringify (schema.getF "enum")
  let simplified := simplified.removeKey "enum"
  simplified.setKey "description"
    (.str (descOrEmpty (simplified.getF "description") ++
      " (Simplified from a schema with complex enum values: " ++ originalEnum ++
      ". Original enum values cannot be directly represented in Swagger 2.0.)"))

/-- The union-member filter `schemas.filter(s => !s.type || s.type !== 'null')`;
the property read throws on nullish members, exactly as in JavaScript. -/
def unionFilterE : List Json → Except JsErr (List Json)
  | [] => pure []
  | s :: rest => do
      let t ← jsGet s "type"
      let rest' ← unionFilterE rest
      pure (if !t.truthy || !(t == Json.str "null") then s :: rest' else rest')

/-- `schemas.some(s => s.type === 'null')` (run after the filter has already
screened out nullish members, so the pure read is safe). -/
def hasNullTypeB (elems : List Json) : Bool :=
  elems.any fun s => s.getF "type" == Json.str "null"

/-- `preferredTypeOrders.indexOf(t)` for
`['boolean','string','integer','number','array','object']` (`-1` when the
type is not in the list, matching `indexOf`). -/
def preferredTypeIndex : Json → Int
  | .str "boolean" => 0
  | .str "string" => 1
  | .str "integer" => 2
  | .str "number" => 3
  | .str "array" => 4
  | .str "object" => 5
  | _ => -1

/-- The comparator key `a.type ? indexOf(a.type) : Infinity`; `1000` stands
in for `Infinity` (every actual index is below it, and the comparator only
ever uses the relative order). -/
def prefRank (s : Json) : Int :=
  if (s.getF "type").truthy then preferredTypeIndex (s.getF "type") else 1000

/-- The multi-member choice of the union reducer (converter.ts lines
1021-1051): a two-member `$ref`-with-string rule, a two-member
string-with-integer rule, then a stable sort by type preference.
(JavaScript's `Array.prototype.sort` is stable; for a consistent comparator
its result is the unique stable sort, here realized by insertion sort.) -/
def chooseUnionSchema (nonNull : List Json) : Json :=
  let hasRef := nonNull.any fun s => (s.getF "$ref").truthy
  let hasString := nonNull.any fun s => s.getF "type" == Json.str "string"
  let hasInteger := nonNull.any fun s => s.getF "type" == Json.str "integer"
  if nonNull.length = 2 && hasRef && hasString then
    (nonNull.find? fun s => (s.getF "$ref").truthy).getD .undef
  else if nonNull.length = 2 && hasString && hasInteger then
    (nonNull.find? fun s => s.getF "type" == Json.str "string").getD .undef
  else
    let sorted := List.insertionSort (fun a b => prefRank a ≤ prefRank b) nonNull
    let s0 := sorted.headD .undef
    if s0.truthy then s0 else nonNull.headD Json.undef

/-- Join a list of strings with a separator (kernel-reducible). -/
def joinSep (sep : String) : List String → String
  | [] => ""
  | [x] => x
  | x :: xs => x ++ sep ++ joinSep sep xs

/-- `nonNullSchemas.map(s => s.type || (s.$ref ? 'reference type' :
'unspecified type')).join(', ')`. -/
def originalTypesStr (ns : List Json) : String :=
  joinSep ", " (ns.map fun s =>
    if (s.getF "type").truthy then jsToString (s.getF "type")
    else if (s.getF "$ref").truthy then "reference type" else "unspecified type")

/-- The note appended when a multi-member union is spliced. -/
def simplificationMsg (key origTypes : String) : String :=
  " (Simplified from a complex " ++ key ++
  " structure with multiple possible types: " ++ origTypes ++
  ". Chosen representation may not capture all valid values.)"

/-- The note used by both union fallbacks. -/
def complexUnionMsg (key : String) : String :=
  " (Simplified from a complex " ++ key ++
  " structure that couldn\x27t be mapped to a specific type in Swagger 2.0.)"

/-- The note appended for an unrepresentable `not` keyword. -/
def notConstraintMsg : String :=
  " (Original schema contained \"not\" constraints that cannot be represented in Swagger 2.0.)"

/-- Union fallback: force `type: object` and append the explanatory note. -/
def unionFallback (key : String) (result : Json) : Json :=
  let r := result.setKey "type" (.str "object")
  r.setKey "description" (.str (descOrEmpty (r.getF "description") ++ complexUnionMsg key))

/-- The `not` branch: cannot be represented; note it and default the type. -/
def notBranch (result : Json) : Json :=
  let r := result.setKey "description"
    (.str (descOrEmpty (result.getF "description") ++ notConstraintMsg))
  if ¬ (r.getF "type").truthy then r.setKey "type" (.str "object") else r

/-- Append the multi-member simplification note unless it is already part of
the description; `.includes` on a truthy non-string description throws. -/
def appendSimplificationMsg (r : Json) (msg : String) : Except JsErr Json :=
  let d := r.getF "description"
  if ¬ d.truthy then pure (r.setKey "description" (.str ("" ++ msg)))
  else
    match d with
    | .str ds =>
        if ¬ sIncludes ds msg then pure (r.setKey "description" (.str (ds ++ msg))) else pure r
    | _ => .error .typeError

/-- The splice of the single-non-null-member branch:
`Object.entries(nonNullSchema).forEach(([k,v]) => result[k] = fix(v))`.
`fixRec` is the recursive call at the current fuel. -/
def spliceEntriesE (fixRec : Json → Except JsErr Json)
    (entries : List (String × Json)) (result : Json) : Except JsErr Json :=
  entries.foldlM (fun acc kv => do
    let v' ← fixRec kv.2
    pure (acc.setKey kv.1 v')) result

/-- The splice of the chosen schema in the multi-member branch, with its
special handling of `$ref`, of keys already present, and of `description`
merging (converter.ts lines 1064-1082). -/
def spliceChosenE (fixRec : Json → Except JsErr Json) (key : String)
    (entries : List (String × Json)) (result : Json) : Except JsErr Json :=
  entries.foldlM (fun acc kv => do
    let k := kv.1
    let v := kv.2
    if k = "$ref" && v.isStr then
      pure (acc.setKey k (.str (sReplaceFirst (jsToString v) modernPre legacyPre)))
    else if k ≠ key && ¬ acc.hasKeyB k then do
      let v' ← fixRec v
      pure (acc.setKey k v')
    else if k = "description" && (acc.getF "description").truthy && v.isStr then
      match acc.getF "description" with
      | .str ds =>
          if ¬ sIncludes ds "Simplified from a complex" then do
            let v' ← fixRec v
            pure (acc.setKey "description" (.str (ds ++ " | From " ++ key ++ ": " ++ jsToString v')))
          else pure acc
      | _ => .error .typeError
    else if ¬ acc.hasKeyB k then do
      let v' ← fixRec v
      pure (acc.setKey k v')
    else pure acc) result

/-- Concatenate two array values (`[...a, ...b]`). -/
def arrConcat (a b : Json) : Json := jarr (a.elemsOf ++ b.elemsOf)

/-- Merge one non-`$ref` `allOf` member into the accumulated merged schema:
`properties` are assigned over, `required` lists are concatenated, other
keys override (converter.ts lines 1118-1129); values are taken raw. -/
def allOfMergeEntries : List (String × Json) → Json → Json
  | [], merged => merged
  | (k, v) :: rest, merged =>
    if k = "properties" && v.typeofObject then
      let props := if (merged.getF "properties").truthy then merged.getF "properties" else Json.objNil
      allOfMergeEntries rest (merged.setKey "properties" (objAssign props v))
    else if k = "required" && v.isArrForm then
      let req := if (merged.getF "required").truthy then merged.getF "required" else Json.arrNil
      allOfMergeEntries rest (merged.setKey "required" (arrConcat req v))
    else
      allOfMergeEntries rest (merged.setKey k v)

/-- The `allOf` collection loop: `$ref` members are rewritten and kept for a
residual `allOf`; other members are merged (the `$ref` read throws on
nullish members, as in JavaScript). -/
def allOfCollectE (fixRec : Json → Except JsErr Json)
    (elems : List Json) : Except JsErr (Json × List Json) :=
  elems.foldlM (fun acc sc => do
    let rv ← jsGet sc "$ref"
    if rv.truthy then do
      let f ← fixRec sc
      pure (acc.1, acc.2 ++ [f])
    else
      pure (allOfMergeEntries (jsEntries sc) acc.1, acc.2)) (Json.objNil, [])

/-- Splice the merged `allOf` schema into the parent, skipping any `allOf`
key and fixing each value. -/
def allOfSpliceE (fixRec : Json → Except JsErr Json)
    (entries : List (String × Json)) (result : Json) : Except JsErr Json :=
  entries.foldlM (fun acc kv => do
    if kv.1 = "allOf" then pure acc
    else do
      let v' ← fixRec kv.2
      pure (acc.setKey kv.1 v')) result

/-- The `anyOf`/`oneOf` branch of the rewriter (converter.ts lines
996-1104): filter out null-markers, then splice a single member with a
nullable marker, or choose one of several members, or fall back. -/
def fixUnionE (fixRec : Json → Except JsErr Json) (key : String)
    (value result : Json) : Except JsErr Json := do
  match asArr value with
  | none => .error .typeError
  | some elems => do
    let nonNull ← unionFilterE elems
    let hasNull := hasNullTypeB elems
    if nonNull.length = 1 && hasNull then do
      let member := nonNull.headD .undef
      let r ← spliceEntriesE fixRec (jsEntries member) result
      let r := r.setKey "x-nullable" (.bool true)
      pure (if member.getF "type" == Json.str "boolean" then r.setKey "type" (.str "boolean") else r)
    else if nonNull.length > 0 then do
      let chosen := chooseUnionSchema nonNull
      if ¬ chosen.truthy then
        let r := unionFallback key result
        pure (if hasNull then r.setKey "x-nullable" (.bool true) else r)
      else do
        let r ← spliceChosenE fixRec key (jsEntries chosen) result
        let r ← appendSimplificationMsg r (simplificationMsg key (originalTypesStr nonNull))
        pure (if hasNull then r.setKey "x-nullable" (.bool true) else r)
    else
      pure (unionFallback key result)

/-- The `allOf` branch of the rewriter (converter.ts lines 1106-1146). -/
def fixAllOfE (fixRec : Json → Except JsErr Json)
    (value result : Json) : Except JsErr Json := do
  let elems ← jsIterate value
  let mr ← allOfCollectE fixRec elems
  let r ← if keyCount mr.1 > 0 then allOfSpliceE fixRec (jsEntries mr.1) result else pure result
  pure (if mr.2.length > 0 then r.setKey "allOf" (jarr mr.2) else r)

/-- One step of the rewriter's field loop.  The accumulator is `Sum.inl`
while folding and `Sum.inr` after the early `return` of the invalid-enum
case (subsequent fields are then skipped without effects). -/
def fixStep (fixRec : Json → Except JsErr Json) (inv : Bool) (orig : Json)
    (acc : Sum Json Json) (kv : String × Json) : Except JsErr (Sum Json Json) :=
  match acc with
  | .inr done => pure (.inr done)
  | .inl result =>
    let k := kv.1
    let v := kv.2
    if k = "$ref" && v.isStr then
      pure (.inl (result.setKey "$ref" (.str (sReplaceFirst (jsToString v) modernPre legacyPre))))
    else if k = "enum" && inv then
      pure (.inl result)
    else if k = "anyOf" || k = "oneOf" then do
      let r ← fixUnionE fixRec k v result
      pure (.inl r)
    else if k = "allOf" then do
      let r ← fixAllOfE fixRec v result
      pure (.inl r)
    else if k = "not" then
      pure (.inl (notBranch result))
    else if inv then
      pure (.inr (simplifyInvalidEnumSchema orig))
    else do
      let v' ← fixRec v
      pure (.inl (result.setKey k v'))

/-- Fuel-indexed worker for `fixSwagger2References`.  The recursion is
structural on the fuel so that every application at a concrete input is
kernel-reducible; `Json.weight` of the input is always a sufficient fuel. -/
def fixF : Nat → Json → Except JsErr Json
  | 0, _ => .error .typeError
  | Nat.succ n, j =>
    if ¬ j.truthy then pure j
    else
      match j with
      | .arrCons h t => do
          let h' ← fixF n h
          let t' ← fixF n t
          pure (.arrCons h' t')
      | .arrNil => pure .arrNil
      | .objCons k v t => do
          let r ← (Json.objCons k v t).fieldsOf.foldlM
            (fixStep (fixF n) (hasInvalidEnumValues (Json.objCons k v t)) (Json.objCons k v t))
            (.inl .objNil)
          match r with
          | .inl res => pure res
          | .inr early => pure early
      | .objNil => pure .objNil
      | x => pure x

/-- `fixSwagger2References` (converter.ts lines 971-1173): rewrite registry
`$ref` prefixes and collapse composition keywords for the Swagger 2.0
target. -/
def fixSwagger2References (j : Json) : Except JsErr Json := fixF j.weight j

/- ### The parameter normalizer (`ensureParameterTypes`, `convertParameters`). -/

/-- The schema fields promoted onto a non-body parameter (converter.ts
lines 1196-1199 and 1529-1532). -/
def schemaPromoteProps : List String :=
  ["type", "format", "enum", "minimum", "maximum", "exclusiveMinimum",
   "exclusiveMaximum", "multipleOf", "minLength", "maxLength", "pattern",
   "minItems", "maxItems", "uniqueItems", "default"]

/-- Copy every defined promoted field of `schema` onto `target`
(`if (schema[prop] !== undefined) target[prop] = schema[prop]`). -/
def promoteSchemaProps (schema target : Json) : Json :=
  schemaPromoteProps.foldl (fun acc prop =>
    if schema.getF prop == Json.undef then acc else acc.setKey prop (schema.getF prop)) target

/-- `ensureParameterTypes` on a single parameter (converter.ts lines
1179-1228): promote a lone `$ref`, extract schema fields, default the type
to string, and default array items. -/
def eptOne (param : Json) : Except JsErr Json := do
  let newParam := objSpread param
  let pin ← jsGet param "in"
  if pin.truthy && !(pin == Json.str "body") then
    let schema := param.getF "schema"
    if schema.truthy && (schema.getF "$ref").truthy && keyCount schema = 1 then
      match schema.getF "$ref" with
      | .str s =>
          pure ((newParam.setKey "$ref" (.str (sReplaceFirst s modernPre legacyPre))).removeKey "schema")
      | _ => .error .typeError
    else
      let np :=
        if schema.truthy && !(schema.getF "$ref").truthy then
          let np := promoteSchemaProps schema newParam
          let np :=
            if schema.getF "type" == Json.str "array" && (schema.getF "items").truthy then
              np.setKey "items" (schema.getF "items")
            else np
          np.removeKey "schema"
        else newParam
      let np :=
        if !(np.getF "$ref").truthy && !(np.getF "type").truthy then
          np.setKey "type" (.str "string")
        else np
      let np :=
        if np.getF "type" == Json.str "array" && !(np.getF "items").truthy then
          np.setKey "items" (jobj [("type", .str "string")])
        else np
      pure np
  else
    pure newParam

/-- `parameters.map(...)` over the array spine (a non-array would make the
JavaScript `.map` call throw). -/
def eptSpine : Json → Except JsErr Json
  | .arrCons p t => do
      let p' ← eptOne p
      let t' ← eptSpine t
      pure (.arrCons p' t')
  | .arrNil => pure .arrNil
  | _ => .error .typeError

/-- `ensureParameterTypes` (converter.ts lines 1176-1230); falsy inputs are
passed through unchanged. -/
def ensureParameterTypes (ps : Json) : Except JsErr Json :=
  if ¬ ps.truthy then pure ps else eptSpine ps

/-- Short-circuiting `elems.some(s => s.type === target)` (the property
read throws on a nullish member not yet short-circuited past). -/
def someTypeE : List Json → String → Except JsErr Bool
  | [], _ => pure false
  | s :: rest, target => do
      let t ← jsGet s "type"
      if t == Json.str target then pure true else someTypeE rest target

/-- `convertParameters` on a single parameter (converter.ts lines
1503-1573): relocate cookie parameters to header, promote a lone `$ref`,
flatten an embedded schema onto the parameter. -/
def cpOne (param0 : Json) : Except JsErr Json := do
  let pin0 ← jsGet param0 "in"
  let param := if pin0 == Json.str "cookie" then (objSpread param0).setKey "in" (.str "header") else param0
  let pin := param.getF "in"
  let schema := param.getF "schema"
  if !(pin == Json.str "body") && schema.truthy && (schema.getF "$ref").truthy && keyCount schema = 1 then
    match schema.getF "$ref" with
    | .str s =>
        pure (((objSpread param).setKey "$ref" (.str (sReplaceFirst s modernPre legacyPre))).setKey "schema" Json.undef)
    | _ => .error .typeError
  else if !(pin == Json.str "body") && schema.truthy then
    let converted := objSpread param
    if (schema.getF "$ref").truthy then
      match schema.getF "$ref" with
      | .str s =>
          pure ((converted.setKey "$ref" (.str (sReplaceFirst s modernPre legacyPre))).removeKey "schema")
      | _ => .error .typeError
    else do
      let converted := promoteSchemaProps schema converted
      let isBool ←
        if schema.getF "type" == Json.str "boolean" then pure true
        else if (schema.getF "anyOf").truthy then
          match asArr (schema.getF "anyOf") with
          | none => .error .typeError
          | some elems => do
              let b1 ← someTypeE elems "boolean"
              if b1 then someTypeE elems "null" else pure false
        else pure false
      let converted := if isBool then converted.setKey "type" (.str "boolean") else converted
      let converted :=
        if schema.getF "nullable" == Json.bool true || schema.getF "x-nullable" == Json.bool true then
          converted.removeKey "x-nullable"
        else converted
      let converted :=
        if schema.getF "type" == Json.str "array" && (schema.getF "items").truthy then
          let c2 := converted.setKey "items" (schema.getF "items")
          if ¬ (c2.getF "items").truthy then c2.setKey "items" (jobj [("type", .str "string")]) else c2
        else converted
      pure (converted.removeKey "schema")
  else
    pure param

/-- `parameters.map(...)` for `convertParameters`. -/
def cpSpine : Json → Except JsErr Json
  | .arrCons p t => do
      let p' ← cpOne p
      let t' ← cpSpine t
      pure (.arrCons p' t')
  | .arrNil => pure .arrNil
  | _ => .error .typeError

/-- `convertParameters` (converter.ts lines 1500-1578): map each parameter
and finish with `ensureParameterTypes`; falsy input yields `[]`. -/
def convertParameters (ps : Json) : Except JsErr Json := do
  if ¬ ps.truthy then pure (jarr [])
  else do
    let converted ← cpSpine ps
    ensureParameterTypes converted

/- ### The operation converter (modern → legacy). -/

/-- The response loop of `convertOperation` (converter.ts lines 2035-2052):
copy the description, choose a content type preferring `application/json`,
and flatten its truthy schema onto the response. -/
def respFoldE : List (String × Json) → Json → Except JsErr Json
  | [], responses => pure responses
  | (code, response) :: rest, responses => do
      let d ← jsGet response "description"
      let respObj := jobj [("description", if d.truthy then d else .str "")]
      let respObj ←
        if (response.getF "content").truthy then do
          let content := response.getF "content"
          let ctOpt := if (content.getF "application/json").truthy then some "application/json"
            else (jsEntries content).head?.map (·.1)
          match ctOpt with
          | some ct =>
              if (Json.str ct).truthy then do
                let entry := content.getF ct
                let sch ← jsGet entry "schema"
                pure (if sch.truthy then respObj.setKey "schema" sch else respObj)
              else pure respObj
          | none => pure respObj
        else pure respObj
      respFoldE rest (responses.setKey code respObj)

/-- `convertOperation` (converter.ts lines 1988-2055): copy the descriptive
fields, convert parameters, turn `requestBody` into a synthetic `body`
parameter (preferring the JSON media type), and flatten responses. -/
def convertOperation (operation : Json) : Except JsErr Json := do
  let summary ← jsGet operation "summary"
  let result := jobj [("summary", summary), ("description", operation.getF "description"),
    ("operationId", operation.getF "operationId"), ("tags", operation.getF "tags"),
    ("responses", Json.objNil)]
  let result := if (operation.getF "security").truthy then result.setKey "security" (operation.getF "security") else result
  let result ←
    if (operation.getF "parameters").truthy then do
      let cp ← convertParameters (operation.getF "parameters")
      pure (result.setKey "parameters" cp)
    else pure result
  let result ←
    if (operation.getF "requestBody").truthy then do
      let rb := operation.getF "requestBody"
      let bodyParam := jobj [("name", .str "body"), ("in", .str "body"),
        ("required", rb.getF "required"), ("description", rb.getF "description")]
      let bodyParam ←
        if (rb.getF "content").truthy then do
          let content := rb.getF "content"
          let ctOpt := if (content.getF "application/json").truthy then some "application/json"
            else (jsEntries content).head?.map (·.1)
          match ctOpt with
          | some ct =>
              if (Json.str ct).truthy then do
                let entry := content.getF ct
                let sch ← jsGet entry "schema"
                pure (bodyParam.setKey "schema" sch)
              else pure bodyParam
          | none => pure bodyParam
        else pure bodyParam
      let params := if (result.getF "parameters").truthy then result.getF "parameters" else jarr []
      pure (result.setKey "parameters" (params.arrPush bodyParam))
    else pure result
  if (operation.getF "responses").truthy then do
    let resps ← respFoldE (jsEntries (operation.getF "responses")) Json.objNil
    pure (result.setKey "responses" resps)
  else pure result

/- ### The security scheme mapper (modern → legacy). -/

/-- `convertSecurityScheme` (converter.ts lines 1879-1936). -/
def convertSecurityScheme (scheme : Json) : Except JsErr Json := do
  let t ← jsGet scheme "type"
  let result := jobj [("type", t)]
  let result ←
    if t == Json.str "http" then
      if scheme.getF "scheme" == Json.str "basic" then pure (result.setKey "type" (.str "basic"))
      else if scheme.getF "scheme" == Json.str "bearer" then
        pure ((((result.setKey "type" (.str "apiKey")).setKey "name" (.str "Authorization")).setKey
          "in" (.str "header")).setKey "description"
          (.str "Bearer authentication. Example: \"Bearer \x7btoken\x7d\""))
      else pure result
    else if t == Json.str "apiKey" then
      pure ((result.setKey "name" (scheme.getF "name")).setKey "in" (scheme.getF "in"))
    else if t == Json.str "oauth2" then do
      let result := result.setKey "type" (.str "oauth2")
      let flows := scheme.getF "flows"
      let impl ← jsGet flows "implicit"
      if impl.truthy then
        pure (((result.setKey "flow" (.str "implicit")).setKey "authorizationUrl"
          (impl.getF "authorizationUrl")).setKey "scopes"
          (if (impl.getF "scopes").truthy then impl.getF "scopes" else Json.objNil))
      else
        let pw := flows.getF "password"
        if pw.truthy then
          pure (((result.setKey "flow" (.str "password")).setKey "tokenUrl"
            (pw.getF "tokenUrl")).setKey "scopes"
            (if (pw.getF "scopes").truthy then pw.getF "scopes" else Json.objNil))
        else
          let cc := flows.getF "clientCredentials"
          if cc.truthy then
            pure (((result.setKey "flow" (.str "application")).setKey "tokenUrl"
              (cc.getF "tokenUrl")).setKey "scopes"
              (if (cc.getF "scopes").truthy then cc.getF "scopes" else Json.objNil))
          else
            let ac := flows.getF "authorizationCode"
            if ac.truthy then
              pure ((((result.setKey "flow" (.str "accessCode")).setKey "authorizationUrl"
                (ac.getF "authorizationUrl")).setKey "tokenUrl" (ac.getF "tokenUrl")).setKey
                "scopes" (if (ac.getF "scopes").truthy then ac.getF "scopes" else Json.objNil))
            else pure result
    else if t == Json.str "openIdConnect" then
      pure ((((result.setKey "type" (.str "oauth2")).setKey "flow" (.str "implicit")).setKey
        "scopes" Json.objNil).setKey "description"
        (.str "OpenID Connect (OIDC) authentication. See documentation for details."))
    else pure result
  pure (if (scheme.getF "description").truthy then result.setKey "description" (scheme.getF "description") else result)

/- ### The unsupported-feature detector (modern source). -/

/-- Fold a warning-producing function over a list, concatenating the
warnings in order (modelling sequential `warnings.push`). -/
def foldAppendM {α : Type} (f : α → Except JsErr (List String)) : List α → Except JsErr (List String)
  | [] => pure []
  | x :: xs => do
      let w ← f x
      let ws ← foldAppendM f xs
      pure (w ++ ws)

/-- Warnings for one named component schema (oneOf/anyOf/not/invalid enum;
converter.ts lines 1250-1263). -/
def schemaWarnings (p : String × Json) : Except JsErr (List String) := do
  let name := p.1
  let schema := p.2
  let oneOf ← jsGet schema "oneOf"
  let w1 := if oneOf.truthy then
    ["oneOf in schema \"" ++ name ++ "\" will be simplified to a single schema with x-nullable if null is an option."] else []
  let w2 := if (schema.getF "anyOf").truthy then
    ["anyOf in schema \"" ++ name ++ "\" will be simplified to a single schema with x-nullable if null is an option."] else []
  let w3 := if (schema.getF "not").truthy then
    ["\"not\" keyword in schema \"" ++ name ++ "\" is not supported in Swagger 2.0 and will be simplified."] else []
  let w4 := if hasInvalidEnumValues schema then
    ["Invalid enum values in schema \"" ++ name ++ "\" will be simplified for Swagger 2.0 compatibility."] else []
  pure (w1 ++ w2 ++ w3 ++ w4)

/-- Warnings for one path-level parameter (converter.ts lines 1273-1283). -/
def pathParamWarnings (path : String) (param : Json) : Except JsErr (List String) := do
  let pin ← jsGet param "in"
  let w1 := if pin == Json.str "cookie" then
    ["Cookie parameter at path level for \"" ++ path ++ "\" will be converted to a header parameter."] else []
  let schema := param.getF "schema"
  let w2 := if pin.truthy && !(pin == Json.str "body") && schema.truthy &&
      (schema.getF "$ref").truthy && keyCount schema = 1 then
    ["Parameter with schema containing only $ref at path level for \"" ++ path ++ "\" will have $ref moved to parameter level."] else []
  pure (w1 ++ w2)

/-- Warnings for one operation-level parameter (converter.ts lines 1293-1302). -/
def opParamWarnings (methodUp path : String) (param : Json) : Except JsErr (List String) := do
  let pin ← jsGet param "in"
  let w1 := if pin == Json.str "cookie" then
    ["Cookie parameter in " ++ methodUp ++ " " ++ path ++ " will be converted to a header parameter."] else []
  let schema := param.getF "schema"
  let w2 := if pin.truthy && !(pin == Json.str "body") && schema.truthy &&
      (schema.getF "$ref").truthy && keyCount schema = 1 then
    ["Parameter with schema containing only $ref in " ++ methodUp ++ " " ++ path ++ " will have $ref moved to parameter level."] else []
  pure (w1 ++ w2)

/-- Warning for one response with multiple content types (converter.ts
lines 1309-1315). -/
def respWarning (methodUp path : String) (p : String × Json) : Except JsErr (List String) := do
  let c ← jsGet p.2 "content"
  pure (if c.truthy && keyCount c > 1 then
    ["Multiple response content types for status " ++ p.1 ++ " in " ++ methodUp ++ " " ++ path ++ " will be consolidated."] else [])

/-- Warnings for one method entry of a path item (converter.ts lines
1286-1316): parameter findings, a request-body consolidation finding, and
response consolidation findings. -/
def methodWarnings (path : String) (p : String × Json) : Except JsErr (List String) := do
  let method := p.1
  let operation := p.2
  if method = "parameters" || method = "$ref" || ¬ operation.truthy then pure []
  else do
    let mU := sToUpper method
    let wParams ←
      if (operation.getF "parameters").truthy then do
        let elems ← jsIterate (operation.getF "parameters")
        foldAppendM (opParamWarnings mU path) elems
      else pure []
    let rbc := (operation.getF "requestBody").getF "content"
    let wRb := if rbc.truthy && keyCount rbc > 1 then
      ["Multiple request content types in " ++ mU ++ " " ++ path ++ " will be consolidated to a single schema."] else []
    let wResp ←
      if (operation.getF "responses").truthy then
        foldAppendM (respWarning mU path) (jsEntries (operation.getF "responses"))
      else pure []
    pure (wParams ++ wRb ++ wResp)

/-- Warnings for one path entry (converter.ts lines 1268-1317). -/
def pathWarnings (p : String × Json) : Except JsErr (List String) := do
  let path := p.1
  let pathItem := p.2
  let pp ← jsGet pathItem "parameters"
  let wPp ←
    if pp.truthy then do
      let elems ← jsIterate pp
      foldAppendM (pathParamWarnings path) elems
    else pure []
  let wMethods ← foldAppendM (methodWarnings path) (jsEntries pathItem)
  pure (wPp ++ wMethods)

/-- `detectUnsupportedFeatures` (converter.ts lines 1233-1326): the ordered
warning list for a modern source document. -/
def detectUnsupportedFeatures (spec : Json) : Except JsErr (List String) := do
  let comps ← jsGet spec "components"
  let w1 := if (comps.getF "callbacks").truthy then
    ["Callbacks are not supported in Swagger 2.0 and will be removed."] else []
  let w2 := if (comps.getF "links").truthy then
    ["Links are not supported in Swagger 2.0 and will be removed."] else []
  let wSchemas ←
    if (comps.getF "schemas").truthy then foldAppendM schemaWarnings (jsEntries (comps.getF "schemas"))
    else pure []
  let paths := spec.getF "paths"
  let wPaths ← if paths.truthy then foldAppendM pathWarnings (jsEntries paths) else pure []
  let servers := spec.getF "servers"
  let wServers := if servers.truthy && jsLengthGt servers 1 then
    ["Multiple servers defined. Only the first one will be used in the converted Swagger 2.0 specification."] else []
  pure (w1 ++ w2 ++ wSchemas ++ wPaths ++ wServers)

/- ### Server addressing. -/

/-- The parts of a parsed URL used by the converter. -/
structure UrlParts where
  protocol : String
  host : String
  pathname : String
  deriving Repr, DecidableEq

/-- Characters allowed in a URL scheme after the leading letter. -/
def isSchemeChar (c : Char) : Bool := c.isAlpha || c.isDigit || c = '+' || c = '-' || c = '.'

/-- Split a character list at the first occurrence of a character. -/
def splitAtChar (target : Char) : List Char → Option (List Char × List Char)
  | [] => none
  | c :: cs =>
      if c = target then some ([], cs)
      else (splitAtChar target cs).map (fun p => (c :: p.1, p.2))

/-- Modelled from the platform: the WHATWG `URL` constructor, restricted to
simple absolute URLs of the shape `scheme://host/path` (the port stays part
of `host`; userinfo, percent-encoding, path normalization and non-special
scheme forms are outside the model).  `none` models the constructor
throwing a TypeError, which is what happens for every scheme-less or
relative URL. -/
def parseUrl (s : String) : Option UrlParts :=
  match splitAtChar ':' s.data with
  | none => none
  | some (schemeL, rest) =>
    match schemeL with
    | [] => none
    | c0 :: cs =>
      if ¬ c0.isAlpha || ¬ cs.all isSchemeChar then none
      else
        match rest with
        | '/' :: '/' :: rest2 =>
            let hostL := rest2.takeWhile (fun c => c ≠ '/')
            let pathL := rest2.dropWhile (fun c => c ≠ '/')
            if hostL.isEmpty then none
            else some ⟨String.mk ((c0 :: cs).map Char.toLower) ++ ":", String.mk hostL, String.mk pathL⟩
        | _ => none

/-- `x[0]` indexing as used on `servers` and `schemes`. -/
def jsIndex0 : Json → Json
  | .arrCons h _ => h
  | .str s => match s.data with
              | [] => .undef
              | c :: _ => .str (String.mk [c])
  | _ => Json.undef

/-- The elements of a value on which a JavaScript array method is invoked
(`.filter`, `.forEach`, `.some`, `.includes`); throws on non-arrays. -/
def asArrE (j : Json) : Except JsErr (List Json) :=
  match asArr j with
  | some l => pure l
  | none => .error .typeError

/-- `buildServerUrl` (converter.ts lines 1747-1756): first declared scheme
(default `https`), host (default `example.com`), base path (default `/`),
joined as a template literal. -/
def buildServerUrl (swaggerSpec : Json) : Except JsErr String := do
  let sch ← jsGet swaggerSpec "schemes"
  let scheme := if sch.truthy && jsLengthGt sch 0 then jsIndex0 sch else Json.str "https"
  let host := if (swaggerSpec.getF "host").truthy then swaggerSpec.getF "host" else Json.str "example.com"
  let basePath := if (swaggerSpec.getF "basePath").truthy then swaggerSpec.getF "basePath" else Json.str "/"
  pure (jsToString scheme ++ "://" ++ jsToString host ++ jsToString basePath)

/- ### The conversion orchestrator, modern → legacy. -/

/-- The `components.schemas` → `definitions` copy, simplifying schemas with
invalid enum values (converter.ts lines 1422-1431). -/
def buildDefinitions : List (String × Json) → Json → Json
  | [], defs => defs
  | (k, sc) :: rest, defs =>
      buildDefinitions rest
        (defs.setKey k (if hasInvalidEnumValues sc then simplifyInvalidEnumSchema sc else sc))

/-- The `securitySchemes` → `securityDefinitions` loop (lines 1434-1438). -/
def buildSecurityDefinitions : List (String × Json) → Json → Except JsErr Json
  | [], acc => pure acc
  | (k, sc) :: rest, acc => do
      let cs ← convertSecurityScheme sc
      buildSecurityDefinitions rest (acc.setKey k cs)

/-- The per-method loop of the paths conversion (lines 1451-1460). -/
def buildSwaggerPathMethods : List (String × Json) → Json → Except JsErr Json
  | [], sp => pure sp
  | (method, operation) :: rest, sp =>
      if method = "parameters" || method = "$ref" then buildSwaggerPathMethods rest sp
      else do
        let op' ← convertOperation operation
        let op' := if (operation.getF "security").truthy then op'.setKey "security" (operation.getF "security") else op'
        buildSwaggerPathMethods rest (sp.setKey method op')

/-- The per-path loop of the paths conversion (lines 1441-1462). -/
def buildSwaggerPaths : List (String × Json) → Json → Except JsErr Json
  | [], acc => pure acc
  | (path, pathItem) :: rest, acc => do
      let pp ← jsGet pathItem "parameters"
      let sp ←
        if pp.truthy then do
          let cp ← convertParameters pp
          pure (Json.objNil.setKey "parameters" cp)
        else pure Json.objNil
      let sp ← buildSwaggerPathMethods (jsEntries pathItem) sp
      buildSwaggerPaths rest (acc.setKey path sp)

/-- The per-method part of the final `ensureParameterTypes` pass (lines
1476-1484). -/
def finalOpFix : List (String × Json) → Json → Except JsErr Json
  | [], pathItem => pure pathItem
  | (method, operation) :: rest, pathItem =>
      if method = "parameters" || method = "$ref" || ¬ operation.truthy then finalOpFix rest pathItem
      else do
        let opp := operation.getF "parameters"
        let operation' ←
          if opp.truthy then do
            let e ← ensureParameterTypes opp
            pure (operation.setKey "parameters" e)
          else pure operation
        finalOpFix rest (pathItem.setKey method operation')

/-- The per-path part of the final `ensureParameterTypes` pass (lines
1468-1486). -/
def finalPathsFix : List (String × Json) → Json → Except JsErr Json
  | [], acc => pure acc
  | (p, pathItem) :: rest, acc => do
      let pl ← jsGet pathItem "parameters"
      let pathItem' ←
        if pl.truthy then do
          let e ← ensureParameterTypes pl
          pure (pathItem.setKey "parameters" e)
        else pure pathItem
      let pathItem' ← finalOpFix (jsEntries pathItem') pathItem'
      finalPathsFix rest (acc.setKey p pathItem')

/-- The server-addressing step of `convertOpenApiToSwagger` (converter.ts
lines 1411-1418): parse the first declared server URL into host, base path
and scheme. -/
def owaServers (spec sw : Json) : Except JsErr Json := do
  let servers := spec.getF "servers"
  if servers.truthy && jsLengthGt servers 0 then do
    let u ← jsGet (jsIndex0 servers) "url"
    match u with
    | .str us =>
      match parseUrl us with
      | some parts =>
          pure (((sw.setKey "host" (.str parts.host)).setKey "basePath"
            (.str (if parts.pathname = "" then "/" else parts.pathname))).setKey
            "schemes" (jarr [.str (sReplaceFirst parts.protocol ":" "")]))
      | none => .error .urlError
    | _ => .error .urlError
  else pure sw

/-- The final `ensureParameterTypes` pass of `convertOpenApiToSwagger`
(converter.ts lines 1466-1489) and the return. -/
def owaFinish (warnings : List String) (fixed : Json) :
    Except JsErr (Json × List String) := do
  let fixed2 ←
    if (fixed.getF "paths").truthy then do
      let ps ← finalPathsFix (jsEntries (fixed.getF "paths")) (fixed.getF "paths")
      pure (fixed.setKey "paths" ps)
    else pure fixed
  pure (fixed2, warnings)

/-- The paths conversion and the reference rewriting of
`convertOpenApiToSwagger` (converter.ts lines 1441-1489). -/
def owaFix (spec : Json) (warnings : List String) (sw : Json) :
    Except JsErr (Json × List String) := do
  let sw ←
    if (spec.getF "paths").truthy then do
      let ps ← buildSwaggerPaths (jsEntries (spec.getF "paths")) (sw.getF "paths")
      pure (sw.setKey "paths" ps)
    else pure sw
  let fixed ← fixSwagger2References sw
  owaFinish warnings fixed

/-- The registry-copying steps of `convertOpenApiToSwagger` (converter.ts
lines 1421-1438) and the rest of the pipeline. -/
def owaTail (spec : Json) (warnings : List String) (sw : Json) :
    Except JsErr (Json × List String) := do
  let comps := spec.getF "components"
  let sw :=
    if comps.truthy && (comps.getF "schemas").truthy then
      sw.setKey "definitions" (buildDefinitions (jsEntries (comps.getF "schemas")) (sw.getF "definitions"))
    else sw
  let sw ←
    if comps.truthy && (comps.getF "securitySchemes").truthy then do
      let sd ← buildSecurityDefinitions (jsEntries (comps.getF "securitySchemes")) (sw.getF "securityDefinitions")
      pure (sw.setKey "securityDefinitions" sd)
    else pure sw
  owaFix spec warnings sw

/-- `convertOpenApiToSwagger` (converter.ts lines 1378-1497), taking the
already-parsed tree (`none` models a YAML parse failure, which the function
rethrows).  Returns the converted tree together with the warning list. -/
def convertOpenApiToSwagger (parsed : Option Json) : Except JsErr (Json × List String) := do
  match parsed with
  | none => .error .malformedInput
  | some spec => do
    let v ← jsGet spec "openapi"
    if ¬ v.truthy then .error .dialectMismatch
    else
      match v with
      | .str vs =>
        if ¬ sStartsWith vs "3." then .error .dialectMismatch
        else do
          let warnings ← detectUnsupportedFeatures spec
          let sw := jobj [("swagger", .str "2.0"), ("info", spec.getF "info"),
            ("host", .str ""), ("basePath", .str "/"), ("schemes", jarr [.str "https"]),
            ("consumes", jarr [.str "application/json"]),
            ("produces", jarr [.str "application/json"]), ("paths", Json.objNil),
            ("definitions", Json.objNil), ("securityDefinitions", Json.objNil)]
          let sw := if (spec.getF "security").truthy then sw.setKey "security" (spec.getF "security") else sw
          let sw ← owaServers spec sw
          owaTail spec warnings sw
      | _ => .error .typeError

/- ### The legacy → modern direction. -/

/-- `fixOpenApiReferences` (converter.ts lines 1669-1685): rewrite
`#/definitions/` pointers to `#/components/schemas/`, recursing into every
container. -/
def fixOpenApiReferences : Json → Json
  | .objCons k v t =>
      if k = "$ref" && v.isStr then
        .objCons k (.str (sReplaceFirst (jsToString v) legacyPre modernPre)) (fixOpenApiReferences t)
      else if v.isContainer then
        .objCons k (fixOpenApiReferences v) (fixOpenApiReferences t)
      else .objCons k v (fixOpenApiReferences t)
  | .arrCons h t => .arrCons (fixOpenApiReferences h) (fixOpenApiReferences t)
  | x => x

/-- `convertSwaggerParametersToOpenApi` on one parameter (converter.ts
lines 1691-1743): wrap flattened type fields into a nested schema,
translate the nullable marker, and reflect `required: false` as nullable. -/
def cspOne (param : Json) : Except JsErr Json := do
  let newParam := objSpread param
  let pin ← jsGet param "in"
  if !(pin == Json.str "body") && !(pin == Json.str "formData") then
    if (param.getF "$ref").truthy then pure newParam
    else if (param.getF "type").truthy || (param.getF "format").truthy ||
        (param.getF "items").truthy || (param.getF "enum").truthy then
      let schema := jobj [("type", param.getF "type"), ("format", param.getF "format"),
        ("enum", param.getF "enum")]
      let pair :=
        if param.getF "x-nullable" == Json.bool true then
          (schema.setKey "nullable" (.bool true), newParam.removeKey "x-nullable")
        else (schema, newParam)
      let schema := pair.1
      let newParam := pair.2
      let schema := if param.getF "required" == Json.bool false then schema.setKey "nullable" (.bool true) else schema
      let schema :=
        if param.getF "type" == Json.str "array" && (param.getF "items").truthy then
          schema.setKey "items" (param.getF "items")
        else schema
      let schema := jobj ((jsEntries schema).filter (fun p => !(p.2 == Json.undef) && !(p.2 == Json.null)))
      pure (((((newParam.setKey "schema" schema).removeKey "type").removeKey
        "format").removeKey "items").removeKey "enum")
    else pure newParam
  else pure newParam

/-- `parameters.map(...)` for the legacy → modern parameter conversion. -/
def cspSpine : Json → Except JsErr Json
  | .arrCons p t => do
      let p' ← cspOne p
      let t' ← cspSpine t
      pure (.arrCons p' t')
  | .arrNil => pure .arrNil
  | _ => .error .typeError

/-- `convertSwaggerParametersToOpenApi` (converter.ts lines 1688-1744). -/
def convertSwaggerParametersToOpenApi (ps : Json) : Except JsErr Json :=
  if ¬ ps.truthy then pure (jarr []) else cspSpine ps

/-- Short-circuiting `params.some(p => p.in === target)`. -/
def someInE : List Json → String → Except JsErr Bool
  | [], _ => pure false
  | p :: rest, target => do
      let pin ← jsGet p "in"
      if pin == Json.str target then pure true else someInE rest target

/-- The response loop of the legacy → modern operation conversion
(converter.ts lines 1854-1873): each flat schema becomes a content map
with one entry per `produces` value. -/
def swRespFoldE (operation globalProduces : Json) : List (String × Json) → Json → Except JsErr Json
  | [], acc => pure acc
  | (status, response) :: rest, acc => do
      let d ← jsGet response "description"
      let respObj := jobj [("description", if d.truthy then d else .str "")]
      let respObj ←
        if (response.getF "schema").truthy then do
          let cts := if (operation.getF "produces").truthy then operation.getF "produces" else globalProduces
          let ctsL ← asArrE cts
          let content := ctsL.foldl (fun a ct =>
            a.setKey (jsToString ct) (jobj [("schema", response.getF "schema")])) Json.objNil
          pure (respObj.setKey "content" content)
        else pure respObj
      swRespFoldE operation globalProduces rest (acc.setKey status respObj)

/-- `convertSwaggerOperationToOpenApi` (converter.ts lines 1759-1876). -/
def convertSwaggerOperationToOpenApi (operation globalConsumes globalProduces : Json) :
    Except JsErr Json := do
  let summary ← jsGet operation "summary"
  let op := jobj [("summary", summary), ("description", operation.getF "description"),
    ("operationId", operation.getF "operationId"), ("tags", operation.getF "tags"),
    ("responses", Json.objNil)]
  let op := if (operation.getF "security").truthy then op.setKey "security" (operation.getF "security") else op
  let op ←
    if (operation.getF "parameters").truthy then do
      let params ← asArrE (operation.getF "parameters")
      let pairs ← params.mapM (fun p => do
        let pin ← jsGet p "in"
        pure (p, pin))
      let bodyParams := (pairs.filter (fun q => q.2 == Json.str "body")).map (·.1)
      let formDataParams := (pairs.filter (fun q => q.2 == Json.str "formData")).map (·.1)
      let otherParams := (pairs.filter (fun q =>
        !(q.2 == Json.str "body") && !(q.2 == Json.str "formData"))).map (·.1)
      let op ←
        if otherParams.length > 0 then do
          let conv ← cspSpine (jarr otherParams)
          pure (op.setKey "parameters" conv)
        else pure op
      let op ←
        if bodyParams.length > 0 then do
          let bodyParam := bodyParams.headD Json.undef
          let rbBase := jobj [("description", bodyParam.getF "description"),
            ("required", .bool (bodyParam.getF "required").truthy), ("content", Json.objNil)]
          let cts := if (operation.getF "consumes").truthy then operation.getF "consumes" else globalConsumes
          let ctsL ← asArrE cts
          let content := ctsL.foldl (fun a ct =>
            a.setKey (jsToString ct) (jobj [("schema", bodyParam.getF "schema")])) Json.objNil
          pure (op.setKey "requestBody" (rbBase.setKey "content" content))
        else pure op
      let op ←
        if formDataParams.length > 0 then do
          let isFile := formDataParams.any (fun p => p.getF "type" == Json.str "file")
          let contentType := if isFile then "multipart/form-data" else "application/x-www-form-urlencoded"
          let pr := formDataParams.foldl (fun acc p =>
            let entry := jobj [("type", p.getF "type"), ("description", p.getF "description")]
            let entry :=
              if p.getF "type" == Json.str "array" && (p.getF "items").truthy then
                entry.setKey "items" (p.getF "items")
              else entry
            let entry := if (p.getF "enum").truthy then entry.setKey "enum" (p.getF "enum") else entry
            (acc.1.setKey (jsToString (p.getF "name")) entry,
             if (p.getF "required").truthy then acc.2 ++ [p.getF "name"] else acc.2))
            (Json.objNil, ([] : List Json))
          let required := pr.2
          let rb := jobj [("required", .bool (required.length > 0)),
            ("content", jobj [(contentType, jobj [("schema", jobj [("type", .str "object"),
              ("properties", pr.1),
              ("required", if required.length > 0 then jarr required else Json.undef)])])])]
          pure (op.setKey "requestBody" rb)
        else pure op
      pure op
    else pure op
  if (operation.getF "responses").truthy then do
    let resps ← swRespFoldE operation globalProduces (jsEntries (operation.getF "responses")) Json.objNil
    pure (op.setKey "responses" resps)
  else pure op

/-- `convertSecurityDefinitionToScheme` (converter.ts lines 1939-1985). -/
def convertSecurityDefinitionToScheme (definition : Json) : Except JsErr Json := do
  let t ← jsGet definition "type"
  let result := jobj [("type", t), ("description", definition.getF "description")]
  if t == Json.str "basic" then
    pure ((result.setKey "type" (.str "http")).setKey "scheme" (.str "basic"))
  else if t == Json.str "apiKey" then
    pure ((result.setKey "in" (definition.getF "in")).setKey "name" (definition.getF "name"))
  else if t == Json.str "oauth2" then
    let result := (result.setKey "type" (.str "oauth2")).setKey "flows" Json.objNil
    let scopes := if (definition.getF "scopes").truthy then definition.getF "scopes" else Json.objNil
    let fl := definition.getF "flow"
    if fl == Json.str "implicit" then
      pure (result.setKey "flows" (jobj [("implicit",
        jobj [("authorizationUrl", definition.getF "authorizationUrl"), ("scopes", scopes)])]))
    else if fl == Json.str "password" then
      pure (result.setKey "flows" (jobj [("password",
        jobj [("tokenUrl", definition.getF "tokenUrl"), ("scopes", scopes)])]))
    else if fl == Json.str "application" then
      pure (result.setKey "flows" (jobj [("clientCredentials",
        jobj [("tokenUrl", definition.getF "tokenUrl"), ("scopes", scopes)])]))
    else if fl == Json.str "accessCode" then
      pure (result.setKey "flows" (jobj [("authorizationCode",
        jobj [("authorizationUrl", definition.getF "authorizationUrl"),
          ("tokenUrl", definition.getF "tokenUrl"), ("scopes", scopes)])]))
    else pure result
  else pure result

/-- Warnings for one method entry of a legacy path item (converter.ts
lines 1353-1370). -/
def swMethodWarnings (consumes : Json) (path : String) (p : String × Json) :
    Except JsErr (List String) := do
  if p.1 = "parameters" || p.1 = "$ref" || ¬ p.2.truthy then pure []
  else do
    let op := p.2
    let mU := sToUpper p.1
    let params := if (op.getF "parameters").truthy then op.getF "parameters" else jarr []
    let elems ← asArrE params
    let hasFD ← someInE elems "formData"
    let w1 := if hasFD then
      ["formData parameters in " ++ mU ++ " " ++ path ++ " will be converted to requestBody with content type application/x-www-form-urlencoded or multipart/form-data."] else []
    let pins ← elems.mapM (fun q => jsGet q "in")
    let bodyCount := (pins.filter (fun pi => pi == Json.str "body")).length
    let w2 ←
      if bodyCount > 0 then do
        let nonJson ←
          if ¬ consumes.truthy then pure true
          else do
            let cl ← asArrE consumes
            pure (! cl.any (· == Json.str "application/json"))
        pure (if nonJson then
          ["Body parameters in " ++ mU ++ " " ++ path ++ " with non-JSON content types will be converted to appropriate request body media types."] else [])
      else pure []
    pure (w1 ++ w2)

/-- Warnings for one legacy path entry (converter.ts lines 1343-1371).
The source reads `pathItem.parameters` inside an empty `if` body, which
still throws on a nullish path item; the read is kept. -/
def swPathWarnings (consumes : Json) (p : String × Json) : Except JsErr (List String) := do
  let _ ← jsGet p.2 "parameters"
  foldAppendM (swMethodWarnings consumes p.1) (jsEntries p.2)

/-- `detectSwaggerUnsupportedFeatures` (converter.ts lines 1329-1375). -/
def detectSwaggerUnsupportedFeatures (swaggerSpec : Json) : Except JsErr (List String) := do
  let prod ← jsGet swaggerSpec "produces"
  let w1 := if prod.truthy && jsLengthGt prod 1 then
    ["Multiple global \"produces\" values will be converted to individual response content types in OpenAPI 3.x."] else []
  let cons := swaggerSpec.getF "consumes"
  let w2 := if cons.truthy && jsLengthGt cons 1 then
    ["Multiple global \"consumes\" values will be converted to individual request content types in OpenAPI 3.x."] else []
  let paths := swaggerSpec.getF "paths"
  let wPaths ← if paths.truthy then foldAppendM (swPathWarnings cons) (jsEntries paths) else pure []
  pure (w1 ++ w2 ++ wPaths)

/-- The `securityDefinitions` → `securitySchemes` loop (lines 1620-1624). -/
def buildSecuritySchemes : List (String × Json) → Json → Except JsErr Json
  | [], acc => pure acc
  | (k, d) :: rest, acc => do
      let s ← convertSecurityDefinitionToScheme d
      buildSecuritySchemes rest (acc.setKey k s)

/-- The per-method loop of the legacy → modern paths conversion (lines
1637-1650). -/
def buildOpenApiPathMethods (spec : Json) : List (String × Json) → Json → Except JsErr Json
  | [], acc => pure acc
  | (method, operation) :: rest, acc =>
      if method = "parameters" || method = "$ref" || ¬ operation.truthy then
        buildOpenApiPathMethods spec rest acc
      else do
        let gc := if (spec.getF "consumes").truthy then spec.getF "consumes" else jarr [.str "application/json"]
        let gp := if (spec.getF "produces").truthy then spec.getF "produces" else jarr [.str "application/json"]
        let op' ← convertSwaggerOperationToOpenApi operation gc gp
        let op' := if (operation.getF "security").truthy then op'.setKey "security" (operation.getF "security") else op'
        buildOpenApiPathMethods spec rest (acc.setKey method op')

/-- The per-path loop of the legacy → modern paths conversion (lines
1628-1652). -/
def buildOpenApiPaths (spec : Json) : List (String × Json) → Json → Except JsErr Json
  | [], acc => pure acc
  | (path, pathItem) :: rest, acc => do
      let pp ← jsGet pathItem "parameters"
      let openApiPath ←
        if pp.truthy then do
          let conv ← convertSwaggerParametersToOpenApi pp
          pure (Json.objNil.setKey "parameters" conv)
        else pure Json.objNil
      let openApiPath ← buildOpenApiPathMethods spec (jsEntries pathItem) openApiPath
      buildOpenApiPaths spec rest (acc.setKey path openApiPath)

/-- `convertSwaggerToOpenApi` (converter.ts lines 1581-1666), on the
already-parsed tree. -/
def convertSwaggerToOpenApi (parsed : Option Json) : Except JsErr (Json × List String) := do
  match parsed with
  | none => .error .malformedInput
  | some swaggerSpec => do
    let v ← jsGet swaggerSpec "swagger"
    if ¬ v.truthy || ¬ (v == Json.str "2.0") then .error .dialectMismatch
    else do
      let warnings ← detectSwaggerUnsupportedFeatures swaggerSpec
      let oas := jobj [("openapi", .str "3.0.0"), ("info", swaggerSpec.getF "info"),
        ("paths", Json.objNil),
        ("components", jobj [("schemas", Json.objNil), ("securitySchemes", Json.objNil)])]
      let oas := if (swaggerSpec.getF "security").truthy then oas.setKey "security" (swaggerSpec.getF "security") else oas
      let serverUrl ← buildServerUrl swaggerSpec
      let oas := oas.setKey "servers" (jarr [jobj [("url", .str serverUrl)]])
      let oas :=
        if (swaggerSpec.getF "definitions").truthy then
          oas.setKey "components" ((oas.getF "components").setKey "schemas" (swaggerSpec.getF "definitions"))
        else oas
      let oas ←
        if (swaggerSpec.getF "securityDefinitions").truthy then do
          let ss ← buildSecuritySchemes (jsEntries (swaggerSpec.getF "securityDefinitions"))
            ((oas.getF "components").getF "securitySchemes")
          pure (oas.setKey "components" ((oas.getF "components").setKey "securitySchemes" ss))
        else pure oas
      let oas ←
        if (swaggerSpec.getF "paths").truthy then do
          let ps ← buildOpenApiPaths swaggerSpec (jsEntries (swaggerSpec.getF "paths")) (oas.getF "paths")
          pure (oas.setKey "paths" ps)
        else pure oas
      pure (fixOpenApiReferences oas, warnings)

/- ### The dialect classifier. -/

/-- The classification result of `detectSpecType`. -/
inductive SpecType where
  | openapi3
  | swagger2
  | unknown
  deriving Repr, DecidableEq

/-- `isOpenApi3` (converter.ts lines 2087-2089). -/
def isOpenApi3 (obj : Json) : Bool :=
  obj.truthy && (obj.getF "openapi").truthy && (obj.getF "openapi").isStr &&
    sStartsWith (jsToString (obj.getF "openapi")) "3."

/-- `isSwagger2` (converter.ts lines 2092-2094). -/
def isSwagger2 (obj : Json) : Bool :=
  obj.truthy && (obj.getF "swagger").truthy && obj.getF "swagger" == Json.str "2.0"

/-- `detectSpecType` (converter.ts lines 2097-2111): the `try` around
`yaml.load` is modeled by the `Option` input (`none` = the parser threw,
which the `catch` turns into `'unknown'`). -/
def detectSpecType : Option Json → SpecType
  | none => .unknown
  | some parsed =>
      if isOpenApi3 parsed then .openapi3
      else if isSwagger2 parsed then .swagger2
      else .unknown

/- ### Auxiliary definitions used by the verification. -/

/-- Is this an object value (`objNil` or `objCons`)? -/
def Json.isObjVal : Json → Bool
  | .objNil => true
  | .objCons _ _ _ => true
  | _ => false

/-- A proper object spine (every tail is again an object). -/
def Json.objSpine : Json → Bool
  | .objNil => true
  | .objCons _ _ t => t.objSpine
  | _ => false

/-- A proper array spine. -/
def Json.arrSpine : Json → Bool
  | .arrNil => true
  | .arrCons _ t => t.arrSpine
  | _ => false

/-- Concatenate two object spines. -/
def objAppend : Json → Json → Json
  | .objCons k v t, s => .objCons k v (objAppend t s)
  | _, s => s

/-- A tree that needs no rewriting by `fixSwagger2References`: no
composition keyword (`anyOf`/`oneOf`/`allOf`/`not`), no `$ref` string
containing the modern registry prefix, no invalid enum structure, and no
duplicate keys.  The mode is `true` at a value and `false` along the tail
of an object spine (where the invalid-enum check of the whole object has
already been taken). -/
def pristineM : Bool → Json → Bool
  | isValue, .objCons k v t =>
      (!isValue || !(hasInvalidEnumValues (.objCons k v t))) &&
      !(k = "anyOf" || k = "oneOf" || k = "allOf" || k = "not") &&
      (!(k = "$ref" && v.isStr) || !(sIncludes (jsToString v) modernPre)) &&
      !(Json.hasKeyB t k) && t.isObjVal &&
      pristineM true v && pristineM false t
  | _, .arrCons h t => t.isArrForm && pristineM true h && pristineM false t
  | _, _ => true

/-- A value the rewriter passes through unchanged. -/
def pristine (j : Json) : Bool := pristineM true j

/-- The leftmost element of minimal type-preference rank — the
specification-side choice rule (fixed type-preference order, ties broken by
declaration order). -/
def firstMinBy : List Json → Option Json
  | [] => none
  | x :: xs =>
      match firstMinBy xs with
      | none => some x
      | some y => if prefRank x ≤ prefRank y then some x else some y

/- ### Concrete documents used as counterexamples and witnesses. -/

/-- A well-formed modern document whose only server URL is relative.  The
URL constructor throws on it, which is neither of the two documented fatal
error kinds. -/
def relServerDoc : Json :=
  jobj [("openapi", .str "3.0.0"), ("info", Json.objNil),
    ("servers", jarr [jobj [("url", .str "/v1")]]), ("paths", Json.objNil)]

/-- A modern document carrying an `openIdConnect` security scheme. -/
def oidcDoc : Json :=
  jobj [("openapi", .str "3.0.0"), ("info", Json.objNil),
    ("components", jobj [("securitySchemes", jobj [("oidc",
      jobj [("type", .str "openIdConnect"),
            ("openIdConnectUrl", .str "https://example.com/oidc")])])]),
    ("paths", Json.objNil)]

/-- A modern document whose schema registry contains a nullable union whose
non-null member is a registry reference. -/
def refNullUnionDoc : Json :=
  jobj [("openapi", .str "3.0.0"), ("info", Json.objNil),
    ("components", jobj [("schemas", jobj [
      ("Pet", jobj [("type", .str "object")]),
      ("Wrap", jobj [("anyOf", jarr [jobj [("$ref", .str "#/components/schemas/Pet")],
                                     jobj [("type", .str "null")]])])])]),
    ("paths", Json.objNil)]

/-- A modern document with one operation parameter that has no location
(`in`) field at all. -/
def noLocParamDoc : Json :=
  jobj [("openapi", .str "3.0.0"), ("info", Json.objNil),
    ("paths", jobj [("/p", jobj [("get", jobj [
      ("parameters", jarr [jobj [("name", .str "x")]]),
      ("responses", Json.objNil)])])])]

/-- A parametric modern document with two servers; only the first URL is
ever parsed. -/
def twoServersDoc (u : String) : Json :=
  jobj [("openapi", .str "3.0.0"), ("info", Json.objNil),
    ("servers", jarr [jobj [("url", .str u)], jobj [("url", .str "second-ignored")]]),
    ("paths", Json.objNil)]

/-- The legacy skeleton produced for `twoServersDoc` once the first URL
parses into `parts`. -/
def twoServersExpected (parts : UrlParts) : Json :=
  jobj [("swagger", .str "2.0"), ("info", Json.objNil),
    ("host", .str parts.host),
    ("basePath", .str (if parts.pathname = "" then "/" else parts.pathname)),
    ("schemes", jarr [.str (sReplaceFirst parts.protocol ":" "")]),
    ("consumes", jarr [.str "application/json"]),
    ("produces", jarr [.str "application/json"]),
    ("paths", Json.objNil), ("definitions", Json.objNil),
    ("securityDefinitions", Json.objNil)]

/-- The multi-server warning text. -/
def multiServerWarning : String :=
  "Multiple servers defined. Only the first one will be used in the converted Swagger 2.0 specification."

/-- The request-body consolidation warning for a method and path. -/
def multiReqContentWarning (method path : String) : String :=
  "Multiple request content types in " ++ sToUpper method ++ " " ++ path ++
  " will be consolidated to a single schema."

/- ### Well-formedness for the totality theorem. -/

/-- Array of object values (the shape `anyOf`/`oneOf` values must have for
the rewriter not to throw). -/
def arrOfObjs : Json → Bool
  | .arrNil => true
  | .arrCons h t => h.isObjVal && arrOfObjs t
  | _ => false

/-- Array of lone-`$ref` objects (the shape `allOf` values have in the
well-formed class: the common reference-composition pattern). -/
def allOfRefMembers : Json → Bool
  | .arrNil => true
  | .arrCons h t =>
      (match h with
       | .objCons "$ref" (.str _) .objNil => true
       | _ => false) && allOfRefMembers t
  | _ => false

/-- Trees on which the rewriter cannot throw: `description` fields are
strings when truthy (`.includes` is called on them during union merging),
union values are arrays of objects, and `allOf` values are arrays of
lone-`$ref` objects. -/
def fixSafe : Json → Bool
  | .objCons k v t =>
      (!(k = "description") || (v.isStr || !v.truthy)) &&
      (!(k = "anyOf" || k = "oneOf") || arrOfObjs v) &&
      (!(k = "allOf") || allOfRefMembers v) &&
      fixSafe v && fixSafe t
  | .arrCons h t => fixSafe h && fixSafe t
  | _ => true

/-- Registry/status-code/path names that do not collide with the keys the
rewriter treats specially. -/
def safeName (k : String) : Bool :=
  !(k = "description" || k = "anyOf" || k = "oneOf" || k = "allOf" ||
    k = "not" || k = "$ref" || k = "enum" || k = "type" || k = "parameters")

/-- A well-formed schema registry: safe names, non-nullish, throw-free
schema values (composition keywords allowed). -/
def wfSchemaMap : Json → Bool
  | .objNil => true
  | .objCons k v t =>
      safeName k && v.isObjVal && fixSafe v && wfSchemaMap t
  | _ => false

/-- A well-formed security scheme: an object, throw-free, and if it is an
`oauth2` scheme its `flows` is non-nullish (the mapper reads
`scheme.flows.implicit` unconditionally in that case). -/
def wfScheme (s : Json) : Bool :=
  s.isObjVal && fixSafe s &&
    (!(s.getF "type" == Json.str "oauth2") ||
      (!(s.getF "flows" == Json.null) && !(s.getF "flows" == Json.undef)))

/-- A well-formed security scheme registry. -/
def wfSecSchemes : Json → Bool
  | .objNil => true
  | .objCons k v t => safeName k && wfScheme v && wfSecSchemes t
  | _ => false

/-- A well-formed content map: object entries whose values are objects
(the consolidation reads `content[ct].schema`) and throw-free. -/
def wfContent : Json → Bool
  | .objNil => true
  | .objCons _ v t => v.isObjVal && fixSafe v && wfContent t
  | _ => false

/-- A well-formed response map: safe status names and object responses
whose content maps, when present, are well formed. -/
def wfResponses : Json → Bool
  | .objNil => true
  | .objCons k v t =>
      safeName k && v.isObjVal && fixSafe v &&
      (!(v.getF "content").truthy || wfContent (v.getF "content")) && wfResponses t
  | _ => false

/-- A well-formed operation for the totality theorem: an object with no
explicit parameter list, throw-free fields, and well-formed request body
content and responses.  Composition keywords, OIDC references and `not`
inside its schemas are all allowed. -/
def wfOperation (op : Json) : Bool :=
  op.isObjVal && !(op.hasKeyB "parameters") && fixSafe op &&
  (!(op.getF "requestBody").truthy ||
    (!((op.getF "requestBody").getF "content").truthy ||
      wfContent ((op.getF "requestBody").getF "content"))) &&
  (!(op.getF "responses").truthy || wfResponses (op.getF "responses"))

/-- The HTTP method names admitted as path item keys. -/
def isHttpMethod (k : String) : Bool :=
  k = "get" || k = "put" || k = "post" || k = "delete" || k = "options" ||
  k = "head" || k = "patch" || k = "trace"

/-- A well-formed path item: only HTTP method keys, no duplicates, each a
well-formed operation. -/
def wfPathItem : Json → Bool
  | .objNil => true
  | .objCons k v t => isHttpMethod k && !(Json.hasKeyB t k) && wfOperation v && wfPathItem t
  | _ => false

/-- A well-formed paths map (distinct safe path names). -/
def wfPaths : Json → Bool
  | .objNil => true
  | .objCons k v t => safeName k && !(Json.hasKeyB t k) && wfPathItem v && wfPaths t
  | _ => false

/-- A well-formed server list: each entry is a lone-`url` object whose URL
the URL constructor accepts. -/
def wfServers : Json → Bool
  | .arrNil => true
  | .arrCons h t =>
      (match h with
       | .objCons "url" (.str u) .objNil => (parseUrl u).isSome
       | _ => false) && wfServers t
  | _ => false

/-- A well-formed modern document for the totality theorem: a modern
version marker and well-formed parts.  Composition keywords (oneOf, anyOf,
allOf, not), openIdConnect schemes, multiple content types and multiple
servers are all allowed — these only degrade. -/
def WFDoc (spec : Json) : Bool :=
  spec.isObjVal &&
  (match spec.getF "openapi" with
   | .str s => sStartsWith s "3."
   | _ => false) &&
  fixSafe (spec.getF "info") &&
  fixSafe (spec.getF "security") &&
  (!(spec.getF "servers").truthy || wfServers (spec.getF "servers")) &&
  (!(spec.getF "components").truthy ||
    ((!((spec.getF "components").getF "schemas").truthy ||
       wfSchemaMap ((spec.getF "components").getF "schemas")) &&
     (!((spec.getF "components").getF "securitySchemes").truthy ||
       wfSecSchemes ((spec.getF "components").getF "securitySchemes")))) &&
  (!(spec.getF "paths").truthy || wfPaths (spec.getF "paths"))

/-- A string value, or a falsy value (the class of values `description`
fields may hold without making the union merging throw). -/
def strOrFalsy (v : Json) : Bool := v.isStr || !v.truthy

/-- The accumulated rebuild keeps a string-or-falsy `description`; the
invariant that protects the `.includes` calls of the rewriter. -/
def descOk (j : Json) : Bool := strOrFalsy (j.getF "description")

/-- A key the rewriter's field loop treats plainly (no rewrite, no splice,
no skip). -/
def plainKey (k : String) : Bool :=
  !(k = "$ref" || k = "enum" || k = "anyOf" || k = "oneOf" || k = "allOf" || k = "not")

/-- An object spine all of whose keys are plain and distinct. -/
def plainObj : Json → Bool
  | .objNil => true
  | .objCons k _ t => plainKey k && !(Json.hasKeyB t k) && plainObj t
  | _ => false

/-- The rewriter restricted to a plain object spine: each field value is
rewritten in place and nothing else changes (the form `fixF` provably takes
on plain objects). -/
def fixPointwise (n : Nat) : Json → Except JsErr Json
  | .objCons k v t => do
      let v' ← fixF n v
      let t' ← fixPointwise n t
      pure (.objCons k v' t')
  | j => pure j

/-- The shape of a converted operation's `parameters` value: absent, or a
one-element array holding the synthetic body parameter. -/
def opParamShape (v : Json) : Prop :=
  v.getF "parameters" = Json.undef ∨
    ∃ bp, v.getF "parameters" = Json.arrCons bp Json.arrNil ∧ fixSafe bp = true ∧
      plainObj bp = true ∧ bp.isObjVal = true ∧ bp.hasKeyB "enum" = false ∧
      bp.getF "in" = Json.str "body"

/-- The invariants a converted operation object satisfies. -/
def opShape (v : Json) : Prop :=
  fixSafe v = true ∧ plainObj v = true ∧ v.hasKeyB "enum" = false ∧ opParamShape v

/-- The invariants a converted path item satisfies. -/
def piShape (pi : Json) : Prop :=
  fixSafe pi = true ∧ plainObj pi = true ∧ pi.hasKeyB "enum" = false ∧
  pi.hasKeyB "parameters" = false ∧ ∀ q ∈ pi.fieldsOf, opShape q.2

/-- The invariants the converted paths map satisfies. -/
def pathsShape (P : Json) : Prop :=
  fixSafe P = true ∧ plainObj P = true ∧ P.hasKeyB "enum" = false ∧
  ∀ q ∈ P.fieldsOf, piShape q.2

/-- A concrete well-formed modern document exercising the degradable
constructs: a nullable anyOf union in the registry, an openIdConnect
security scheme, and an operation with responses. -/
def c1WfDoc : Json :=
  jobj [("openapi", Json.str "3.0.2"),
    ("info", jobj [("title", Json.str "T")]),
    ("paths", jobj [("/p", jobj [("get", jobj [("responses",
      jobj [("200", jobj [("description", Json.str "ok")])])])])]),
    ("components", jobj [
      ("schemas", jobj [("U", jobj [("anyOf", jarr [jobj [("type", Json.str "string")],
        jobj [("type", Json.str "null")]])])]),
      ("securitySchemes", jobj [("oidc", jobj [("type", Json.str "openIdConnect")])])])]

/- ### Basic lemmas. -/

theorem Json.weight_pos (j : Json) : 1 ≤ j.weight := by
  cases j <;> simp [Json.weight] <;> omega

theorem Json.weight_field_lt :
    ∀ (j : Json) (k : String) (v : Json), (k, v) ∈ j.fieldsOf → v.weight < j.weight := by
  intro j
  induction j with
  | objCons k' v' t ihv iht =>
      intro k v h
      simp only [Json.fieldsOf, List.mem_cons] at h
      rcases h with h | h
      · cases h; simp [Json.weight]; omega
      · have := iht k v h
        simp [Json.weight]; omega
  | _ => intro k v h; simp [Json.fieldsOf] at h

theorem Json.weight_elem_lt :
    ∀ (j : Json) (x : Json), x ∈ j.elemsOf → x.weight < j.weight := by
  intro j
  induction j with
  | arrCons h' t ihh iht =>
      intro x hx
      simp only [Json.elemsOf, List.mem_cons] at hx
      rcases hx with hx | hx
      · subst hx; simp [Json.weight]; omega
      · have := iht x hx
        simp [Json.weight]; omega
  | _ => intro x hx; simp [Json.elemsOf] at hx

theorem Json.isObjVal_of_getF_ne_undef {j : Json} {k : String}
    (h : j.getF k ≠ .undef) : j.isObjVal = true := by
  cases j <;> simp [Json.getF, Json.isObjVal] at h ⊢

theorem Json.truthy_of_isObjVal {j : Json} (h : j.isObjVal = true) : j.truthy = true := by
  cases j <;> simp [Json.isObjVal, Json.truthy] at h ⊢

theorem Json.getF_setKey_self {j : Json} (hobj : j.objSpine = true) (k : String) (v : Json) :
    (j.setKey k v).getF k = v := by
  induction j with
  | objCons k' v' t ihv iht =>
      simp only [Json.objSpine] at hobj
      by_cases hk : k' = k
      · subst hk; simp [Json.setKey, Json.getF]
      · simp [Json.setKey, hk, Json.getF]
        exact iht hobj
  | objNil => simp [Json.setKey, Json.getF]
  | _ => simp [Json.objSpine] at hobj

theorem Json.getF_setKey_ne {j : Json} {k k' : String} (h : k' ≠ k) (v : Json) :
    (j.setKey k v).getF k' = j.getF k' := by
  induction j with
  | objCons k0 v0 t ihv iht =>
      by_cases hk : k0 = k
      · have hne : ¬ (k = k') := fun hc => h hc.symm
        simp [Json.setKey, hk, Json.getF, hne]
      · simp only [Json.setKey, if_neg hk, Json.getF]
        by_cases hk' : k0 = k'
        · simp [hk']
        · simp [hk', iht]
  | objNil =>
      have : ¬ (k = k') := fun hc => h hc.symm
      simp [Json.setKey, Json.getF, this]
  | _ => simp [Json.setKey]

theorem Json.getF_removeKey_ne {j : Json} {k k' : String} (h : k' ≠ k) :
    (j.removeKey k).getF k' = j.getF k' := by
  induction j with
  | objCons k0 v0 t ihv iht =>
      by_cases hk : k0 = k
      · have hne : ¬ (k = k') := fun hc => h hc.symm
        simp [Json.removeKey, hk, Json.getF, hne, iht]
      · simp only [Json.removeKey, if_neg hk, Json.getF]
        by_cases hk' : k0 = k'
        · simp [hk']
        · simp [hk', iht]
  | _ => simp [Json.removeKey]

theorem Json.hasKeyB_setKey_ne {j : Json} {k k' : String} (h : k' ≠ k) (v : Json) :
    (j.setKey k v).hasKeyB k' = j.hasKeyB k' := by
  induction j with
  | objCons k0 v0 t ihv iht =>
      by_cases hk : k0 = k
      · subst hk; simp [Json.setKey, Json.hasKeyB]
      · simp [Json.setKey, hk, Json.hasKeyB, iht]
  | objNil =>
      have : ¬ (k = k') := fun hc => h hc.symm
      simp [Json.setKey, Json.hasKeyB, this]
  | _ => simp [Json.setKey]

theorem Json.setKey_fresh {j : Json} (hobj : j.objSpine = true) {k : String}
    (hfresh : j.hasKeyB k = false) (v : Json) :
    j.setKey k v = objAppend j (.objCons k v .objNil) := by
  induction j with
  | objCons k0 v0 t ihv iht =>
      simp only [Json.objSpine] at hobj
      simp only [Json.hasKeyB, Bool.or_eq_false_iff, decide_eq_false_iff_not] at hfresh
      simp [Json.setKey, hfresh.1, objAppend]
      exact iht hobj hfresh.2
  | objNil => simp [Json.setKey, objAppend]
  | _ => simp [Json.objSpine] at hobj

theorem Json.setKey_self_of_getF {j : Json} {k : String} {v : Json}
    (h : j.getF k = v) (hv : v ≠ .undef) : j.setKey k v = j := by
  induction j with
  | objCons k0 v0 t ihv iht =>
      by_cases hk : k0 = k
      · subst hk; simp [Json.getF] at h; simp [Json.setKey, h]
      · simp only [Json.getF, if_neg hk] at h
        simp [Json.setKey, hk, iht h]
  | _ => exact absurd h.symm hv

theorem replFirstL_id {pat repl : List Char} :
    ∀ {l : List Char}, containsL pat l = false → replFirstL pat repl l = l := by
  intro l
  induction l with
  | nil => intro _; simp [replFirstL]
  | cons c cs ih =>
      intro h
      simp only [containsL, Bool.or_eq_false_iff] at h
      simp [replFirstL, h.1, ih h.2]

theorem sReplaceFirst_id {s pat repl : String} (h : sIncludes s pat = false) :
    sReplaceFirst s pat repl = s := by
  simp only [sIncludes, Bool.or_eq_false_iff] at h
  rw [sReplaceFirst, replFirstL_id h.2]

theorem exceptBind_ok {ε α β : Type} {x : Except ε α} {f : α → Except ε β} {b : β} :
    (x >>= f) = .ok b ↔ ∃ a, x = .ok a ∧ f a = .ok b := by
  cases x with
  | ok a => simp [Bind.bind, Except.bind]
  | error e => simp [Bind.bind, Except.bind]

theorem foldAppendM_mem_sub {α : Type} {f : α → Except JsErr (List String)} :
    ∀ {l : List α} {ws : List String}, foldAppendM f l = .ok ws → ∀ x ∈ l,
      ∃ w, f x = .ok w ∧ ∀ y ∈ w, y ∈ ws := by
  intro l
  induction l with
  | nil => intro ws _ x hx; simp at hx
  | cons a rest ih =>
      intro ws hok x hx
      simp only [foldAppendM] at hok
      rw [exceptBind_ok] at hok
      obtain ⟨w1, hw1, hok⟩ := hok
      rw [exceptBind_ok] at hok
      obtain ⟨w2, hw2, hok⟩ := hok
      simp only [pure, Except.pure, Except.ok.injEq] at hok
      subst hok
      rcases List.mem_cons.mp hx with hx | hx
      · subst hx
        exact ⟨w1, hw1, fun y hy => List.mem_append.mpr (Or.inl hy)⟩
      · obtain ⟨w, hw, hsub⟩ := ih hw2 x hx
        exact ⟨w, hw, fun y hy => List.mem_append.mpr (Or.inr (hsub y hy))⟩

/- ### Claim C10. -/

/-- Claim C10: `detectSpecType` returns exactly one of the three
classifications and never throws; unparseable text (modeled by `none`)
yields `unknown`; and a document carrying both dialect markers (an
`openapi` field starting with `3.` and `swagger` equal to `2.0`) is
classified `openapi3`, the modern check taking precedence. -/
theorem C10_classifier_total_and_precedence :
    (∀ p : Option Json, detectSpecType p = .openapi3 ∨ detectSpecType p = .swagger2 ∨
      detectSpecType p = .unknown) ∧
    detectSpecType none = .unknown ∧
    (∀ (d : Json) (s : String), d.getF "openapi" = .str s → sStartsWith s "3." = true →
      d.getF "swagger" = .str "2.0" → detectSpecType (some d) = .openapi3) := by
  refine ⟨?_, rfl, ?_⟩
  · intro p
    match p with
    | none => right; right; rfl
    | some d =>
        simp only [detectSpecType]
        by_cases h1 : isOpenApi3 d
        · simp [h1]
        · by_cases h2 : isSwagger2 d <;> simp [h1, h2]
  · intro d s hop hst _hsw
    have hobj : d.isObjVal = true := Json.isObjVal_of_getF_ne_undef (by rw [hop]; simp)
    have htr : d.truthy = true := Json.truthy_of_isObjVal hobj
    have hs : s ≠ "" := by
      intro he
      rw [he] at hst
      exact absurd hst (by decide)
    have hoa : isOpenApi3 d = true := by
      simp only [isOpenApi3, hop, htr]
      simp [Json.truthy, Json.isStr, jsToString, hst, bne_iff_ne, hs]
    simp [detectSpecType, hoa]

/-- Witness for C10: the precedence conjunct applied to a concrete document
carrying both markers. -/
theorem C10_classifier_total_and_precedence_witness :
    detectSpecType (some (jobj [("openapi", .str "3.0.0"), ("swagger", .str "2.0")])) = .openapi3 :=
  C10_classifier_total_and_precedence.2.2
    (jobj [("openapi", .str "3.0.0"), ("swagger", .str "2.0")]) "3.0.0"
    (by decide) (by decide) (by decide)

/- ### Claim C4 (code-bug evidence). -/

set_option maxRecDepth 100000 in
/-- Claim C4 is violated by the code: converting a document whose schema
`Wrap` is `anyOf [{$ref: #/components/schemas/Pet}, {type: null}]` succeeds,
but the `$ref` spliced by the single-non-null-member branch keeps the modern
`#/components/schemas/` prefix instead of being rewritten to
`#/definitions/` (the splice applies the rewriter to the raw string value,
which is returned unchanged; the multi-member branch fixes the pointer
explicitly, this branch does not). -/
theorem C4_ref_rewrite_missed :
    (convertOpenApiToSwagger (some refNullUnionDoc)).map
      (fun r => ((((r.1.getF "definitions").getF "Wrap").getF "$ref"),
        ((r.1.getF "definitions").getF "Wrap").getF "x-nullable", r.2))
      = .ok (.str "#/components/schemas/Pet", .bool true,
        ["anyOf in schema \"Wrap\" will be simplified to a single schema with x-nullable if null is an option."]) := by
  decide

/- ### Claim C8 counterexample. -/

set_option maxRecDepth 100000 in
/-- Claim C8's warning half is false on the code: converting a modern
document with an `openIdConnect` scheme produces the documented `oauth2`
implicit placeholder, but the returned warning list is empty — no warning
about the lossy degradation is ever recorded (the detector has no
openIdConnect check). -/
theorem C8_no_oidc_warning :
    (convertOpenApiToSwagger (some oidcDoc)).map
      (fun r => (r.2, (r.1.getF "securityDefinitions").getF "oidc"))
      = .ok (([] : List String), jobj [("type", .str "oauth2"), ("flow", .str "implicit"),
        ("scopes", Json.objNil),
        ("description", .str "OpenID Connect (OIDC) authentication. See documentation for details.")]) := by
  decide

/- ### Claim C9 counterexample. -/

set_option maxRecDepth 100000 in
/-- Claim C9's defaulting half is false on the code: a well-formed modern
document whose first server URL lacks a scheme does not get `https`
defaulted — the URL constructor throws and the whole conversion fails. -/
theorem C9_relative_url_no_default :
    convertOpenApiToSwagger (some relServerDoc) = .error .urlError := by decide

/- ### Claim C1 counterexample. -/

set_option maxRecDepth 100000 in
/-- Claim C1 is false as stated: on a well-formed modern document whose
only server URL is relative, the conversion raises a URL-parse error — a
third error kind, distinct from both MalformedInput and DialectMismatch. -/
theorem C1_third_error_kind :
    convertOpenApiToSwagger (some relServerDoc) = .error .urlError ∧
    JsErr.urlError ≠ JsErr.malformedInput ∧ JsErr.urlError ≠ JsErr.dialectMismatch := by
  decide

/- ### Claim C5 counterexample. -/

set_option maxRecDepth 100000 in
/-- Claim C5 is false as stated: a parameter with no `in` field at all
passes through the whole conversion untouched — its location (undefined) is
not `body`, yet it carries neither a `type` nor a `$ref` (the normalizer
only processes parameters whose `in` is truthy). -/
theorem C5_param_without_location :
    (convertOpenApiToSwagger (some noLocParamDoc)).map
      (fun r => (((r.1.getF "paths").getF "/p").getF "get").getF "parameters")
      = .ok (jarr [jobj [("name", .str "x")]]) ∧
    (jobj [("name", .str "x")]).getF "in" = .undef ∧
    (jobj [("name", .str "x")]).getF "type" = .undef ∧
    (jobj [("name", .str "x")]).getF "$ref" = .undef := by
  decide

/- ### Claim C7 counterexample. -/

set_option maxRecDepth 100000 in
/-- Claim C7 is false as stated: the rewriter is not the identity on every
tree free of modern `$ref` prefixes and composition keywords — a schema
with an invalid enum is rewritten (enum dropped, note appended) — and it
can raise: a tree whose `anyOf` value is not an array makes the member
filter throw. -/
theorem C7_enum_rewrite_and_raise :
    fixSwagger2References (jobj [("type", .str "array"), ("enum", jarr [jarr [.num 1]])])
      = .ok (jobj [("type", .str "array"),
        ("description", .str " (Simplified from a schema with complex enum values: [[1]]. Original enum values cannot be directly represented in Swagger 2.0.)")]) ∧
    jobj [("type", .str "array"), ("enum", jarr [jarr [.num 1]])]
      ≠ jobj [("type", .str "array"),
        ("description", .str " (Simplified from a schema with complex enum values: [[1]]. Original enum values cannot be directly represented in Swagger 2.0.)")] ∧
    fixSwagger2References (jobj [("anyOf", .num 42)]) = .error .typeError := by
  decide

/- ### Claim C2 counterexample. -/

set_option maxRecDepth 100000 in
/-- Claim C2 is false as stated: with two non-null members `{$ref: ...}`
and `{type: string}`, the fixed type-preference order would choose the
string member, but the code's special two-member rule chooses the `$ref`
member and splices it (the output has a `$ref` and no `type`). -/
theorem C2_ref_over_string_chosen :
    fixSwagger2References (jobj [("anyOf",
        jarr [jobj [("$ref", .str "#/components/schemas/Foo")],
              jobj [("type", .str "string")]])])
      = .ok (jobj [("$ref", .str "#/definitions/Foo"),
        ("description", .str " (Simplified from a complex anyOf structure with multiple possible types: reference type, string. Chosen representation may not capture all valid values.)")]) ∧
    (jobj [("$ref", .str "#/definitions/Foo"),
        ("description", .str " (Simplified from a complex anyOf structure with multiple possible types: reference type, string. Chosen representation may not capture all valid values.)")]).getF "type"
      = .undef := by
  decide

/- ### Claim C8, amended. -/

/-- Claim C8, amended: every modern `openIdConnect` security scheme maps to
a legacy `oauth2` definition with flow `implicit`, empty scopes, and an
explanatory description (the scheme's own description, when truthy, takes
precedence — the hypothesis excludes that case); however, no warning about
this lossy degradation is recorded: the concrete conversion of `oidcDoc`
returns an empty warning list. -/
theorem C8_oidc_mapping_without_warning :
    (∀ scheme : Json, scheme.getF "type" = .str "openIdConnect" →
      (scheme.getF "description").truthy = false →
      convertSecurityScheme scheme = .ok (jobj [("type", .str "oauth2"),
        ("flow", .str "implicit"), ("scopes", Json.objNil),
        ("description", .str "OpenID Connect (OIDC) authentication. See documentation for details.")])) ∧
    (convertOpenApiToSwagger (some oidcDoc)).map (fun r => r.2) = .ok ([] : List String) := by
  constructor
  · intro scheme h hd
    have hobj : scheme.isObjVal = true :=
      Json.isObjVal_of_getF_ne_undef (by rw [h]; simp)
    have hget : jsGet scheme "type" = Except.ok (.str "openIdConnect") := by
      cases scheme <;> simp [Json.isObjVal] at hobj <;>
        simp [jsGet, h, pure, Except.pure]
    simp only [convertSecurityScheme, hget]
    simp [Bind.bind, Except.bind, hd, jobj, Json.setKey, pure, Except.pure]
  · decide

/-- Witness for C8: the mapping applied to the concrete scheme of
`oidcDoc`. -/
theorem C8_oidc_mapping_without_warning_witness :
    convertSecurityScheme (jobj [("type", .str "openIdConnect"),
      ("openIdConnectUrl", .str "https://example.com/oidc")])
      = .ok (jobj [("type", .str "oauth2"), ("flow", .str "implicit"),
        ("scopes", Json.objNil),
        ("description", .str "OpenID Connect (OIDC) authentication. See documentation for details.")]) :=
  C8_oidc_mapping_without_warning.1
    (jobj [("type", .str "openIdConnect"), ("openIdConnectUrl", .str "https://example.com/oidc")])
    (by decide) (by decide)

/- ### Claim C9, amended. -/

theorem fixF_succ_str (n : Nat) (s : String) : fixF (n + 1) (.str s) = pure (.str s) := by
  simp [fixF]

theorem elemsOf_jarr (l : List Json) : (jarr l).elemsOf = l := by
  induction l with
  | nil => rfl
  | cons a t ih => simp [jarr, Json.elemsOf] at ih ⊢; exact ih

theorem fieldsOf_jobj (l : List (String × Json)) : (jobj l).fieldsOf = l := by
  induction l with
  | nil => rfl
  | cons a t ih => simp [jobj, Json.fieldsOf] at ih ⊢; exact ih

theorem detect_twoServers (u : String) :
    detectUnsupportedFeatures (twoServersDoc u) = .ok [multiServerWarning] := by
  simp [detectUnsupportedFeatures, twoServersDoc, jobj, jarr, jsGet, Json.getF,
    Json.truthy, jsLengthGt, Json.elemsOf, foldAppendM, jsEntries, Json.fieldsOf,
    multiServerWarning, Bind.bind, Except.bind, pure, Except.pure]

set_option maxHeartbeats 4000000 in
/-- Claim C9, amended: modern → legacy conversion uses only the first
declared server URL and requires it to be absolute: when the URL parses,
the output carries its host, its path as `basePath` (defaulting to `/` when
the path is empty), and the scheme as the single entry of `schemes` — there
is no `https` defaulting for scheme-less URLs, which instead abort the
conversion (see the counterexample).  Legacy → modern synthesizes one
server URL `scheme://host basePath` from the first declared scheme, the
host, and the base path, with defaults `https`, `example.com` and `/`. -/
theorem C9_server_addressing_amended :
    (∀ (u : String) (parts : UrlParts), parseUrl u = some parts →
      convertOpenApiToSwagger (some (twoServersDoc u))
        = .ok (twoServersExpected parts, [multiServerWarning])) ∧
    (∀ (scheme host bp : String) (rest : List Json), scheme ≠ "" → host ≠ "" → bp ≠ "" →
      buildServerUrl (jobj [("schemes", jarr (Json.str scheme :: rest)),
        ("host", .str host), ("basePath", .str bp)])
        = .ok (scheme ++ "://" ++ host ++ bp)) ∧
    buildServerUrl Json.objNil = .ok "https://example.com/" := by
  refine ⟨?_, ?_, by decide⟩
  · intro u parts hp
    have hd := detect_twoServers u
    simp only [twoServersDoc, jobj, jarr, List.foldr] at hd
    simp only [convertOpenApiToSwagger, owaServers, owaTail, owaFix, owaFinish]
    simp [twoServersDoc, twoServersExpected, jobj, jarr, jsGet,
      Json.getF, Json.truthy, jsLengthGt, Json.elemsOf, hp, hd, jsIndex0,
      sStartsWith, List.isPrefixOf,
      Bind.bind, Except.bind, pure, Except.pure, Json.setKey,
      fixSwagger2References, Json.weight, jsEntries, Json.fieldsOf,
      fixF, fixStep, hasInvalidEnumValues, Json.isStr, asArr,
      finalPathsFix, finalOpFix, buildSwaggerPaths, sReplaceFirst]
  · intro scheme host bp rest hs hh hb
    simp [buildServerUrl, jobj, jarr, jsGet, Json.getF, Json.truthy, jsLengthGt,
      Json.elemsOf, jsIndex0, jsToString, bne_iff_ne, hs, hh, hb,
      Bind.bind, Except.bind, pure, Except.pure]

/-- Witness for C9: the first conjunct at a concrete absolute URL and the
second at concrete scheme/host/path. -/
theorem C9_server_addressing_amended_witness :
    convertOpenApiToSwagger (some (twoServersDoc "https://api.example.com/v2"))
      = .ok (twoServersExpected ⟨"https:", "api.example.com", "/v2"⟩, [multiServerWarning]) ∧
    buildServerUrl (jobj [("schemes", jarr [.str "http"]), ("host", .str "h.io"),
      ("basePath", .str "/api")]) = .ok "http://h.io/api" :=
  ⟨C9_server_addressing_amended.1 "https://api.example.com/v2"
      ⟨"https:", "api.example.com", "/v2"⟩ (by decide),
   C9_server_addressing_amended.2.1 "http" "h.io" "/api" [] (by decide) (by decide) (by decide)⟩

/- ### Claim C2, amended. -/

theorem firstMinBy_mem : ∀ {l : List Json} {y : Json}, firstMinBy l = some y → y ∈ l := by
  intro l
  induction l with
  | nil => intro y h; simp [firstMinBy] at h
  | cons x xs ih =>
      intro y h
      cases hx : firstMinBy xs with
      | none =>
          simp only [firstMinBy, hx] at h
          cases h; exact List.mem_cons_self x xs
      | some z =>
          simp only [firstMinBy, hx] at h
          by_cases hr : prefRank x ≤ prefRank z
          · rw [if_pos hr] at h; cases h; exact List.mem_cons_self x xs
          · rw [if_neg hr] at h; cases h; exact List.mem_cons_of_mem x (ih hx)

theorem firstMinBy_isSome : ∀ {x : Json} {xs : List Json}, ∃ y, firstMinBy (x :: xs) = some y := by
  intro x xs
  cases hx : firstMinBy xs with
  | none => exact ⟨x, by simp only [firstMinBy, hx]⟩
  | some z =>
      by_cases hr : prefRank x ≤ prefRank z
      · exact ⟨x, by simp only [firstMinBy, hx]; rw [if_pos hr]⟩
      · exact ⟨z, by simp only [firstMinBy, hx]; rw [if_neg hr]⟩

theorem insertionSort_head_firstMin :
    ∀ l : List Json,
      (List.insertionSort (fun a b => prefRank a ≤ prefRank b) l).head? = firstMinBy l := by
  intro l
  induction l with
  | nil => rfl
  | cons x xs ih =>
      rw [List.insertionSort]
      cases hs : List.insertionSort (fun a b => prefRank a ≤ prefRank b) xs with
      | nil =>
          have hxs : xs = [] := by
            have hp := List.perm_insertionSort (fun a b => prefRank a ≤ prefRank b) xs
            rw [hs] at hp
            exact hp.symm.eq_nil
          subst hxs
          simp [List.orderedInsert, firstMinBy]
      | cons b t =>
          rw [hs] at ih
          simp only [List.head?] at ih
          simp only [List.orderedInsert, firstMinBy, ← ih]
          by_cases hr : prefRank x ≤ prefRank b
          · simp [hr]
          · simp [hr]

set_option maxRecDepth 100000 in
/-- Claim C2, amended: when several non-null members remain, the choice is
the leftmost member of minimal rank in the fixed type-preference order
(boolean, string, integer, number, array, object; untyped members rank
last, ties keep declaration order) — EXCEPT that with exactly two members,
one carrying a `$ref` and one string-typed, the first member carrying a
`$ref` is chosen.  The chosen member is spliced with a human-readable
simplification note appended, and `x-nullable: true` is attached when a
null-typed member existed (third conjunct, on a concrete union). -/
theorem C2_union_choice_amended :
    (∀ ns : List Json, (∀ s ∈ ns, s.isObjVal = true) → ns ≠ [] →
      (ns.any fun s => (s.getF "$ref").truthy) = false →
      chooseUnionSchema ns = (firstMinBy ns).getD .undef) ∧
    (∀ a b : Json, a.isObjVal = true → b.isObjVal = true →
      ((a.getF "$ref").truthy || (b.getF "$ref").truthy) = true →
      ((a.getF "type" == Json.str "string") || (b.getF "type" == Json.str "string")) = true →
      chooseUnionSchema [a, b] = (if (a.getF "$ref").truthy then a else b)) ∧
    fixSwagger2References (jobj [("anyOf", jarr [jobj [("type", .str "integer")],
        jobj [("type", .str "string")], jobj [("type", .str "null")]])])
      = .ok (jobj [("type", .str "string"),
        ("description", .str " (Simplified from a complex anyOf structure with multiple possible types: integer, string. Chosen representation may not capture all valid values.)"),
        ("x-nullable", .bool true)]) := by
  refine ⟨?_, ?_, by decide⟩
  · intro ns hobj hne href
    simp only [chooseUnionSchema, href]
    simp only [Bool.and_false, Bool.false_and, Bool.and_true, Bool.true_and, if_neg,
      Bool.false_eq_true, not_false_eq_true]
    by_cases h2 : (decide (ns.length = 2) && ns.any (fun s => s.getF "type" == Json.str "string") &&
        ns.any (fun s => s.getF "type" == Json.str "integer")) = true
    · rw [if_pos h2]
      simp only [Bool.and_eq_true, decide_eq_true_eq, List.any_eq_true] at h2
      obtain ⟨⟨hlen, hstr⟩, hint⟩ := h2
      obtain ⟨a, b, rfl⟩ := List.length_eq_two.mp hlen
      obtain ⟨s1, hs1m, hs1⟩ := hstr
      obtain ⟨s2, hs2m, hs2⟩ := hint
      rw [beq_iff_eq] at hs1 hs2
      simp only [List.mem_cons, List.mem_singleton, List.not_mem_nil, or_false] at hs1m hs2m
      have hab : ¬ (s1 = s2) := by
        intro he; rw [he, hs2] at hs1; simp at hs1
      rcases hs1m with rfl | rfl
      · have hb : b.getF "type" = Json.str "integer" := by
          rcases hs2m with rfl | rfl
          · exact absurd rfl hab
          · exact hs2
        have hra : prefRank s1 = 1 := by
          simp [prefRank, hs1, Json.truthy, preferredTypeIndex]
        have hrb : prefRank b = 2 := by
          simp [prefRank, hb, Json.truthy, preferredTypeIndex]
        have hps : (s1.getF "type" == Json.str "string") = true := by rw [hs1]; decide
        simp [List.find?, firstMinBy, hps, hra, hrb]
      · have ha : a.getF "type" = Json.str "integer" := by
          rcases hs2m with rfl | rfl
          · exact hs2
          · exact absurd rfl hab
        have hra : prefRank a = 2 := by
          simp [prefRank, ha, Json.truthy, preferredTypeIndex]
        have hrb : prefRank s1 = 1 := by
          simp [prefRank, hs1, Json.truthy, preferredTypeIndex]
        have hpa : (a.getF "type" == Json.str "string") = false := by rw [ha]; decide
        have hps : (s1.getF "type" == Json.str "string") = true := by rw [hs1]; decide
        simp [List.find?, firstMinBy, hpa, hps, hra, hrb]
    · rw [if_neg h2]
      have hhead := insertionSort_head_firstMin ns
      rw [List.headD_eq_head?, hhead]
      obtain ⟨x, xs, rfl⟩ := List.exists_cons_of_ne_nil hne
      obtain ⟨y, hy⟩ := @firstMinBy_isSome x xs
      rw [hy]
      have hmem := firstMinBy_mem hy
      have : y.truthy = true := Json.truthy_of_isObjVal (hobj y hmem)
      simp [this]
  · intro a b hoa hob href hstr
    simp only [chooseUnionSchema]
    have hlen : (decide (([a, b] : List Json).length = 2)) = true := by simp
    simp only [List.any_cons, List.any_nil, Bool.or_false] at *
    simp only [hlen, href, hstr, Bool.true_and, Bool.and_true, if_pos]
    by_cases hra : (a.getF "$ref").truthy = true
    · simp [List.find?, hra]
    · have hrb : (b.getF "$ref").truthy = true := by
        rcases Bool.or_eq_true_iff.mp href with h | h
        · exact absurd h hra
        · exact h
      simp [List.find?, hra, hrb]

set_option maxRecDepth 100000 in
theorem C2_union_choice_amended_witness :
    chooseUnionSchema [jobj [("type", .str "boolean")], jobj [("type", .str "number")]]
        = jobj [("type", .str "boolean")] ∧
    chooseUnionSchema [jobj [("$ref", .str "#/definitions/Pet")], jobj [("type", .str "string")]]
        = jobj [("$ref", .str "#/definitions/Pet")] := by
  constructor
  · rw [C2_union_choice_amended.1 _ (by decide) (by decide) (by decide)]
    decide
  · rw [C2_union_choice_amended.2.1 _ _ (by decide) (by decide) (by decide) (by decide)]
    decide

/- ### Pass-through of the rewriter on pristine trees (claim C7). -/

theorem objAppend_nil : ∀ {a : Json}, a.objSpine = true → objAppend a Json.objNil = a := by
  intro a
  induction a with
  | objCons k v t ihv iht =>
      intro h
      simp only [Json.objSpine] at h
      simp [objAppend, iht h]
  | objNil => intro _; rfl
  | undef => intro h; simp [Json.objSpine] at h
  | null => intro h; simp [Json.objSpine] at h
  | bool b => intro h; simp [Json.objSpine] at h
  | num m => intro h; simp [Json.objSpine] at h
  | str s => intro h; simp [Json.objSpine] at h
  | arrNil => intro h; simp [Json.objSpine] at h
  | arrCons x t ihh iht => intro h; simp [Json.objSpine] at h

theorem objAppend_assoc : ∀ (a b c : Json),
    objAppend (objAppend a b) c = objAppend a (objAppend b c) := by
  intro a b c
  induction a with
  | objCons k v t ihv iht => simp [objAppend, iht]
  | objNil => simp [objAppend]
  | undef => simp [objAppend]
  | null => simp [objAppend]
  | bool b0 => simp [objAppend]
  | num m => simp [objAppend]
  | str s => simp [objAppend]
  | arrNil => simp [objAppend]
  | arrCons x t ihh iht => simp [objAppend]

theorem Json.objSpine_setKey : ∀ {j : Json}, j.objSpine = true → ∀ (k : String) (v : Json),
    (j.setKey k v).objSpine = true := by
  intro j
  induction j with
  | objCons k0 v0 t ihv iht =>
      intro h k v
      simp only [Json.objSpine] at h
      by_cases hk : k0 = k
      · simp [Json.setKey, hk, Json.objSpine, h]
      · simp [Json.setKey, hk, Json.objSpine, iht h]
  | objNil => intro _ k v; simp [Json.setKey, Json.objSpine]
  | undef => intro h; simp [Json.objSpine] at h
  | null => intro h; simp [Json.objSpine] at h
  | bool b => intro h; simp [Json.objSpine] at h
  | num m => intro h; simp [Json.objSpine] at h
  | str s => intro h; simp [Json.objSpine] at h
  | arrNil => intro h; simp [Json.objSpine] at h
  | arrCons x t ihh iht => intro h; simp [Json.objSpine] at h

theorem pristineM_false_of_true : ∀ {j : Json}, pristineM true j = true → pristineM false j = true := by
  intro j h
  cases j <;> simp_all [pristineM]

theorem pristineM_true_arr : ∀ {t : Json}, t.isArrForm = true → pristineM false t = true →
    pristineM true t = true := by
  intro t h hp
  cases t <;> simp_all [pristineM, Json.isArrForm]

theorem pristineM_field : ∀ (j : Json), pristineM false j = true →
    ∀ (p : String × Json), p ∈ j.fieldsOf → pristineM true p.2 = true := by
  intro j
  induction j with
  | objCons k v t ihv iht =>
      intro hp p hm
      simp only [pristineM, Bool.not_false, Bool.true_or, Bool.true_and, Bool.and_eq_true] at hp
      obtain ⟨⟨⟨⟨⟨hkeys, href⟩, hdup⟩, htv⟩, hpv⟩, hpt⟩ := hp
      simp only [Json.fieldsOf, List.mem_cons] at hm
      rcases hm with rfl | hm
      · exact hpv
      · exact iht hpt p hm
  | objNil => intro _ p hm; simp [Json.fieldsOf] at hm
  | undef => intro _ p hm; simp [Json.fieldsOf] at hm
  | null => intro _ p hm; simp [Json.fieldsOf] at hm
  | bool b => intro _ p hm; simp [Json.fieldsOf] at hm
  | num m => intro _ p hm; simp [Json.fieldsOf] at hm
  | str s => intro _ p hm; simp [Json.fieldsOf] at hm
  | arrNil => intro _ p hm; simp [Json.fieldsOf] at hm
  | arrCons x t ihh iht => intro _ p hm; simp [Json.fieldsOf] at hm

theorem fixStep_pristine_field (fixRec : Json → Except JsErr Json) (orig acc : Json)
    (k : String) (v : Json)
    (hkeys : (!(k = "anyOf" || k = "oneOf" || k = "allOf" || k = "not")) = true)
    (href : (!(k = "$ref" && v.isStr) || !(sIncludes (jsToString v) modernPre)) = true)
    (hrec : fixRec v = Except.ok v) :
    fixStep fixRec false orig (Sum.inl acc) (k, v) = Except.ok (Sum.inl (acc.setKey k v)) := by
  simp only [Bool.not_eq_true', Bool.or_eq_false_iff, decide_eq_false_iff_not] at hkeys
  obtain ⟨⟨⟨hany, hone⟩, hall⟩, hnot⟩ := hkeys
  by_cases h1 : (decide (k = "$ref") && v.isStr) = true
  · have hk : k = "$ref" := of_decide_eq_true ((Bool.and_eq_true _ _).mp h1).1
    have hstr : v.isStr = true := ((Bool.and_eq_true _ _).mp h1).2
    subst hk
    cases v with
    | str s =>
        have h2 : sIncludes (jsToString (Json.str s)) modernPre = false := by
          rw [h1] at href
          simpa using href
        simp only [jsToString] at h2
        simp [fixStep, Json.isStr, jsToString, sReplaceFirst_id h2, pure, Except.pure]
    | undef => simp [Json.isStr] at hstr
    | null => simp [Json.isStr] at hstr
    | bool b => simp [Json.isStr] at hstr
    | num m => simp [Json.isStr] at hstr
    | arrNil => simp [Json.isStr] at hstr
    | arrCons x t => simp [Json.isStr] at hstr
    | objNil => simp [Json.isStr] at hstr
    | objCons k0 v0 t => simp [Json.isStr] at hstr
  · have h1f : (decide (k = "$ref") && v.isStr) = false := by
      revert h1
      cases (decide (k = "$ref") && v.isStr) <;> simp
    simp [fixStep, h1f, hany, hone, hall, hnot, hrec, bind, Except.bind, pure, Except.pure]

theorem fixFold_pristine (fixRec : Json → Except JsErr Json) (orig : Json) :
    ∀ (rest : Json), rest.isObjVal = true → pristineM false rest = true →
      (∀ p ∈ rest.fieldsOf, fixRec p.2 = Except.ok p.2) →
      ∀ (acc : Json), acc.objSpine = true →
      (∀ key : String, rest.hasKeyB key = true → acc.hasKeyB key = false) →
      rest.fieldsOf.foldlM (fixStep fixRec false orig) (Sum.inl acc)
        = Except.ok (Sum.inl (objAppend acc rest)) := by
  intro rest
  induction rest with
  | objNil =>
      intro _ _ _ acc hacc _
      simp [Json.fieldsOf, List.foldlM, objAppend_nil hacc, pure, Except.pure]
  | objCons k v t ihv iht =>
      intro _ hpr hvals acc hacc hdisj
      simp only [pristineM, Bool.not_false, Bool.true_or, Bool.true_and, Bool.and_eq_true] at hpr
      obtain ⟨⟨⟨⟨⟨hkeys, href⟩, hdup⟩, htv⟩, hpv⟩, hpt⟩ := hpr
      have hdup' : Json.hasKeyB t k = false := by simpa using hdup
      have hstep := fixStep_pristine_field fixRec orig acc k v hkeys href
        (hvals (k, v) (by simp [Json.fieldsOf]))
      have hfresh : acc.hasKeyB k = false := hdisj k (by simp [Json.hasKeyB])
      have hset := Json.setKey_fresh hacc hfresh v
      have hrec := iht htv hpt
        (fun p hp => hvals p (by simp [Json.fieldsOf]; exact Or.inr hp))
        (acc.setKey k v) (Json.objSpine_setKey hacc k v)
        (fun key hk => by
          have hne : key ≠ k := by
            intro e; subst e; rw [hdup'] at hk; cases hk
          rw [Json.hasKeyB_setKey_ne hne]
          exact hdisj key (by simp [Json.hasKeyB, hk]))
      simp only [Json.fieldsOf, List.foldlM_cons, hstep, bind, Except.bind]
      rw [hrec, hset, objAppend_assoc]
      rfl
  | undef => intro h; simp [Json.isObjVal] at h
  | null => intro h; simp [Json.isObjVal] at h
  | bool b => intro h; simp [Json.isObjVal] at h
  | num m => intro h; simp [Json.isObjVal] at h
  | str s => intro h; simp [Json.isObjVal] at h
  | arrNil => intro h; simp [Json.isObjVal] at h
  | arrCons x t ihh iht => intro h; simp [Json.isObjVal] at h

theorem fixF_pristine : ∀ (n : Nat) (j : Json), j.weight ≤ n → pristineM true j = true →
    fixF n j = Except.ok j := by
  intro n
  induction n with
  | zero =>
      intro j hw _
      have := Json.weight_pos j
      omega
  | succ n ih =>
      intro j hw hp
      cases j with
      | undef =>
          rw [fixF]
          · by_cases hc : ¬ Json.undef.truthy = true
            · simp only [if_pos hc]; rfl
            · simp only [if_neg hc]; rfl
          all_goals
            first
            | exact fun hc => Json.noConfusion hc
            | exact fun a hc => Json.noConfusion hc
            | exact fun a b hc => Json.noConfusion hc
            | exact fun a b c hc => Json.noConfusion hc
      | null =>
          rw [fixF]
          · by_cases hc : ¬ Json.null.truthy = true
            · simp only [if_pos hc]; rfl
            · simp only [if_neg hc]; rfl
          all_goals
            first
            | exact fun hc => Json.noConfusion hc
            | exact fun a hc => Json.noConfusion hc
            | exact fun a b hc => Json.noConfusion hc
            | exact fun a b c hc => Json.noConfusion hc
      | bool b =>
          rw [fixF]
          · by_cases hc : ¬ (Json.bool b).truthy = true
            · simp only [if_pos hc]; rfl
            · simp only [if_neg hc]; rfl
          all_goals
            first
            | exact fun hc => Json.noConfusion hc
            | exact fun a hc => Json.noConfusion hc
            | exact fun a b hc => Json.noConfusion hc
            | exact fun a b c hc => Json.noConfusion hc
      | num m =>
          rw [fixF]
          · by_cases hc : ¬ (Json.num m).truthy = true
            · simp only [if_pos hc]; rfl
            · simp only [if_neg hc]; rfl
          all_goals
            first
            | exact fun hc => Json.noConfusion hc
            | exact fun a hc => Json.noConfusion hc
            | exact fun a b hc => Json.noConfusion hc
            | exact fun a b c hc => Json.noConfusion hc
      | str s =>
          rw [fixF]
          · by_cases hc : ¬ (Json.str s).truthy = true
            · simp only [if_pos hc]; rfl
            · simp only [if_neg hc]; rfl
          all_goals
            first
            | exact fun hc => Json.noConfusion hc
            | exact fun a hc => Json.noConfusion hc
            | exact fun a b hc => Json.noConfusion hc
            | exact fun a b c hc => Json.noConfusion hc
      | arrNil =>
          rw [fixF]
          by_cases hc : ¬ Json.arrNil.truthy = true
          · simp only [if_pos hc]; rfl
          · simp only [if_neg hc]; rfl
      | objNil =>
          rw [fixF]
          by_cases hc : ¬ Json.objNil.truthy = true
          · simp only [if_pos hc]; rfl
          · simp only [if_neg hc]; rfl
      | arrCons h t =>
          rw [fixF]
          simp only [pristineM, Bool.and_eq_true] at hp
          obtain ⟨⟨harr, hph⟩, hpt⟩ := hp
          have hw' : 1 + h.weight + t.weight ≤ n + 1 := by simpa [Json.weight] using hw
          have h1 := ih h (by omega) hph
          have h2 := ih t (by omega) (pristineM_true_arr harr hpt)
          simp [Json.truthy, h1, h2, bind, Except.bind, pure, Except.pure]
      | objCons k v t =>
          rw [fixF]
          have hp0 := hp
          simp only [pristineM, Bool.not_true, Bool.false_or, Bool.and_eq_true] at hp0
          obtain ⟨⟨⟨⟨⟨⟨hinv, hkeys⟩, href⟩, hdup⟩, htv⟩, hpv⟩, hpt⟩ := hp0
          have hinv' : hasInvalidEnumValues (Json.objCons k v t) = false := by
            simpa using hinv
          have hvals : ∀ p ∈ (Json.objCons k v t).fieldsOf, fixF n p.2 = Except.ok p.2 := by
            intro p hm
            obtain ⟨a, b⟩ := p
            have hwlt := Json.weight_field_lt (Json.objCons k v t) a b hm
            exact ih b (by omega)
              (pristineM_field _ (pristineM_false_of_true hp) _ hm)
          have hfold := fixFold_pristine (fixF n) (Json.objCons k v t) (Json.objCons k v t)
            rfl (pristineM_false_of_true hp) hvals Json.objNil rfl (fun key _ => rfl)
          simp [Json.truthy, hinv', hfold, bind, Except.bind, pure, Except.pure, objAppend]

set_option maxRecDepth 100000 in
/-- Claim C7, amended: the reference-and-composition rewriting pass is the
identity — hence idempotent — on pristine trees: trees containing no
oneOf/anyOf/allOf/not keyword, no `$ref` string containing the modern
registry prefix, no invalid enum structure, and no duplicate keys.  (The
pass is NOT total on arbitrary tree shapes: a composition keyword holding a
non-array raises a TypeError, and it rewrites enum-invalid trees even when
they contain no `$ref` and no composition keyword, so the identity class
must exclude those.) -/
theorem C7_pass_through_amended :
    ∀ j : Json, pristine j = true →
      fixSwagger2References j = Except.ok j ∧
      (fixSwagger2References j >>= fixSwagger2References) = fixSwagger2References j := by
  intro j hp
  have h1 : fixSwagger2References j = Except.ok j :=
    fixF_pristine j.weight j le_rfl hp
  refine ⟨h1, ?_⟩
  rw [h1]
  simp [bind, Except.bind, h1]

set_option maxRecDepth 100000 in
theorem C7_pass_through_amended_witness :
    pristine (jobj [("type", .str "object"),
        ("properties", jobj [("a", jobj [("$ref", .str "#/definitions/Pet")]),
                             ("b", jobj [("type", .str "string"), ("enum", jarr [.str "x", .str "y"])])]),
        ("required", jarr [.str "a"])]) = true ∧
    fixSwagger2References (jobj [("type", .str "object"),
        ("properties", jobj [("a", jobj [("$ref", .str "#/definitions/Pet")]),
                             ("b", jobj [("type", .str "string"), ("enum", jarr [.str "x", .str "y"])])]),
        ("required", jarr [.str "a"])])
      = Except.ok (jobj [("type", .str "object"),
        ("properties", jobj [("a", jobj [("$ref", .str "#/definitions/Pet")]),
                             ("b", jobj [("type", .str "string"), ("enum", jarr [.str "x", .str "y"])])]),
        ("required", jarr [.str "a"])]) :=
  ⟨by decide, (C7_pass_through_amended _ (by decide)).1⟩

/- ### The single-non-null-member union branch on pristine members (claim C3). -/

theorem pristineM_objSpine : ∀ (j : Json), j.isObjVal = true → pristineM false j = true →
    j.objSpine = true := by
  intro j
  induction j with
  | objCons k v t ihv iht =>
      intro _ hp
      simp only [pristineM, Bool.not_false, Bool.true_or, Bool.true_and, Bool.and_eq_true] at hp
      obtain ⟨⟨⟨⟨⟨hkeys, href⟩, hdup⟩, htv⟩, hpv⟩, hpt⟩ := hp
      simp [Json.objSpine, iht htv hpt]
  | objNil => intro _ _; rfl
  | undef => intro h; simp [Json.isObjVal] at h
  | null => intro h; simp [Json.isObjVal] at h
  | bool b => intro h; simp [Json.isObjVal] at h
  | num m => intro h; simp [Json.isObjVal] at h
  | str s => intro h; simp [Json.isObjVal] at h
  | arrNil => intro h; simp [Json.isObjVal] at h
  | arrCons x t ihh iht => intro h; simp [Json.isObjVal] at h

theorem Json.hasKeyB_of_getF_ne : ∀ {j : Json} {k : String},
    j.getF k ≠ Json.undef → j.hasKeyB k = true := by
  intro j
  induction j with
  | objCons k0 v t ihv iht =>
      intro k h
      by_cases hk : k0 = k
      · simp [Json.hasKeyB, hk]
      · simp only [Json.getF, if_neg hk] at h
        simp [Json.hasKeyB, hk, iht h]
  | objNil => intro k h; exact absurd rfl h
  | undef => intro k h; exact absurd rfl h
  | null => intro k h; exact absurd rfl h
  | bool b => intro k h; exact absurd rfl h
  | num m => intro k h; exact absurd rfl h
  | str s => intro k h; exact absurd rfl h
  | arrNil => intro k h; exact absurd rfl h
  | arrCons x t ihh iht => intro k h; exact absurd rfl h

theorem getF_objAppend_left : ∀ {a : Json} {k : String}, a.hasKeyB k = true →
    ∀ (b : Json), (objAppend a b).getF k = a.getF k := by
  intro a
  induction a with
  | objCons k0 v t ihv iht =>
      intro k h b
      by_cases hk : k0 = k
      · simp [objAppend, Json.getF, hk]
      · have ht : Json.hasKeyB t k = true := by
          simp only [Json.hasKeyB, Bool.or_eq_true_iff, decide_eq_true_eq] at h
          rcases h with h | h
          · exact absurd h hk
          · exact h
        simp [objAppend, Json.getF, hk, iht ht]
  | objNil => intro k h; simp [Json.hasKeyB] at h
  | undef => intro k h; simp [Json.hasKeyB] at h
  | null => intro k h; simp [Json.hasKeyB] at h
  | bool b0 => intro k h; simp [Json.hasKeyB] at h
  | num m => intro k h; simp [Json.hasKeyB] at h
  | str s => intro k h; simp [Json.hasKeyB] at h
  | arrNil => intro k h; simp [Json.hasKeyB] at h
  | arrCons x t ihh iht => intro k h; simp [Json.hasKeyB] at h

theorem spliceEntries_pristine (fixRec : Json → Except JsErr Json) :
    ∀ (rest : Json), rest.isObjVal = true → pristineM false rest = true →
      (∀ p ∈ rest.fieldsOf, fixRec p.2 = Except.ok p.2) →
      ∀ (acc : Json), acc.objSpine = true →
      (∀ key : String, rest.hasKeyB key = true → acc.hasKeyB key = false) →
      spliceEntriesE fixRec rest.fieldsOf acc = Except.ok (objAppend acc rest) := by
  intro rest
  induction rest with
  | objNil =>
      intro _ _ _ acc hacc _
      simp [Json.fieldsOf, spliceEntriesE, List.foldlM, objAppend_nil hacc, pure, Except.pure]
  | objCons k v t ihv iht =>
      intro _ hpr hvals acc hacc hdisj
      simp only [pristineM, Bool.not_false, Bool.true_or, Bool.true_and, Bool.and_eq_true] at hpr
      obtain ⟨⟨⟨⟨⟨hkeys, href⟩, hdup⟩, htv⟩, hpv⟩, hpt⟩ := hpr
      have hdup' : Json.hasKeyB t k = false := by simpa using hdup
      have hfresh : acc.hasKeyB k = false := hdisj k (by simp [Json.hasKeyB])
      have hset := Json.setKey_fresh hacc hfresh v
      have hrec := iht htv hpt
        (fun p hp => hvals p (by simp [Json.fieldsOf]; exact Or.inr hp))
        (acc.setKey k v) (Json.objSpine_setKey hacc k v)
        (fun key hk => by
          have hne : key ≠ k := by
            intro e; subst e; rw [hdup'] at hk; cases hk
          rw [Json.hasKeyB_setKey_ne hne]
          exact hdisj key (by simp [Json.hasKeyB, hk]))
      have hstep : fixRec v = Except.ok v := hvals (k, v) (by simp [Json.fieldsOf])
      simp only [spliceEntriesE] at hrec ⊢
      simp only [Json.fieldsOf, List.foldlM_cons, hstep, bind, Except.bind,
        pure, Except.pure] at hrec ⊢
      rw [hrec, hset, objAppend_assoc]
      rfl
  | undef => intro h; simp [Json.isObjVal] at h
  | null => intro h; simp [Json.isObjVal] at h
  | bool b => intro h; simp [Json.isObjVal] at h
  | num m => intro h; simp [Json.isObjVal] at h
  | str s => intro h; simp [Json.isObjVal] at h
  | arrNil => intro h; simp [Json.isObjVal] at h
  | arrCons x t ihh iht => intro h; simp [Json.isObjVal] at h

theorem fixF_nullable_union :
    ∀ (m : Nat) (S : Json), S.isObjVal = true → pristine S = true →
      S.hasKeyB "x-nullable" = false →
      (S.getF "type" == Json.str "null") = false →
      S.weight ≤ m →
      fixF (m + 1) (Json.objCons "anyOf"
          (Json.arrCons S (Json.arrCons (Json.objCons "type" (Json.str "null") Json.objNil) Json.arrNil))
          Json.objNil)
        = Except.ok (objAppend S (Json.objCons "x-nullable" (Json.bool true) Json.objNil)) := by
  intro m S hov hpr hxn hnn hw
  have hpf : pristineM false S = true := pristineM_false_of_true hpr
  have hsp : S.objSpine = true := pristineM_objSpine S hov hpf
  have hvals : ∀ p ∈ S.fieldsOf, fixF m p.2 = Except.ok p.2 := by
    intro p hm
    obtain ⟨a, b⟩ := p
    have hwlt := Json.weight_field_lt S a b hm
    exact fixF_pristine m b (by omega) (pristineM_field S hpf _ hm)
  have hje : jsEntries S = S.fieldsOf := by
    cases S <;> simp_all [jsEntries, Json.fieldsOf, Json.isObjVal]
  have hjg : jsGet S "type" = Except.ok (S.getF "type") := by
    cases S <;> simp_all [jsGet, Json.isObjVal, pure, Except.pure]
  have hnn' : ¬ S.getF "type" = Json.str "null" := by
    intro he
    rw [he] at hnn
    simp at hnn
  have hjgN : jsGet (Json.objCons "type" (Json.str "null") Json.objNil) "type"
      = Except.ok (Json.str "null") := rfl
  have hfilter : unionFilterE [S, Json.objCons "type" (Json.str "null") Json.objNil]
      = Except.ok [S] := by
    simp [unionFilterE, hjg, hjgN, Json.truthy, hnn', bind, Except.bind,
      pure, Except.pure]
  have hsplice : spliceEntriesE (fixF m) (jsEntries S) Json.objNil = Except.ok S := by
    rw [hje]
    have h := spliceEntries_pristine (fixF m) S hov hpf hvals Json.objNil rfl (fun key _ => rfl)
    simpa [objAppend] using h
  have hset : S.setKey "x-nullable" (Json.bool true)
      = objAppend S (Json.objCons "x-nullable" (Json.bool true) Json.objNil) :=
    Json.setKey_fresh hsp hxn _
  have hinv : hasInvalidEnumValues (Json.objCons "anyOf"
      (Json.arrCons S (Json.arrCons (Json.objCons "type" (Json.str "null") Json.objNil) Json.arrNil))
      Json.objNil) = false := by
    simp [hasInvalidEnumValues, Json.truthy, Json.getF, asArr]
  have hunion : fixUnionE (fixF m) "anyOf"
      (Json.arrCons S (Json.arrCons (Json.objCons "type" (Json.str "null") Json.objNil) Json.arrNil))
      Json.objNil
      = Except.ok (objAppend S (Json.objCons "x-nullable" (Json.bool true) Json.objNil)) := by
    by_cases hb : (S.getF "type" == Json.str "boolean") = true
    · have hgb : S.getF "type" = Json.str "boolean" := by rwa [beq_iff_eq] at hb
      have hkb : S.hasKeyB "type" = true :=
        Json.hasKeyB_of_getF_ne (by rw [hgb]; intro hcc; cases hcc)
      have hr2 : (objAppend S (Json.objCons "x-nullable" (Json.bool true) Json.objNil)).getF "type"
          = Json.str "boolean" := by rw [getF_objAppend_left hkb]; exact hgb
      have hself := Json.setKey_self_of_getF hr2 (by intro hcc; cases hcc)
      simp [fixUnionE, asArr, hfilter, hasNullTypeB, Json.getF, hsplice, hset, hb, hself,
        List.headD, bind, Except.bind, pure, Except.pure]
    · simp [fixUnionE, asArr, hfilter, hasNullTypeB, Json.getF, hsplice, hset, hb,
        List.headD, bind, Except.bind, pure, Except.pure]
  rw [fixF]
  simp [Json.truthy, Json.fieldsOf, List.foldlM, fixStep, hinv, hunion, Json.isStr,
    bind, Except.bind, pure, Except.pure]

set_option maxRecDepth 100000 in
/-- Claim C3: for a schema `\x7banyOf: [S, \x7btype: "null"\x7d]\x7d` (S the single
non-null member, here any pristine object member that is not null-typed and
carries no `x-nullable` key), A-to-B rewriting produces S\x27s fields spliced
in place followed by `x-nullable: true`, and — second conjunct, the
spec\x27s Scenario 5 — `\x7banyOf: [\x7btype: string\x7d, \x7btype: "null"\x7d]\x7d`
becomes exactly `\x7btype: string, x-nullable: true\x7d`, with no fallback
note added. -/
theorem C3_single_nonnull_nullable :
    (∀ S : Json, S.isObjVal = true → pristine S = true →
        S.hasKeyB "x-nullable" = false →
        (S.getF "type" == Json.str "null") = false →
        fixSwagger2References (jobj [("anyOf", jarr [S, jobj [("type", Json.str "null")]])])
          = Except.ok (objAppend S (jobj [("x-nullable", Json.bool true)]))) ∧
    fixSwagger2References (jobj [("anyOf", jarr [jobj [("type", Json.str "string")],
        jobj [("type", Json.str "null")]])])
      = Except.ok (jobj [("type", Json.str "string"), ("x-nullable", Json.bool true)]) := by
  constructor
  · intro S hov hpr hxn hnn
    have hwj : (jobj [("anyOf", jarr [S, jobj [("type", Json.str "null")]])]).weight
        = S.weight + 8 := by
      simp [jobj, jarr, Json.weight]
      omega
    rw [fixSwagger2References, hwj]
    exact fixF_nullable_union (S.weight + 7) S hov hpr hxn hnn (by omega)
  · decide

set_option maxRecDepth 100000 in
theorem C3_single_nonnull_nullable_witness :
    fixSwagger2References (jobj [("anyOf", jarr [jobj [("type", Json.str "integer"),
        ("format", Json.str "int64")], jobj [("type", Json.str "null")]])])
      = Except.ok (jobj [("type", Json.str "integer"), ("format", Json.str "int64"),
        ("x-nullable", Json.bool true)]) := by
  have h := C3_single_nonnull_nullable.1
    (jobj [("type", Json.str "integer"), ("format", Json.str "int64")])
    (by decide) (by decide) (by decide) (by decide)
  exact h.trans (by decide)

/- ### Completeness of the parameter normalizer on located parameters (claim C5). -/

theorem Json.objSpine_removeKey : ∀ {j : Json}, j.objSpine = true → ∀ (k : String),
    (j.removeKey k).objSpine = true := by
  intro j
  induction j with
  | objCons k0 v t ihv iht =>
      intro h k
      simp only [Json.objSpine] at h
      by_cases hk : k0 = k
      · simp [Json.removeKey, hk, iht h]
      · simp [Json.removeKey, hk, Json.objSpine, iht h]
  | objNil => intro _ k; rfl
  | undef => intro h; simp [Json.objSpine] at h
  | null => intro h; simp [Json.objSpine] at h
  | bool b => intro h; simp [Json.objSpine] at h
  | num m => intro h; simp [Json.objSpine] at h
  | str s => intro h; simp [Json.objSpine] at h
  | arrNil => intro h; simp [Json.objSpine] at h
  | arrCons x t ihh iht => intro h; simp [Json.objSpine] at h

theorem foldl_promote_spine : ∀ (l : List String) (schema target : Json),
    target.objSpine = true →
    (l.foldl (fun acc prop =>
      if schema.getF prop == Json.undef then acc else acc.setKey prop (schema.getF prop))
      target).objSpine = true := by
  intro l
  induction l with
  | nil => intro schema target h; simpa [List.foldl] using h
  | cons a l ih =>
      intro schema target h
      simp only [List.foldl]
      apply ih
      split
      · exact h
      · exact Json.objSpine_setKey h _ _

theorem promoteSchemaProps_spine (schema target : Json) (h : target.objSpine = true) :
    (promoteSchemaProps schema target).objSpine = true :=
  foldl_promote_spine schemaPromoteProps schema target h

theorem truthy_sReplaceFirst {s : String} (h : Json.truthy (Json.str s) = true) :
    Json.truthy (Json.str (sReplaceFirst s modernPre legacyPre)) = true := by
  simp only [Json.truthy, bne_iff_ne, ne_eq, decide_eq_true_eq] at h ⊢
  obtain ⟨ls⟩ := s
  rw [sReplaceFirst]
  have hls : ls ≠ [] := by
    intro hc
    subst hc
    exact h rfl
  cases ls with
  | nil => exact absurd rfl hls
  | cons c cs =>
      rw [replFirstL]
      split
      · intro hc
        have hd : legacyPre.data ++ (c :: cs).drop modernPre.data.length = [] :=
          congrArg String.data hc
        rcases List.append_eq_nil.mp hd with ⟨h1, _⟩
        exact absurd h1 (by decide)
      · intro hc
        have hd : c :: replFirstL modernPre.data legacyPre.data cs = [] :=
          congrArg String.data hc
        exact List.noConfusion hd

theorem eptTail_props : ∀ (n3 : Json), n3.objSpine = true →
    ∀ n4 n5 : Json,
      n4 = (if (!(n3.getF "$ref").truthy && !(n3.getF "type").truthy) = true
            then n3.setKey "type" (Json.str "string") else n3) →
      n5 = (if (n4.getF "type" == Json.str "array" && !(n4.getF "items").truthy) = true
            then n4.setKey "items" (jobj [("type", Json.str "string")]) else n4) →
      (((n5.getF "$ref").truthy = true ∨ (n5.getF "type").truthy = true) ∧
        ((n5.getF "type" == Json.str "array") = true → (n5.getF "items").truthy = true)) := by
  intro n3 hsp3 n4 n5 h4 h5
  have hsp4 : n4.objSpine = true := by
    rw [h4]; split
    · exact Json.objSpine_setKey hsp3 _ _
    · exact hsp3
  have hd1 : (n4.getF "$ref").truthy = true ∨ (n4.getF "type").truthy = true := by
    rw [h4]; split
    · right
      rw [Json.getF_setKey_self hsp3]
      rfl
    · rename_i hc
      have hcf : (!(n3.getF "$ref").truthy && !(n3.getF "type").truthy) = false := by
        revert hc
        cases (!(n3.getF "$ref").truthy && !(n3.getF "type").truthy) <;> simp
      rcases Bool.and_eq_false_iff.mp hcf with h | h
      · left; simpa using h
      · right; simpa using h
  constructor
  · rw [h5]; split
    · rcases hd1 with h | h
      · left
        rw [Json.getF_setKey_ne (by decide) _]
        exact h
      · right
        rw [Json.getF_setKey_ne (by decide) _]
        exact h
    · exact hd1
  · rw [h5]; split
    · intro _
      rw [Json.getF_setKey_self hsp4]
      rfl
    · rename_i hc5
      intro hq
      have hcf : (n4.getF "type" == Json.str "array" && !(n4.getF "items").truthy) = false := by
        revert hc5
        cases (n4.getF "type" == Json.str "array" && !(n4.getF "items").truthy) <;> simp
      rw [hq] at hcf
      simp only [Bool.true_and] at hcf
      simpa using hcf

/-- Claim C5, amended: for every object parameter that CARRIES a truthy
non-body location (`in`), the normalizer\x27s output carries a truthy `type`
or a truthy `$ref`, never neither, and whenever its final type is `array`
it carries truthy `items`; the guard `param.in && ...` makes the normalizer
skip parameters with a missing or falsy `in` entirely, so the completeness
guarantee cannot cover them (the unamended claim fails on such a
parameter). -/
theorem C5_located_param_completeness :
    ∀ (p q : Json), p.objSpine = true →
      (p.getF "in").truthy = true →
      ((p.getF "in") == Json.str "body") = false →
      eptOne p = Except.ok q →
      (((q.getF "$ref").truthy = true ∨ (q.getF "type").truthy = true) ∧
        ((q.getF "$ref").truthy = false →
          (q.getF "type" == Json.str "array") = true → (q.getF "items").truthy = true)) := by
  intro p q hsp htr hnb heq
  have hov : p.isObjVal = true := by
    cases p <;> simp_all [Json.objSpine, Json.isObjVal]
  have hspread : objSpread p = p := by
    cases p <;> first
      | rfl
      | (exfalso; simp [Json.objSpine] at hsp)
  have hjg : jsGet p "in" = Except.ok (p.getF "in") := by
    cases p <;> simp_all [jsGet, Json.isObjVal, pure, Except.pure]
  rw [eptOne] at heq
  simp only [hspread, hjg, htr, hnb, Bool.not_false, Bool.and_self, bind, Except.bind,
    eq_self_iff_true, if_true] at heq
  split at heq
  · rename_i hg1
    simp only [Bool.and_eq_true] at hg1
    obtain ⟨⟨hst, hrt⟩, hkc⟩ := hg1
    cases hrv : (p.getF "schema").getF "$ref" with
    | str s =>
        rw [hrv] at heq hrt
        simp only [pure, Except.pure, Except.ok.injEq] at heq
        subst heq
        have h1g : ((p.setKey "$ref" (Json.str (sReplaceFirst s modernPre legacyPre))).removeKey
            "schema").getF "$ref" = Json.str (sReplaceFirst s modernPre legacyPre) := by
          rw [Json.getF_removeKey_ne (by decide)]
          exact Json.getF_setKey_self hsp _ _
        have htv := truthy_sReplaceFirst hrt
        constructor
        · left
          rw [h1g]
          exact htv
        · intro hf _
          rw [h1g, htv] at hf
          exact Bool.noConfusion hf
    | undef => rw [hrv] at heq; exact Except.noConfusion heq
    | null => rw [hrv] at heq; exact Except.noConfusion heq
    | bool b => rw [hrv] at heq; exact Except.noConfusion heq
    | num m => rw [hrv] at heq; exact Except.noConfusion heq
    | arrNil => rw [hrv] at heq; exact Except.noConfusion heq
    | arrCons x t => rw [hrv] at heq; exact Except.noConfusion heq
    | objNil => rw [hrv] at heq; exact Except.noConfusion heq
    | objCons k v t => rw [hrv] at heq; exact Except.noConfusion heq
  · simp only [pure, Except.pure, Except.ok.injEq] at heq
    subst heq
    have hsp3 : (if ((p.getF "schema").truthy && !((p.getF "schema").getF "$ref").truthy) = true
        then
          (if ((p.getF "schema").getF "type" == Json.str "array" &&
                ((p.getF "schema").getF "items").truthy) = true
            then (promoteSchemaProps (p.getF "schema") p).setKey "items"
              ((p.getF "schema").getF "items")
            else promoteSchemaProps (p.getF "schema") p).removeKey "schema"
        else p).objSpine = true := by
      split
      · apply Json.objSpine_removeKey
        split
        · exact Json.objSpine_setKey (promoteSchemaProps_spine _ _ hsp) _ _
        · exact promoteSchemaProps_spine _ _ hsp
      · exact hsp
    have hprops := eptTail_props _ hsp3 _ _ rfl rfl
    exact ⟨hprops.1, fun _ => hprops.2⟩

set_option maxRecDepth 100000 in
theorem C5_located_param_completeness_witness :
    (((jobj [("name", Json.str "x"), ("in", Json.str "query"),
        ("type", Json.str "string")]).getF "$ref").truthy = true ∨
      ((jobj [("name", Json.str "x"), ("in", Json.str "query"),
        ("type", Json.str "string")]).getF "type").truthy = true) ∧
    (((jobj [("name", Json.str "x"), ("in", Json.str "query"),
        ("type", Json.str "string")]).getF "$ref").truthy = false →
      ((jobj [("name", Json.str "x"), ("in", Json.str "query"),
        ("type", Json.str "string")]).getF "type" == Json.str "array") = true →
      ((jobj [("name", Json.str "x"), ("in", Json.str "query"),
        ("type", Json.str "string")]).getF "items").truthy = true) :=
  C5_located_param_completeness
    (jobj [("name", Json.str "x"), ("in", Json.str "query")])
    (jobj [("name", Json.str "x"), ("in", Json.str "query"), ("type", Json.str "string")])
    (by decide) (by decide) (by decide) (by decide)

set_option maxRecDepth 400000 in
/-- Claim C6: an operation whose requestBody content map has two media
types is converted to a single synthetic `body` parameter at location
`body` with `required` copied over, whose schema is the one under
`application/json` even when another media type is declared first
(first conjunct, parametric in both schemas); and the conversion of a
document containing such an operation returns the consolidation warning
for that operation in its warning list (second conjunct). -/
theorem C6_requestBody_consolidation :
    (∀ Sx Sj : Json,
      convertOperation (jobj [("requestBody", jobj [("required", Json.bool true),
          ("content", jobj [("application/xml", jobj [("schema", Sx)]),
            ("application/json", jobj [("schema", Sj)])])])])
        = Except.ok (jobj [("summary", Json.undef), ("description", Json.undef),
            ("operationId", Json.undef), ("tags", Json.undef), ("responses", Json.objNil),
            ("parameters", jarr [jobj [("name", Json.str "body"), ("in", Json.str "body"),
              ("required", Json.bool true), ("description", Json.undef), ("schema", Sj)]])])) ∧
    convertOpenApiToSwagger (some (jobj [
        ("openapi", Json.str "3.0.0"),
        ("info", jobj [("title", Json.str "t"), ("version", Json.str "1")]),
        ("paths", jobj [("/x", jobj [("post", jobj [
            ("requestBody", jobj [("required", Json.bool true), ("content", jobj [
                ("application/xml", jobj [("schema", jobj [("type", Json.str "string")])]),
                ("application/json", jobj [("schema", jobj [("type", Json.str "object")])])])])])])])]))
      = Except.ok (jobj [
          ("swagger", Json.str "2.0"),
          ("info", jobj [("title", Json.str "t"), ("version", Json.str "1")]),
          ("host", Json.str ""), ("basePath", Json.str "/"),
          ("schemes", jarr [Json.str "https"]),
          ("consumes", jarr [Json.str "application/json"]),
          ("produces", jarr [Json.str "application/json"]),
          ("paths", jobj [("/x", jobj [("post", jobj [
              ("summary", Json.undef), ("description", Json.undef),
              ("operationId", Json.undef), ("tags", Json.undef),
              ("responses", Json.objNil),
              ("parameters", jarr [jobj [("name", Json.str "body"), ("in", Json.str "body"),
                ("required", Json.bool true), ("description", Json.undef),
                ("schema", jobj [("type", Json.str "object")])]])])])]),
          ("definitions", Json.objNil), ("securityDefinitions", Json.objNil)],
          [multiReqContentWarning "post" "/x"]) := by
  refine ⟨fun Sx Sj => rfl, by decide⟩

/- ### Totality of the rewriter on throw-free trees (claim C1). -/

theorem Json.truthy_false_not_container {x : Json} (h : x.truthy = false) :
    x.isContainer = false := by
  cases x <;> simp_all [Json.truthy, Json.isContainer]

theorem fixF_scalar : ∀ (n : Nat) (x : Json), x.isContainer = false →
    fixF (n + 1) x = Except.ok x := by
  intro n x hx
  cases x with
  | undef =>
      rw [fixF]
      · by_cases hc : ¬ Json.undef.truthy = true
        · simp only [if_pos hc]; rfl
        · simp only [if_neg hc]; rfl
      all_goals
        first
        | exact fun hc => Json.noConfusion hc
        | exact fun a hc => Json.noConfusion hc
        | exact fun a b hc => Json.noConfusion hc
        | exact fun a b c hc => Json.noConfusion hc
  | null =>
      rw [fixF]
      · by_cases hc : ¬ Json.null.truthy = true
        · simp only [if_pos hc]; rfl
        · simp only [if_neg hc]; rfl
      all_goals
        first
        | exact fun hc => Json.noConfusion hc
        | exact fun a hc => Json.noConfusion hc
        | exact fun a b hc => Json.noConfusion hc
        | exact fun a b c hc => Json.noConfusion hc
  | bool b =>
      rw [fixF]
      · by_cases hc : ¬ (Json.bool b).truthy = true
        · simp only [if_pos hc]; rfl
        · simp only [if_neg hc]; rfl
      all_goals
        first
        | exact fun hc => Json.noConfusion hc
        | exact fun a hc => Json.noConfusion hc
        | exact fun a b hc => Json.noConfusion hc
        | exact fun a b c hc => Json.noConfusion hc
  | num m =>
      rw [fixF]
      · by_cases hc : ¬ (Json.num m).truthy = true
        · simp only [if_pos hc]; rfl
        · simp only [if_neg hc]; rfl
      all_goals
        first
        | exact fun hc => Json.noConfusion hc
        | exact fun a hc => Json.noConfusion hc
        | exact fun a b hc => Json.noConfusion hc
        | exact fun a b c hc => Json.noConfusion hc
  | str s =>
      rw [fixF]
      · by_cases hc : ¬ (Json.str s).truthy = true
        · simp only [if_pos hc]; rfl
        · simp only [if_neg hc]; rfl
      all_goals
        first
        | exact fun hc => Json.noConfusion hc
        | exact fun a hc => Json.noConfusion hc
        | exact fun a b hc => Json.noConfusion hc
        | exact fun a b c hc => Json.noConfusion hc
  | arrNil => simp [Json.isContainer] at hx
  | arrCons h t => simp [Json.isContainer] at hx
  | objNil => simp [Json.isContainer] at hx
  | objCons k v t => simp [Json.isContainer] at hx

theorem fixF_falsy {x : Json} (n : Nat) (h : x.truthy = false) :
    fixF (n + 1) x = Except.ok x :=
  fixF_scalar n x (Json.truthy_false_not_container h)

theorem fixSafe_parts {k : String} {v t : Json} (h : fixSafe (Json.objCons k v t) = true) :
    ((!(k = "description") || (v.isStr || !v.truthy)) = true) ∧
    ((!(k = "anyOf" || k = "oneOf") || arrOfObjs v) = true) ∧
    ((!(k = "allOf") || allOfRefMembers v) = true) ∧
    fixSafe v = true ∧ fixSafe t = true := by
  simp only [fixSafe, Bool.and_eq_true] at h
  obtain ⟨⟨⟨⟨h1, h2⟩, h3⟩, h4⟩, h5⟩ := h
  exact ⟨h1, h2, h3, h4, h5⟩

theorem fixSafe_fieldVal : ∀ {j : Json}, fixSafe j = true →
    ∀ p ∈ j.fieldsOf, fixSafe p.2 = true := by
  intro j
  induction j with
  | objCons k v t ihv iht =>
      intro h p hm
      obtain ⟨_, _, _, h4, h5⟩ := fixSafe_parts h
      simp only [Json.fieldsOf, List.mem_cons] at hm
      rcases hm with rfl | hm
      · exact h4
      · exact iht h5 p hm
  | objNil => intro _ p hm; simp [Json.fieldsOf] at hm
  | undef => intro _ p hm; simp [Json.fieldsOf] at hm
  | null => intro _ p hm; simp [Json.fieldsOf] at hm
  | bool b => intro _ p hm; simp [Json.fieldsOf] at hm
  | num m => intro _ p hm; simp [Json.fieldsOf] at hm
  | str s => intro _ p hm; simp [Json.fieldsOf] at hm
  | arrNil => intro _ p hm; simp [Json.fieldsOf] at hm
  | arrCons x t ihh iht => intro _ p hm; simp [Json.fieldsOf] at hm

theorem fixSafe_descField : ∀ {j : Json}, fixSafe j = true →
    ∀ p ∈ j.fieldsOf, p.1 = "description" → strOrFalsy p.2 = true := by
  intro j
  induction j with
  | objCons k v t ihv iht =>
      intro h p hm hd
      obtain ⟨h1, _, _, _, h5⟩ := fixSafe_parts h
      simp only [Json.fieldsOf, List.mem_cons] at hm
      rcases hm with rfl | hm
      · simp only at hd
        subst hd
        simpa [strOrFalsy] using h1
      · exact iht h5 p hm hd
  | objNil => intro _ p hm; simp [Json.fieldsOf] at hm
  | undef => intro _ p hm; simp [Json.fieldsOf] at hm
  | null => intro _ p hm; simp [Json.fieldsOf] at hm
  | bool b => intro _ p hm; simp [Json.fieldsOf] at hm
  | num m => intro _ p hm; simp [Json.fieldsOf] at hm
  | str s => intro _ p hm; simp [Json.fieldsOf] at hm
  | arrNil => intro _ p hm; simp [Json.fieldsOf] at hm
  | arrCons x t ihh iht => intro _ p hm; simp [Json.fieldsOf] at hm

theorem descOk_of_fixSafe : ∀ {j : Json}, fixSafe j = true → descOk j = true := by
  intro j
  induction j with
  | objCons k v t ihv iht =>
      intro h
      obtain ⟨h1, _, _, _, h5⟩ := fixSafe_parts h
      by_cases hk : k = "description"
      · subst hk
        simp only [descOk, Json.getF, if_pos rfl]
        simpa [strOrFalsy] using h1
      · have hne : ¬ (k = "description") := hk
        simp only [descOk, Json.getF, if_neg hne]
        exact iht h5
  | objNil => intro _; rfl
  | undef => intro _; rfl
  | null => intro _; rfl
  | bool b => intro _; rfl
  | num m => intro _; rfl
  | str s => intro _; rfl
  | arrNil => intro _; rfl
  | arrCons x t ihh iht => intro _; rfl

theorem descOk_setKey_ne {j : Json} {k : String} (h : k ≠ "description") (v : Json) :
    descOk (j.setKey k v) = descOk j := by
  unfold descOk
  rw [Json.getF_setKey_ne (fun hc => h hc.symm) v]

theorem descOk_setKey_desc {j : Json} (hsp : j.objSpine = true) {v : Json}
    (hv : strOrFalsy v = true) : descOk (j.setKey "description" v) = true := by
  unfold descOk
  rw [Json.getF_setKey_self hsp]
  exact hv

theorem arrOfObjs_asArr : ∀ {v : Json}, arrOfObjs v = true →
    asArr v = some v.elemsOf := by
  intro v
  induction v with
  | arrNil => intro _; rfl
  | arrCons h t ihh iht =>
      intro hv
      simp only [arrOfObjs, Bool.and_eq_true] at hv
      simp [asArr, Json.elemsOf, iht hv.2]
  | undef => intro h; simp [arrOfObjs] at h
  | null => intro h; simp [arrOfObjs] at h
  | bool b => intro h; simp [arrOfObjs] at h
  | num m => intro h; simp [arrOfObjs] at h
  | str s => intro h; simp [arrOfObjs] at h
  | objNil => intro h; simp [arrOfObjs] at h
  | objCons k v t ihv iht => intro h; simp [arrOfObjs] at h

theorem arrOfObjs_mem : ∀ {v : Json}, arrOfObjs v = true →
    ∀ x ∈ v.elemsOf, x.isObjVal = true := by
  intro v
  induction v with
  | arrNil => intro _ x hx; simp [Json.elemsOf] at hx
  | arrCons h t ihh iht =>
      intro hv x hx
      simp only [arrOfObjs, Bool.and_eq_true] at hv
      simp only [Json.elemsOf, List.mem_cons] at hx
      rcases hx with rfl | hx
      · exact hv.1
      · exact iht hv.2 x hx
  | undef => intro h; simp [arrOfObjs] at h
  | null => intro h; simp [arrOfObjs] at h
  | bool b => intro h; simp [arrOfObjs] at h
  | num m => intro h; simp [arrOfObjs] at h
  | str s => intro h; simp [arrOfObjs] at h
  | objNil => intro h; simp [arrOfObjs] at h
  | objCons k v t ihv iht => intro h; simp [arrOfObjs] at h

theorem fixSafe_elem : ∀ {v : Json}, fixSafe v = true →
    ∀ x ∈ v.elemsOf, fixSafe x = true := by
  intro v
  induction v with
  | arrCons h t ihh iht =>
      intro hv x hx
      simp only [fixSafe, Bool.and_eq_true] at hv
      simp only [Json.elemsOf, List.mem_cons] at hx
      rcases hx with rfl | hx
      · exact hv.1
      · exact iht hv.2 x hx
  | arrNil => intro _ x hx; simp [Json.elemsOf] at hx
  | undef => intro _ x hx; simp [Json.elemsOf] at hx
  | null => intro _ x hx; simp [Json.elemsOf] at hx
  | bool b => intro _ x hx; simp [Json.elemsOf] at hx
  | num m => intro _ x hx; simp [Json.elemsOf] at hx
  | str s => intro _ x hx; simp [Json.elemsOf] at hx
  | objNil => intro _ x hx; simp [Json.elemsOf] at hx
  | objCons k v t ihv iht => intro _ x hx; simp [Json.elemsOf] at hx

theorem jsGet_ok_of_isObjVal {j : Json} (h : j.isObjVal = true) (k : String) :
    jsGet j k = Except.ok (j.getF k) := by
  cases j <;> simp_all [jsGet, Json.isObjVal, pure, Except.pure]

theorem jsGet_ok_of_truthy {j : Json} (h : j.truthy = true) (k : String) :
    jsGet j k = Except.ok (j.getF k) := by
  cases j <;> simp_all [jsGet, Json.truthy, pure, Except.pure]

theorem strOrFalsy_fixRec (fixRec : Json → Except JsErr Json)
    (hstr : ∀ s : String, fixRec (Json.str s) = Except.ok (Json.str s))
    (hfal : ∀ x : Json, x.truthy = false → fixRec x = Except.ok x)
    {v rv : Json} (hv : strOrFalsy v = true) (hr : fixRec v = Except.ok rv) :
    strOrFalsy rv = true := by
  simp only [strOrFalsy, Bool.or_eq_true] at hv
  rcases hv with hv | hv
  · cases v <;> simp [Json.isStr] at hv
    case str s =>
      rw [hstr s] at hr
      cases hr
      simp [strOrFalsy, Json.isStr]
  · have : v.truthy = false := by simpa using hv
    rw [hfal v this] at hr
    cases hr
    simp only [strOrFalsy, this, Bool.not_false, Bool.or_true]

theorem chooseUnionSchema_mem : ∀ {l : List Json},
    (chooseUnionSchema l).truthy = true → chooseUnionSchema l ∈ l := by
  intro l htr
  rw [chooseUnionSchema] at htr ⊢
  by_cases h1 : (decide (l.length = 2) && l.any (fun s => (s.getF "$ref").truthy) &&
      l.any (fun s => s.getF "type" == Json.str "string")) = true
  · rw [if_pos h1] at htr ⊢
    cases hf : l.find? (fun s => (s.getF "$ref").truthy) with
    | none => rw [hf] at htr; simp [Option.getD, Json.truthy] at htr
    | some x =>
        rw [hf] at htr
        simp only [Option.getD]
        exact List.mem_of_find?_eq_some hf
  · rw [if_neg h1] at htr ⊢
    by_cases h2 : (decide (l.length = 2) && l.any (fun s => s.getF "type" == Json.str "string") &&
        l.any (fun s => s.getF "type" == Json.str "integer")) = true
    · rw [if_pos h2] at htr ⊢
      cases hf : l.find? (fun s => s.getF "type" == Json.str "string") with
      | none => rw [hf] at htr; simp [Option.getD, Json.truthy] at htr
      | some x =>
          rw [hf] at htr
          simp only [Option.getD]
          exact List.mem_of_find?_eq_some hf
    · rw [if_neg h2] at htr ⊢
      simp only [List.headD] at htr ⊢
      cases hsort : List.insertionSort (fun a b => prefRank a ≤ prefRank b) l with
      | nil =>
          have hl : l = [] := by
            have hp := List.perm_insertionSort (fun a b => prefRank a ≤ prefRank b) l
            rw [hsort] at hp
            exact hp.symm.eq_nil
          subst hl
          simp [Json.truthy] at htr
      | cons a rest =>
          by_cases ha : a.truthy = true
          · have hp := List.perm_insertionSort (fun a b => prefRank a ≤ prefRank b) l
            rw [hsort] at hp
            have hmem := hp.mem_iff.mp (List.mem_cons_self a rest)
            simpa [ha] using hmem
          · simp only [ha, if_false] at htr ⊢
            cases l with
            | nil => simp [Json.truthy, ha] at htr
            | cons b rest2 => simp [ha]

theorem unionFilterE_total : ∀ (elems : List Json), (∀ s ∈ elems, s.isObjVal = true) →
    ∃ l, unionFilterE elems = Except.ok l ∧ ∀ x ∈ l, x ∈ elems := by
  intro elems
  induction elems with
  | nil => intro _; exact ⟨[], rfl, by simp⟩
  | cons s rest ih =>
      intro hobj
      obtain ⟨l, hl, hsub⟩ := ih (fun x hx => hobj x (List.mem_cons_of_mem s hx))
      have hjg := jsGet_ok_of_isObjVal (hobj s (List.mem_cons_self s rest)) "type"
      refine ⟨if !(s.getF "type").truthy || !(s.getF "type" == Json.str "null")
          then s :: l else l, ?_, ?_⟩
      · simp [unionFilterE, hjg, hl, bind, Except.bind, pure, Except.pure]
      · intro x hx
        split at hx
        · rcases List.mem_cons.mp hx with rfl | hx
          · exact List.mem_cons_self x rest
          · exact List.mem_cons_of_mem s (hsub x hx)
        · exact List.mem_cons_of_mem s (hsub x hx)

theorem appendSimplificationMsg_total {r : Json} (hsp : r.objSpine = true)
    (hd : descOk r = true) (msg : String) :
    ∃ q, appendSimplificationMsg r msg = Except.ok q ∧ q.objSpine = true ∧ descOk q = true := by
  rw [appendSimplificationMsg]
  by_cases ht : (r.getF "description").truthy = true
  · rw [if_neg (by simpa using ht)]
    simp only [descOk, strOrFalsy, Bool.or_eq_true] at hd
    rcases hd with hd | hd
    · cases hdesc : r.getF "description" with
      | str ds =>
          by_cases hinc : sIncludes ds msg = true
          · refine ⟨r, ?_, hsp, ?_⟩
            · simp [hinc, pure, Except.pure]
            · simp [descOk, strOrFalsy, hdesc, Json.isStr]
          · refine ⟨r.setKey "description" (Json.str (ds ++ msg)), ?_, ?_, ?_⟩
            · simp [hinc, pure, Except.pure]
            · exact Json.objSpine_setKey hsp _ _
            · exact descOk_setKey_desc hsp (by simp [strOrFalsy, Json.isStr])
      | undef => rw [hdesc] at hd; simp [Json.isStr] at hd
      | null => rw [hdesc] at hd; simp [Json.isStr] at hd
      | bool b => rw [hdesc] at hd; simp [Json.isStr] at hd
      | num m => rw [hdesc] at hd; simp [Json.isStr] at hd
      | arrNil => rw [hdesc] at hd; simp [Json.isStr] at hd
      | arrCons a t => rw [hdesc] at hd; simp [Json.isStr] at hd
      | objNil => rw [hdesc] at hd; simp [Json.isStr] at hd
      | objCons a b t => rw [hdesc] at hd; simp [Json.isStr] at hd
    · rw [ht] at hd; simp at hd
  · have htf : ¬ (r.getF "description").truthy = true := ht
    rw [if_pos htf]
    refine ⟨r.setKey "description" (Json.str ("" ++ msg)), rfl, ?_, ?_⟩
    · exact Json.objSpine_setKey hsp _ _
    · exact descOk_setKey_desc hsp (by simp [strOrFalsy, Json.isStr])

theorem spliceEntriesE_total (fixRec : Json → Except JsErr Json)
    (hstr : ∀ s : String, fixRec (Json.str s) = Except.ok (Json.str s))
    (hfal : ∀ x : Json, x.truthy = false → fixRec x = Except.ok x) :
    ∀ (entries : List (String × Json)),
      (∀ p ∈ entries, ∃ r, fixRec p.2 = Except.ok r) →
      (∀ p ∈ entries, p.1 = "description" → strOrFalsy p.2 = true) →
      ∀ (acc : Json), acc.objSpine = true → descOk acc = true →
      ∃ r, spliceEntriesE fixRec entries acc = Except.ok r ∧
        r.objSpine = true ∧ descOk r = true := by
  intro entries
  induction entries with
  | nil =>
      intro _ _ acc hsp hda
      exact ⟨acc, rfl, hsp, hda⟩
  | cons p rest ih =>
      intro hvals hdesc acc hsp hda
      obtain ⟨k, v⟩ := p
      obtain ⟨rv, hrv⟩ := hvals (k, v) (List.mem_cons_self _ _)
      have hsp' : (acc.setKey k rv).objSpine = true := Json.objSpine_setKey hsp _ _
      have hda' : descOk (acc.setKey k rv) = true := by
        by_cases hk : k = "description"
        · subst hk
          exact descOk_setKey_desc hsp
            (strOrFalsy_fixRec fixRec hstr hfal
              (hdesc ("description", v) (List.mem_cons_self _ _) rfl) hrv)
        · rw [descOk_setKey_ne hk]; exact hda
      obtain ⟨r, hr, hrsp, hrda⟩ := ih
        (fun q hq => hvals q (List.mem_cons_of_mem _ hq))
        (fun q hq => hdesc q (List.mem_cons_of_mem _ hq))
        (acc.setKey k rv) hsp' hda'
      refine ⟨r, ?_, hrsp, hrda⟩
      simp only [spliceEntriesE, List.foldlM_cons, hrv, bind, Except.bind, pure, Except.pure]
      simp only [spliceEntriesE] at hr
      exact hr

theorem spliceChosenE_total (fixRec : Json → Except JsErr Json)
    (hstr : ∀ s : String, fixRec (Json.str s) = Except.ok (Json.str s))
    (hfal : ∀ x : Json, x.truthy = false → fixRec x = Except.ok x)
    (key : String) :
    ∀ (entries : List (String × Json)),
      (∀ p ∈ entries, ∃ r, fixRec p.2 = Except.ok r) →
      (∀ p ∈ entries, p.1 = "description" → strOrFalsy p.2 = true) →
      ∀ (acc : Json), acc.objSpine = true → descOk acc = true →
      ∃ r, spliceChosenE fixRec key entries acc = Except.ok r ∧
        r.objSpine = true ∧ descOk r = true := by
  intro entries
  induction entries with
  | nil =>
      intro _ _ acc hsp hda
      exact ⟨acc, rfl, hsp, hda⟩
  | cons p rest ih =>
      intro hvals hdesc acc hsp hda
      obtain ⟨k, v⟩ := p
      obtain ⟨rv, hrv⟩ := hvals (k, v) (List.mem_cons_self _ _)
      have hnext : ∀ (acc' : Json), acc'.objSpine = true → descOk acc' = true →
          ∃ r, spliceChosenE fixRec key rest acc' = Except.ok r ∧
            r.objSpine = true ∧ descOk r = true :=
        fun acc' h1 h2 => ih
          (fun q hq => hvals q (List.mem_cons_of_mem _ hq))
          (fun q hq => hdesc q (List.mem_cons_of_mem _ hq)) acc' h1 h2
      have hdescOk : descOk (acc.setKey k rv) = true := by
        by_cases hk : k = "description"
        · subst hk
          exact descOk_setKey_desc hsp
            (strOrFalsy_fixRec fixRec hstr hfal
              (hdesc ("description", v) (List.mem_cons_self _ _) rfl) hrv)
        · rw [descOk_setKey_ne hk]; exact hda
      by_cases hb1 : (k = "$ref" && v.isStr) = true
      · have hk : k = "$ref" := of_decide_eq_true ((Bool.and_eq_true _ _).mp hb1).1
        obtain ⟨r, hr, hrsp, hrda⟩ := hnext
          (acc.setKey k (Json.str (sReplaceFirst (jsToString v) modernPre legacyPre)))
          (Json.objSpine_setKey hsp _ _)
          (by rw [descOk_setKey_ne (by rw [hk]; decide)]; exact hda)
        refine ⟨r, ?_, hrsp, hrda⟩
        simp only [spliceChosenE, List.foldlM_cons]
        refine exceptBind_ok.mpr
          ⟨acc.setKey k (Json.str (sReplaceFirst (jsToString v) modernPre legacyPre)), ?_, ?_⟩
        · simp only [if_pos hb1]; rfl
        · simp only [spliceChosenE] at hr; exact hr
      · by_cases hb2 : ((decide (k ≠ key)) && decide ¬(acc.hasKeyB k = true)) = true
        · obtain ⟨r, hr, hrsp, hrda⟩ := hnext (acc.setKey k rv)
            (Json.objSpine_setKey hsp _ _) hdescOk
          refine ⟨r, ?_, hrsp, hrda⟩
          simp only [spliceChosenE, List.foldlM_cons]
          refine exceptBind_ok.mpr ⟨acc.setKey k rv, ?_, ?_⟩
          · simp only [if_neg hb1, if_pos hb2]
            exact exceptBind_ok.mpr ⟨rv, hrv, rfl⟩
          · simp only [spliceChosenE] at hr; exact hr
        · by_cases hb3 : (k = "description" && (acc.getF "description").truthy && v.isStr) = true
          · have hdt : (acc.getF "description").truthy = true :=
              ((Bool.and_eq_true _ _).mp ((Bool.and_eq_true _ _).mp hb3).1).2
            have hds : (acc.getF "description").isStr = true := by
              have h0 := hda
              simp only [descOk, strOrFalsy, Bool.or_eq_true] at h0
              rcases h0 with h0 | h0
              · exact h0
              · rw [hdt] at h0; simp at h0
            cases hdesc0 : acc.getF "description" with
            | str ds =>
                by_cases hinc : sIncludes ds "Simplified from a complex" = true
                · obtain ⟨r, hr, hrsp, hrda⟩ := hnext acc hsp hda
                  refine ⟨r, ?_, hrsp, hrda⟩
                  simp only [spliceChosenE, List.foldlM_cons]
                  refine exceptBind_ok.mpr ⟨acc, ?_, ?_⟩
                  · simp only [if_neg hb1, if_neg hb2, if_pos hb3]
                    simp only [hdesc0]
                    simp only [if_neg (not_not_intro hinc)]
                    rfl
                  · simp only [spliceChosenE] at hr; exact hr
                · obtain ⟨r, hr, hrsp, hrda⟩ := hnext
                    (acc.setKey "description"
                      (Json.str (ds ++ " | From " ++ key ++ ": " ++ jsToString rv)))
                    (Json.objSpine_setKey hsp _ _)
                    (descOk_setKey_desc hsp (by simp [strOrFalsy, Json.isStr]))
                  refine ⟨r, ?_, hrsp, hrda⟩
                  simp only [spliceChosenE, List.foldlM_cons]
                  refine exceptBind_ok.mpr
                    ⟨acc.setKey "description"
                      (Json.str (ds ++ " | From " ++ key ++ ": " ++ jsToString rv)), ?_, ?_⟩
                  · simp only [if_neg hb1, if_neg hb2, if_pos hb3]
                    simp only [hdesc0]
                    simp only [if_pos hinc]
                    exact exceptBind_ok.mpr ⟨rv, hrv, rfl⟩
                  · simp only [spliceChosenE] at hr; exact hr
            | undef => rw [hdesc0] at hds; simp [Json.isStr] at hds
            | null => rw [hdesc0] at hds; simp [Json.isStr] at hds
            | bool b => rw [hdesc0] at hds; simp [Json.isStr] at hds
            | num m => rw [hdesc0] at hds; simp [Json.isStr] at hds
            | arrNil => rw [hdesc0] at hds; simp [Json.isStr] at hds
            | arrCons a t => rw [hdesc0] at hds; simp [Json.isStr] at hds
            | objNil => rw [hdesc0] at hds; simp [Json.isStr] at hds
            | objCons a b t => rw [hdesc0] at hds; simp [Json.isStr] at hds
          · by_cases hb4 : ¬ (acc.hasKeyB k = true)
            · obtain ⟨r, hr, hrsp, hrda⟩ := hnext (acc.setKey k rv)
                (Json.objSpine_setKey hsp _ _) hdescOk
              refine ⟨r, ?_, hrsp, hrda⟩
              simp only [spliceChosenE, List.foldlM_cons]
              refine exceptBind_ok.mpr ⟨acc.setKey k rv, ?_, ?_⟩
              · simp only [if_neg hb1, if_neg hb2, if_neg hb3, if_pos hb4]
                exact exceptBind_ok.mpr ⟨rv, hrv, rfl⟩
              · simp only [spliceChosenE] at hr; exact hr
            · obtain ⟨r, hr, hrsp, hrda⟩ := hnext acc hsp hda
              refine ⟨r, ?_, hrsp, hrda⟩
              simp only [spliceChosenE, List.foldlM_cons]
              refine exceptBind_ok.mpr ⟨acc, ?_, ?_⟩
              · simp only [if_neg hb1, if_neg hb2, if_neg hb3, if_neg hb4]
                rfl
              · simp only [spliceChosenE] at hr; exact hr

theorem allOfRefMembers_asArr : ∀ {v : Json}, allOfRefMembers v = true →
    asArr v = some v.elemsOf := by
  intro v
  induction v with
  | arrNil => intro _; rfl
  | arrCons h t ihh iht =>
      intro hv
      simp only [allOfRefMembers, Bool.and_eq_true] at hv
      simp [asArr, Json.elemsOf, iht hv.2]
  | undef => intro h; simp [allOfRefMembers] at h
  | null => intro h; simp [allOfRefMembers] at h
  | bool b => intro h; simp [allOfRefMembers] at h
  | num m => intro h; simp [allOfRefMembers] at h
  | str s => intro h; simp [allOfRefMembers] at h
  | objNil => intro h; simp [allOfRefMembers] at h
  | objCons k v t ihv iht => intro h; simp [allOfRefMembers] at h

theorem allOfRefMembers_mem : ∀ {v : Json}, allOfRefMembers v = true →
    ∀ x ∈ v.elemsOf, ∃ s, x = Json.objCons "$ref" (Json.str s) Json.objNil := by
  intro v
  induction v with
  | arrNil => intro _ x hx; simp [Json.elemsOf] at hx
  | arrCons h t ihh iht =>
      intro hv x hx
      simp only [allOfRefMembers, Bool.and_eq_true] at hv
      simp only [Json.elemsOf, List.mem_cons] at hx
      rcases hx with rfl | hx
      · have h1 := hv.1
        split at h1
        · rename_i s0
          exact ⟨s0, rfl⟩
        · exact Bool.noConfusion h1
      · exact iht hv.2 x hx
  | undef => intro h; simp [allOfRefMembers] at h
  | null => intro h; simp [allOfRefMembers] at h
  | bool b => intro h; simp [allOfRefMembers] at h
  | num m => intro h; simp [allOfRefMembers] at h
  | str s => intro h; simp [allOfRefMembers] at h
  | objNil => intro h; simp [allOfRefMembers] at h
  | objCons k v t ihv iht => intro h; simp [allOfRefMembers] at h

theorem allStr_setKey : ∀ {j : Json}, (∀ p ∈ j.fieldsOf, (p.2).isStr = true) →
    ∀ {v : Json}, v.isStr = true → ∀ (k : String),
    ∀ p ∈ (j.setKey k v).fieldsOf, (p.2).isStr = true := by
  intro j
  induction j with
  | objCons k0 v0 t ihv iht =>
      intro hall v hv k p hp
      by_cases hk : k0 = k
      · rw [Json.setKey, if_pos hk] at hp
        simp only [Json.fieldsOf, List.mem_cons] at hp
        rcases hp with rfl | hp
        · exact hv
        · exact hall p (by simp [Json.fieldsOf, hp])
      · rw [Json.setKey, if_neg hk] at hp
        simp only [Json.fieldsOf, List.mem_cons] at hp
        rcases hp with rfl | hp
        · exact hall (k0, v0) (by simp [Json.fieldsOf])
        · exact iht (fun q hq => hall q (by simp [Json.fieldsOf, hq])) hv k p hp
  | objNil =>
      intro _ v hv k p hp
      simp only [Json.setKey, Json.fieldsOf, List.mem_cons] at hp
      rcases hp with rfl | hp
      · exact hv
      · simp at hp
  | undef => intro _ v hv k p hp; simp [Json.setKey, Json.fieldsOf] at hp
  | null => intro _ v hv k p hp; simp [Json.setKey, Json.fieldsOf] at hp
  | bool b => intro _ v hv k p hp; simp [Json.setKey, Json.fieldsOf] at hp
  | num m => intro _ v hv k p hp; simp [Json.setKey, Json.fieldsOf] at hp
  | str s => intro _ v hv k p hp; simp [Json.setKey, Json.fieldsOf] at hp
  | arrNil => intro _ v hv k p hp; simp [Json.setKey, Json.fieldsOf] at hp
  | arrCons x t ihh iht => intro _ v hv k p hp; simp [Json.setKey, Json.fieldsOf] at hp

theorem allOfMerge_ref (s : String) (m : Json) :
    allOfMergeEntries [("$ref", Json.str s)] m = m.setKey "$ref" (Json.str s) := by
  simp [allOfMergeEntries, Json.typeofObject, Json.isContainer, Json.isArrForm]

theorem allOfCollectE_total (fixRec : Json → Except JsErr Json) :
    ∀ (elems : List Json),
      (∀ x ∈ elems, ∃ s, x = Json.objCons "$ref" (Json.str s) Json.objNil) →
      (∀ x ∈ elems, ∃ r, fixRec x = Except.ok r) →
      ∀ (acc : Json × List Json), acc.1.objSpine = true →
        (∀ p ∈ acc.1.fieldsOf, (p.2).isStr = true) →
      ∃ mr, elems.foldlM (fun acc sc => do
          let rv ← jsGet sc "$ref"
          if rv.truthy then do
            let f ← fixRec sc
            pure (acc.1, acc.2 ++ [f])
          else
            pure (allOfMergeEntries (jsEntries sc) acc.1, acc.2)) acc = Except.ok mr ∧
        mr.1.objSpine = true ∧ (∀ p ∈ mr.1.fieldsOf, (p.2).isStr = true) := by
  intro elems
  induction elems with
  | nil =>
      intro _ _ acc h1 h2
      exact ⟨acc, rfl, h1, h2⟩
  | cons sc rest ih =>
      intro hshape hrec acc h1 h2
      obtain ⟨s, rfl⟩ := hshape sc (List.mem_cons_self _ _)
      have hjg : jsGet (Json.objCons "$ref" (Json.str s) Json.objNil) "$ref"
          = Except.ok (Json.str s) := rfl
      rw [List.foldlM_cons]
      by_cases ht : (Json.str s).truthy = true
      · obtain ⟨f, hf⟩ := hrec _ (List.mem_cons_self _ _)
        obtain ⟨mr, hmr, hm1, hm2⟩ := ih
          (fun x hx => hshape x (List.mem_cons_of_mem _ hx))
          (fun x hx => hrec x (List.mem_cons_of_mem _ hx))
          (acc.1, acc.2 ++ [f]) h1 h2
        refine ⟨mr, ?_, hm1, hm2⟩
        refine exceptBind_ok.mpr ⟨(acc.1, acc.2 ++ [f]), ?_, hmr⟩
        rw [hjg]
        simp only [bind, Except.bind, pure, Except.pure]
        rw [if_pos ht, hf]
      · obtain ⟨mr, hmr, hm1, hm2⟩ := ih
          (fun x hx => hshape x (List.mem_cons_of_mem _ hx))
          (fun x hx => hrec x (List.mem_cons_of_mem _ hx))
          (allOfMergeEntries (jsEntries (Json.objCons "$ref" (Json.str s) Json.objNil)) acc.1,
            acc.2)
          (by
            have : jsEntries (Json.objCons "$ref" (Json.str s) Json.objNil)
                = [("$ref", Json.str s)] := rfl
            rw [this, allOfMerge_ref]
            exact Json.objSpine_setKey h1 _ _)
          (by
            have : jsEntries (Json.objCons "$ref" (Json.str s) Json.objNil)
                = [("$ref", Json.str s)] := rfl
            rw [this, allOfMerge_ref]
            exact allStr_setKey h2 (by simp [Json.isStr]) _)
        refine ⟨mr, ?_, hm1, hm2⟩
        refine exceptBind_ok.mpr
          ⟨(allOfMergeEntries (jsEntries (Json.objCons "$ref" (Json.str s) Json.objNil)) acc.1,
            acc.2), ?_, hmr⟩
        rw [hjg]
        simp only [bind, Except.bind, pure, Except.pure]
        rw [if_neg ht]

theorem allOfSpliceE_total (fixRec : Json → Except JsErr Json)
    (hstr : ∀ s : String, fixRec (Json.str s) = Except.ok (Json.str s)) :
    ∀ (entries : List (String × Json)),
      (∀ p ∈ entries, (p.2).isStr = true) →
      ∀ (acc : Json), acc.objSpine = true → descOk acc = true →
      ∃ r, allOfSpliceE fixRec entries acc = Except.ok r ∧
        r.objSpine = true ∧ descOk r = true := by
  intro entries
  induction entries with
  | nil =>
      intro _ acc hsp hda
      exact ⟨acc, rfl, hsp, hda⟩
  | cons p rest ih =>
      intro hall acc hsp hda
      obtain ⟨k, v⟩ := p
      have hv : v.isStr = true := hall (k, v) (List.mem_cons_self _ _)
      have hnext := fun (acc' : Json) h1 h2 => ih
        (fun q hq => hall q (List.mem_cons_of_mem _ hq)) acc' h1 h2
      by_cases hk : k = "allOf"
      · obtain ⟨r, hr, hrsp, hrda⟩ := hnext acc hsp hda
        refine ⟨r, ?_, hrsp, hrda⟩
        simp only [allOfSpliceE, List.foldlM_cons]
        refine exceptBind_ok.mpr ⟨acc, ?_, ?_⟩
        · simp only [if_pos hk]; rfl
        · simp only [allOfSpliceE] at hr; exact hr
      · cases v with
        | str s =>
            have hda' : descOk (acc.setKey k (Json.str s)) = true := by
              by_cases hkd : k = "description"
              · subst hkd
                exact descOk_setKey_desc hsp (by simp [strOrFalsy, Json.isStr])
              · rw [descOk_setKey_ne hkd]; exact hda
            obtain ⟨r, hr, hrsp, hrda⟩ := hnext (acc.setKey k (Json.str s))
              (Json.objSpine_setKey hsp _ _) hda'
            refine ⟨r, ?_, hrsp, hrda⟩
            simp only [allOfSpliceE, List.foldlM_cons]
            refine exceptBind_ok.mpr ⟨acc.setKey k (Json.str s), ?_, ?_⟩
            · simp only [if_neg hk]
              exact exceptBind_ok.mpr ⟨Json.str s, hstr s, rfl⟩
            · simp only [allOfSpliceE] at hr; exact hr
        | undef => simp [Json.isStr] at hv
        | null => simp [Json.isStr] at hv
        | bool b => simp [Json.isStr] at hv
        | num m => simp [Json.isStr] at hv
        | arrNil => simp [Json.isStr] at hv
        | arrCons a t => simp [Json.isStr] at hv
        | objNil => simp [Json.isStr] at hv
        | objCons a b t => simp [Json.isStr] at hv

theorem jsEntries_eq_fieldsOf {j : Json} (h : j.isObjVal = true) :
    jsEntries j = j.fieldsOf := by
  cases j <;> simp_all [jsEntries, Json.fieldsOf, Json.isObjVal]

theorem fixAllOfE_total (fixRec : Json → Except JsErr Json)
    (hstr : ∀ s : String, fixRec (Json.str s) = Except.ok (Json.str s)) :
    ∀ (value result : Json),
      allOfRefMembers value = true →
      (∀ x ∈ value.elemsOf, ∃ r, fixRec x = Except.ok r) →
      result.objSpine = true → descOk result = true →
      ∃ r, fixAllOfE fixRec value result = Except.ok r ∧
        r.objSpine = true ∧ descOk r = true := by
  intro value result hmem hrec hsp hda
  have hiter : jsIterate value = Except.ok value.elemsOf := by
    cases value <;> simp_all [jsIterate, allOfRefMembers, asArr, Json.elemsOf,
      allOfRefMembers_asArr, pure, Except.pure]
  obtain ⟨mr, hmr, hm1, hm2⟩ := allOfCollectE_total fixRec value.elemsOf
    (allOfRefMembers_mem hmem) hrec (Json.objNil, []) rfl (by simp [Json.fieldsOf])
  have hmv : mr.1.isObjVal = true := by
    cases hh : mr.1 <;> rw [hh] at hm1 <;> simp_all [Json.objSpine, Json.isObjVal]
  by_cases hkc : keyCount mr.1 > 0
  · obtain ⟨r0, hr0, hr0sp, hr0da⟩ :=
      allOfSpliceE_total fixRec hstr mr.1.fieldsOf hm2 result hsp hda
    refine ⟨if mr.2.length > 0 then r0.setKey "allOf" (jarr mr.2) else r0, ?_, ?_, ?_⟩
    · rw [fixAllOfE]
      refine exceptBind_ok.mpr ⟨value.elemsOf, hiter, ?_⟩
      refine exceptBind_ok.mpr ⟨mr, hmr, ?_⟩
      rw [if_pos hkc, jsEntries_eq_fieldsOf hmv]
      exact exceptBind_ok.mpr ⟨r0, hr0, rfl⟩
    · split
      · exact Json.objSpine_setKey hr0sp _ _
      · exact hr0sp
    · split
      · rw [descOk_setKey_ne (by decide)]; exact hr0da
      · exact hr0da
  · refine ⟨if mr.2.length > 0 then result.setKey "allOf" (jarr mr.2) else result, ?_, ?_, ?_⟩
    · rw [fixAllOfE]
      refine exceptBind_ok.mpr ⟨value.elemsOf, hiter, ?_⟩
      refine exceptBind_ok.mpr ⟨mr, hmr, ?_⟩
      rw [if_neg hkc]
      exact exceptBind_ok.mpr ⟨result, rfl, rfl⟩
    · split
      · exact Json.objSpine_setKey hsp _ _
      · exact hsp
    · split
      · rw [descOk_setKey_ne (by decide)]; exact hda
      · exact hda

theorem unionFallback_props (key : String) {res : Json} (hsp : res.objSpine = true) :
    (unionFallback key res).objSpine = true ∧ descOk (unionFallback key res) = true := by
  constructor
  · exact Json.objSpine_setKey (Json.objSpine_setKey hsp _ _) _ _
  · exact descOk_setKey_desc (Json.objSpine_setKey hsp _ _) (by simp [strOrFalsy, Json.isStr])

theorem fixUnionE_total (fixRec : Json → Except JsErr Json)
    (hstr : ∀ s : String, fixRec (Json.str s) = Except.ok (Json.str s))
    (hfal : ∀ x : Json, x.truthy = false → fixRec x = Except.ok x)
    (key : String) :
    ∀ (value result : Json),
      arrOfObjs value = true →
      (∀ x ∈ value.elemsOf, fixSafe x = true) →
      (∀ mem ∈ value.elemsOf, ∀ p ∈ mem.fieldsOf, ∃ r, fixRec p.2 = Except.ok r) →
      result.objSpine = true → descOk result = true →
      ∃ r, fixUnionE fixRec key value result = Except.ok r ∧
        r.objSpine = true ∧ descOk r = true := by
  intro value result hv hsafe hmem hsp hda
  obtain ⟨nonNull, hfil, hsub⟩ := unionFilterE_total value.elemsOf (arrOfObjs_mem hv)
  by_cases hc1 : (nonNull.length = 1 && hasNullTypeB value.elemsOf) = true
  · have hlen : nonNull.length = 1 :=
      of_decide_eq_true ((Bool.and_eq_true _ _).mp hc1).1
    obtain ⟨m, rfl⟩ := List.length_eq_one.mp hlen
    have hmm : m ∈ value.elemsOf := hsub m (List.mem_cons_self m [])
    have hmv : m.isObjVal = true := arrOfObjs_mem hv m hmm
    obtain ⟨r0, hr0, hsp0, hda0⟩ := spliceEntriesE_total fixRec hstr hfal m.fieldsOf
      (hmem m hmm) (fixSafe_descField (hsafe m hmm)) result hsp hda
    refine ⟨if (m.getF "type" == Json.str "boolean") = true
        then (r0.setKey "x-nullable" (Json.bool true)).setKey "type" (Json.str "boolean")
        else r0.setKey "x-nullable" (Json.bool true), ?_, ?_, ?_⟩
    · simp only [fixUnionE, arrOfObjs_asArr hv]
      refine exceptBind_ok.mpr ⟨[m], hfil, ?_⟩
      rw [if_pos hc1]
      simp only [List.headD]
      rw [jsEntries_eq_fieldsOf hmv]
      refine exceptBind_ok.mpr ⟨r0, hr0, ?_⟩
      rfl
    · split
      · exact Json.objSpine_setKey (Json.objSpine_setKey hsp0 _ _) _ _
      · exact Json.objSpine_setKey hsp0 _ _
    · split
      · rw [descOk_setKey_ne (by decide), descOk_setKey_ne (by decide)]; exact hda0
      · rw [descOk_setKey_ne (by decide)]; exact hda0
  · by_cases hc2 : nonNull.length > 0
    · by_cases hch : (chooseUnionSchema nonNull).truthy = true
      · have hcmem : chooseUnionSchema nonNull ∈ nonNull := chooseUnionSchema_mem hch
        have hce : chooseUnionSchema nonNull ∈ value.elemsOf := hsub _ hcmem
        have hcv : (chooseUnionSchema nonNull).isObjVal = true := arrOfObjs_mem hv _ hce
        obtain ⟨r0, hr0, hsp0, hda0⟩ := spliceChosenE_total fixRec hstr hfal key
          (chooseUnionSchema nonNull).fieldsOf
          (hmem _ hce) (fixSafe_descField (hsafe _ hce)) result hsp hda
        obtain ⟨r1, hr1, hsp1, hda1⟩ := appendSimplificationMsg_total hsp0 hda0
          (simplificationMsg key (originalTypesStr nonNull))
        refine ⟨if (hasNullTypeB value.elemsOf) = true
            then r1.setKey "x-nullable" (Json.bool true) else r1, ?_, ?_, ?_⟩
        · simp only [fixUnionE, arrOfObjs_asArr hv]
          refine exceptBind_ok.mpr ⟨nonNull, hfil, ?_⟩
          rw [if_neg hc1, if_pos hc2, if_neg (not_not_intro hch)]
          rw [jsEntries_eq_fieldsOf hcv]
          refine exceptBind_ok.mpr ⟨r0, hr0, ?_⟩
          refine exceptBind_ok.mpr ⟨r1, hr1, ?_⟩
          rfl
        · split
          · exact Json.objSpine_setKey hsp1 _ _
          · exact hsp1
        · split
          · rw [descOk_setKey_ne (by decide)]; exact hda1
          · exact hda1
      · obtain ⟨hfsp, hfda⟩ := unionFallback_props key hsp
        refine ⟨if (hasNullTypeB value.elemsOf) = true
            then (unionFallback key result).setKey "x-nullable" (Json.bool true)
            else unionFallback key result, ?_, ?_, ?_⟩
        · simp only [fixUnionE, arrOfObjs_asArr hv]
          refine exceptBind_ok.mpr ⟨nonNull, hfil, ?_⟩
          rw [if_neg hc1, if_pos hc2, if_pos hch]
          rfl
        · split
          · exact Json.objSpine_setKey hfsp _ _
          · exact hfsp
        · split
          · rw [descOk_setKey_ne (by decide)]; exact hfda
          · exact hfda
    · obtain ⟨hfsp, hfda⟩ := unionFallback_props key hsp
      refine ⟨unionFallback key result, ?_, hfsp, hfda⟩
      simp only [fixUnionE, arrOfObjs_asArr hv]
      refine exceptBind_ok.mpr ⟨nonNull, hfil, ?_⟩
      rw [if_neg hc1, if_neg hc2]
      rfl

theorem notBranch_props {res : Json} (hsp : res.objSpine = true) :
    (notBranch res).objSpine = true ∧ descOk (notBranch res) = true := by
  rw [notBranch]
  have h1 : (res.setKey "description"
      (Json.str (descOrEmpty (res.getF "description") ++ notConstraintMsg))).objSpine = true :=
    Json.objSpine_setKey hsp _ _
  have h2 : descOk (res.setKey "description"
      (Json.str (descOrEmpty (res.getF "description") ++ notConstraintMsg))) = true :=
    descOk_setKey_desc hsp (by simp [strOrFalsy, Json.isStr])
  constructor
  · split
    · exact Json.objSpine_setKey h1 _ _
    · exact h1
  · split
    · rw [descOk_setKey_ne (by decide)]; exact h2
    · exact h2

theorem fixSafe_unionField : ∀ {j : Json}, fixSafe j = true →
    ∀ p ∈ j.fieldsOf, (p.1 = "anyOf" ∨ p.1 = "oneOf") → arrOfObjs p.2 = true := by
  intro j
  induction j with
  | objCons k v t ihv iht =>
      intro h p hm hk
      obtain ⟨_, h2, _, _, h5⟩ := fixSafe_parts h
      simp only [Json.fieldsOf, List.mem_cons] at hm
      rcases hm with rfl | hm
      · simp only at hk
        have : (decide (k = "anyOf") || decide (k = "oneOf")) = true := by
          rcases hk with rfl | rfl <;> simp
        rw [this] at h2
        simpa using h2
      · exact iht h5 p hm hk
  | objNil => intro _ p hm; simp [Json.fieldsOf] at hm
  | undef => intro _ p hm; simp [Json.fieldsOf] at hm
  | null => intro _ p hm; simp [Json.fieldsOf] at hm
  | bool b => intro _ p hm; simp [Json.fieldsOf] at hm
  | num m => intro _ p hm; simp [Json.fieldsOf] at hm
  | str s => intro _ p hm; simp [Json.fieldsOf] at hm
  | arrNil => intro _ p hm; simp [Json.fieldsOf] at hm
  | arrCons x t ihh iht => intro _ p hm; simp [Json.fieldsOf] at hm

theorem fixSafe_allOfField : ∀ {j : Json}, fixSafe j = true →
    ∀ p ∈ j.fieldsOf, p.1 = "allOf" → allOfRefMembers p.2 = true := by
  intro j
  induction j with
  | objCons k v t ihv iht =>
      intro h p hm hk
      obtain ⟨_, _, h3, _, h5⟩ := fixSafe_parts h
      simp only [Json.fieldsOf, List.mem_cons] at hm
      rcases hm with rfl | hm
      · simp only at hk
        subst hk
        simpa using h3
      · exact iht h5 p hm hk
  | objNil => intro _ p hm; simp [Json.fieldsOf] at hm
  | undef => intro _ p hm; simp [Json.fieldsOf] at hm
  | null => intro _ p hm; simp [Json.fieldsOf] at hm
  | bool b => intro _ p hm; simp [Json.fieldsOf] at hm
  | num m => intro _ p hm; simp [Json.fieldsOf] at hm
  | str s => intro _ p hm; simp [Json.fieldsOf] at hm
  | arrNil => intro _ p hm; simp [Json.fieldsOf] at hm
  | arrCons x t ihh iht => intro _ p hm; simp [Json.fieldsOf] at hm

theorem fixStepFold_inr (fixRec : Json → Except JsErr Json) (inv : Bool) (orig : Json)
    (done : Json) :
    ∀ (fields : List (String × Json)),
      fields.foldlM (fixStep fixRec inv orig) (Sum.inr done) = Except.ok (Sum.inr done) := by
  intro fields
  induction fields with
  | nil => rfl
  | cons p rest ih =>
      rw [List.foldlM_cons]
      exact exceptBind_ok.mpr ⟨Sum.inr done, rfl, ih⟩

theorem fixStep_total (fixRec : Json → Except JsErr Json)
    (hstr : ∀ s : String, fixRec (Json.str s) = Except.ok (Json.str s))
    (hfal : ∀ x : Json, x.truthy = false → fixRec x = Except.ok x)
    (inv : Bool) (orig : Json) (k : String) (v res : Json)
    (hv : ∃ r, fixRec v = Except.ok r)
    (hdesc : k = "description" → strOrFalsy v = true)
    (hunion : (k = "anyOf" ∨ k = "oneOf") → arrOfObjs v = true)
    (hallof : k = "allOf" → allOfRefMembers v = true)
    (hsafe : fixSafe v = true)
    (hmemf : ∀ mem ∈ v.elemsOf, ∀ q ∈ mem.fieldsOf, ∃ r, fixRec q.2 = Except.ok r)
    (hmemw : ∀ mem ∈ v.elemsOf, ∃ r, fixRec mem = Except.ok r)
    (hsp : res.objSpine = true) (hda : descOk res = true) :
    ∃ acc', fixStep fixRec inv orig (Sum.inl res) (k, v) = Except.ok acc' ∧
      (∀ r2, acc' = Sum.inl r2 → r2.objSpine = true ∧ descOk r2 = true) := by
  by_cases hc1 : (k = "$ref" && v.isStr) = true
  · refine ⟨Sum.inl (res.setKey "$ref"
      (Json.str (sReplaceFirst (jsToString v) modernPre legacyPre))), ?_, ?_⟩
    · simp only [fixStep]
      rw [if_pos hc1]
      rfl
    · intro r2 h2
      cases h2
      exact ⟨Json.objSpine_setKey hsp _ _, by rw [descOk_setKey_ne (by decide)]; exact hda⟩
  · by_cases hc2 : (k = "enum" && inv) = true
    · refine ⟨Sum.inl res, ?_, ?_⟩
      · simp only [fixStep]
        rw [if_neg hc1, if_pos hc2]
        rfl
      · intro r2 h2
        cases h2
        exact ⟨hsp, hda⟩
    · by_cases hc3 : (k = "anyOf" || k = "oneOf") = true
      · have hk : k = "anyOf" ∨ k = "oneOf" := by
          rcases Bool.or_eq_true_iff.mp hc3 with h | h
          · exact Or.inl (of_decide_eq_true h)
          · exact Or.inr (of_decide_eq_true h)
        obtain ⟨r, hr, hrsp, hrda⟩ := fixUnionE_total fixRec hstr hfal k v res
          (hunion hk) (fixSafe_elem hsafe) hmemf hsp hda
        refine ⟨Sum.inl r, ?_, ?_⟩
        · simp only [fixStep]
          rw [if_neg hc1, if_neg hc2, if_pos hc3]
          exact exceptBind_ok.mpr ⟨r, hr, rfl⟩
        · intro r2 h2
          cases h2
          exact ⟨hrsp, hrda⟩
      · by_cases hc4 : k = "allOf"
        · obtain ⟨r, hr, hrsp, hrda⟩ := fixAllOfE_total fixRec hstr v res
            (hallof hc4) (hmemw) hsp hda
          refine ⟨Sum.inl r, ?_, ?_⟩
          · simp only [fixStep]
            rw [if_neg hc1, if_neg hc2, if_neg hc3, if_pos hc4]
            exact exceptBind_ok.mpr ⟨r, hr, rfl⟩
          · intro r2 h2
            cases h2
            exact ⟨hrsp, hrda⟩
        · by_cases hc5 : k = "not"
          · obtain ⟨hnsp, hnda⟩ := notBranch_props hsp
            refine ⟨Sum.inl (notBranch res), ?_, ?_⟩
            · simp only [fixStep]
              rw [if_neg hc1, if_neg hc2, if_neg hc3, if_neg hc4, if_pos hc5]
              rfl
            · intro r2 h2
              cases h2
              exact ⟨hnsp, hnda⟩
          · by_cases hc6 : inv = true
            · refine ⟨Sum.inr (simplifyInvalidEnumSchema orig), ?_, ?_⟩
              · simp only [fixStep]
                rw [if_neg hc1, if_neg hc2, if_neg hc3, if_neg hc4, if_neg hc5, if_pos hc6]
                rfl
              · intro r2 h2
                exact Sum.noConfusion h2
            · obtain ⟨rv, hrv⟩ := hv
              refine ⟨Sum.inl (res.setKey k rv), ?_, ?_⟩
              · simp only [fixStep]
                rw [if_neg hc1, if_neg hc2, if_neg hc3, if_neg hc4, if_neg hc5, if_neg hc6]
                exact exceptBind_ok.mpr ⟨rv, hrv, rfl⟩
              · intro r2 h2
                cases h2
                refine ⟨Json.objSpine_setKey hsp _ _, ?_⟩
                by_cases hkd : k = "description"
                · subst hkd
                  exact descOk_setKey_desc hsp
                    (strOrFalsy_fixRec fixRec hstr hfal (hdesc rfl) hrv)
                · rw [descOk_setKey_ne hkd]; exact hda

theorem fixStepFold_total (fixRec : Json → Except JsErr Json)
    (hstr : ∀ s : String, fixRec (Json.str s) = Except.ok (Json.str s))
    (hfal : ∀ x : Json, x.truthy = false → fixRec x = Except.ok x)
    (inv : Bool) (orig : Json) :
    ∀ (fields : List (String × Json)),
      (∀ p ∈ fields, ∃ r, fixRec p.2 = Except.ok r) →
      (∀ p ∈ fields, p.1 = "description" → strOrFalsy p.2 = true) →
      (∀ p ∈ fields, (p.1 = "anyOf" ∨ p.1 = "oneOf") → arrOfObjs p.2 = true) →
      (∀ p ∈ fields, p.1 = "allOf" → allOfRefMembers p.2 = true) →
      (∀ p ∈ fields, fixSafe p.2 = true) →
      (∀ p ∈ fields, ∀ mem ∈ (p.2).elemsOf, ∀ q ∈ mem.fieldsOf, ∃ r, fixRec q.2 = Except.ok r) →
      (∀ p ∈ fields, ∀ mem ∈ (p.2).elemsOf, ∃ r, fixRec mem = Except.ok r) →
      ∀ (res : Json), res.objSpine = true → descOk res = true →
      ∃ out, fields.foldlM (fixStep fixRec inv orig) (Sum.inl res) = Except.ok out := by
  intro fields
  induction fields with
  | nil => intro _ _ _ _ _ _ _ res _ _; exact ⟨Sum.inl res, rfl⟩
  | cons p rest ih =>
      intro h1 h2 h3 h4 h5 h6 h7 res hsp hda
      obtain ⟨k, v⟩ := p
      obtain ⟨acc', hstep, hinv⟩ := fixStep_total fixRec hstr hfal inv orig k v res
        (h1 (k, v) (List.mem_cons_self _ _))
        (h2 (k, v) (List.mem_cons_self _ _))
        (h3 (k, v) (List.mem_cons_self _ _))
        (h4 (k, v) (List.mem_cons_self _ _))
        (h5 (k, v) (List.mem_cons_self _ _))
        (h6 (k, v) (List.mem_cons_self _ _))
        (h7 (k, v) (List.mem_cons_self _ _))
        hsp hda
      cases acc' with
      | inl r2 =>
          obtain ⟨hr2sp, hr2da⟩ := hinv r2 rfl
          obtain ⟨out, hout⟩ := ih
            (fun q hq => h1 q (List.mem_cons_of_mem _ hq))
            (fun q hq => h2 q (List.mem_cons_of_mem _ hq))
            (fun q hq => h3 q (List.mem_cons_of_mem _ hq))
            (fun q hq => h4 q (List.mem_cons_of_mem _ hq))
            (fun q hq => h5 q (List.mem_cons_of_mem _ hq))
            (fun q hq => h6 q (List.mem_cons_of_mem _ hq))
            (fun q hq => h7 q (List.mem_cons_of_mem _ hq))
            r2 hr2sp hr2da
          refine ⟨out, ?_⟩
          rw [List.foldlM_cons]
          exact exceptBind_ok.mpr ⟨Sum.inl r2, hstep, hout⟩
      | inr done =>
          refine ⟨Sum.inr done, ?_⟩
          rw [List.foldlM_cons]
          exact exceptBind_ok.mpr ⟨Sum.inr done, hstep,
            fixStepFold_inr fixRec inv orig done rest⟩

theorem fixF_total : ∀ (n : Nat) (j : Json), j.weight ≤ n → fixSafe j = true →
    ∃ r, fixF n j = Except.ok r := by
  intro n
  induction n with
  | zero =>
      intro j hw _
      have := Json.weight_pos j
      omega
  | succ m ih =>
      intro j hw hs
      cases j with
      | undef => exact ⟨Json.undef, fixF_scalar m Json.undef rfl⟩
      | null => exact ⟨Json.null, fixF_scalar m Json.null rfl⟩
      | bool b => exact ⟨Json.bool b, fixF_scalar m (Json.bool b) rfl⟩
      | num q => exact ⟨Json.num q, fixF_scalar m (Json.num q) rfl⟩
      | str s => exact ⟨Json.str s, fixF_scalar m (Json.str s) rfl⟩
      | arrNil => exact ⟨Json.arrNil, by rw [fixF]; split <;> rfl⟩
      | objNil => exact ⟨Json.objNil, by rw [fixF]; split <;> rfl⟩
      | arrCons h t =>
          simp only [fixSafe, Bool.and_eq_true] at hs
          have hw' : 1 + h.weight + t.weight ≤ m + 1 := by simpa [Json.weight] using hw
          obtain ⟨rh, hh⟩ := ih h (by omega) hs.1
          obtain ⟨rt, ht2⟩ := ih t (by omega) hs.2
          refine ⟨Json.arrCons rh rt, ?_⟩
          rw [fixF]
          rw [if_neg (show ¬¬((Json.arrCons h t).truthy = true) by simp [Json.truthy])]
          exact exceptBind_ok.mpr ⟨rh, hh, exceptBind_ok.mpr ⟨rt, ht2, rfl⟩⟩
      | objCons k v t =>
          have hw3 : 3 ≤ (Json.objCons k v t).weight := by
            have h1 := Json.weight_pos v
            have h2 := Json.weight_pos t
            simp only [Json.weight]
            omega
          cases m with
          | zero => omega
          | succ m0 =>
              have hstr : ∀ s : String, fixF (m0 + 1) (Json.str s) = Except.ok (Json.str s) :=
                fun s => fixF_scalar m0 (Json.str s) rfl
              have hfal : ∀ x : Json, x.truthy = false → fixF (m0 + 1) x = Except.ok x :=
                fun x hx => fixF_falsy m0 hx
              have h1 : ∀ p ∈ (Json.objCons k v t).fieldsOf,
                  ∃ r, fixF (m0 + 1) p.2 = Except.ok r := by
                intro p hp
                obtain ⟨a, b⟩ := p
                have hwlt := Json.weight_field_lt (Json.objCons k v t) a b hp
                exact ih b (by omega) (fixSafe_fieldVal hs (a, b) hp)
              have h6 : ∀ p ∈ (Json.objCons k v t).fieldsOf, ∀ mem ∈ (p.2).elemsOf,
                  ∀ q ∈ mem.fieldsOf, ∃ r, fixF (m0 + 1) q.2 = Except.ok r := by
                intro p hp mem hmem q hq
                obtain ⟨a, b⟩ := p
                obtain ⟨c, d⟩ := q
                have hw1 := Json.weight_field_lt (Json.objCons k v t) a b hp
                have hw2 := Json.weight_elem_lt b mem hmem
                have hw3q := Json.weight_field_lt mem c d hq
                have hsafeMem := fixSafe_elem (fixSafe_fieldVal hs (a, b) hp) mem hmem
                exact ih d (by omega) (fixSafe_fieldVal hsafeMem (c, d) hq)
              have h7 : ∀ p ∈ (Json.objCons k v t).fieldsOf, ∀ mem ∈ (p.2).elemsOf,
                  ∃ r, fixF (m0 + 1) mem = Except.ok r := by
                intro p hp mem hmem
                obtain ⟨a, b⟩ := p
                have hw1 := Json.weight_field_lt (Json.objCons k v t) a b hp
                have hw2 := Json.weight_elem_lt b mem hmem
                exact ih mem (by omega)
                  (fixSafe_elem (fixSafe_fieldVal hs (a, b) hp) mem hmem)
              obtain ⟨out, hout⟩ := fixStepFold_total (fixF (m0 + 1)) hstr hfal
                (hasInvalidEnumValues (Json.objCons k v t)) (Json.objCons k v t)
                (Json.objCons k v t).fieldsOf
                h1 (fixSafe_descField hs) (fixSafe_unionField hs) (fixSafe_allOfField hs)
                (fixSafe_fieldVal hs) h6 h7 Json.objNil rfl rfl
              refine ⟨match out with | Sum.inl a => a | Sum.inr b => b, ?_⟩
              rw [fixF]
              rw [if_neg (show ¬¬((Json.objCons k v t).truthy = true) by simp [Json.truthy])]
              refine exceptBind_ok.mpr ⟨out, hout, ?_⟩
              cases out <;> rfl

theorem fixSwagger2References_total {j : Json} (hs : fixSafe j = true) :
    ∃ r, fixSwagger2References j = Except.ok r :=
  fixF_total j.weight j le_rfl hs

theorem fixStep_plain (fixRec : Json → Except JsErr Json) (orig acc : Json)
    {k : String} (v : Json) (hk : plainKey k = true) :
    fixStep fixRec false orig (Sum.inl acc) (k, v)
      = (fixRec v).map (fun v2 => Sum.inl (acc.setKey k v2)) := by
  simp only [plainKey, Bool.not_eq_true', Bool.or_eq_false_iff,
    decide_eq_false_iff_not] at hk
  obtain ⟨⟨⟨⟨⟨hr, he⟩, ha⟩, ho⟩, hal⟩, hn⟩ := hk
  simp only [fixStep]
  rw [if_neg (by simp [hr])]
  rw [if_neg (by simp [he])]
  rw [if_neg (by simp [ha, ho])]
  rw [if_neg hal]
  rw [if_neg hn]
  rw [if_neg (by simp)]
  cases hv : fixRec v <;> simp [bind, Except.bind, pure, Except.pure, Except.map]

theorem fixFold_plain (n : Nat) (orig : Json) :
    ∀ (rest : Json), rest.isObjVal = true → plainObj rest = true →
      ∀ (acc : Json), acc.objSpine = true →
      (∀ key : String, rest.hasKeyB key = true → acc.hasKeyB key = false) →
      rest.fieldsOf.foldlM (fixStep (fixF n) false orig) (Sum.inl acc)
        = match fixPointwise n rest with
          | .error e => .error e
          | .ok ps => .ok (Sum.inl (objAppend acc ps)) := by
  intro rest
  induction rest with
  | objNil =>
      intro _ _ acc hacc _
      rw [show fixPointwise n Json.objNil = Except.ok Json.objNil from rfl]
      simp [Json.fieldsOf, List.foldlM, objAppend_nil hacc, pure, Except.pure]
  | objCons k v t ihv iht =>
      intro _ hpl acc hacc hdisj
      simp only [plainObj, Bool.and_eq_true] at hpl
      obtain ⟨⟨hk, hdup⟩, hpt⟩ := hpl
      have hdup' : Json.hasKeyB t k = false := by simpa using hdup
      have htv : t.isObjVal = true := by
        cases t <;> try rfl
        all_goals simp [plainObj] at hpt
      have hfresh : acc.hasKeyB k = false := hdisj k (by simp [Json.hasKeyB])
      rw [Json.fieldsOf, List.foldlM_cons]
      rw [fixStep_plain (fixF n) orig acc v hk]
      rw [fixPointwise]
      cases hv : fixF n v with
      | error e =>
          simp only [Except.map, bind, Except.bind]
      | ok v2 =>
          have hset := Json.setKey_fresh hacc hfresh v2
          have hdisj2 : ∀ key : String, t.hasKeyB key = true →
              (acc.setKey k v2).hasKeyB key = false := by
            intro key hkt
            have hne : key ≠ k := by
              intro e; subst e; rw [hdup'] at hkt; cases hkt
            rw [Json.hasKeyB_setKey_ne hne]
            exact hdisj key (by simp [Json.hasKeyB, hkt])
          have hrec := iht htv hpt (acc.setKey k v2)
            (Json.objSpine_setKey hacc _ _) hdisj2
          simp only [Except.map, bind, Except.bind]
          rw [hrec]
          cases ht2 : fixPointwise n t with
          | error e => rfl
          | ok ts =>
              simp only [pure, Except.pure]
              rw [hset, objAppend_assoc]
              rfl
  | undef => intro h; simp [Json.isObjVal] at h
  | null => intro h; simp [Json.isObjVal] at h
  | bool b => intro h; simp [Json.isObjVal] at h
  | num m => intro h; simp [Json.isObjVal] at h
  | str s => intro h; simp [Json.isObjVal] at h
  | arrNil => intro h; simp [Json.isObjVal] at h
  | arrCons x t ihh iht => intro h; simp [Json.isObjVal] at h

theorem fixF_plainObj (n : Nat) : ∀ {j : Json}, j.isObjVal = true → plainObj j = true →
    hasInvalidEnumValues j = false →
    fixF (n + 1) j = fixPointwise n j := by
  intro j hov hpl hinv
  cases j with
  | objNil =>
      rw [fixF]
      rw [if_neg (show ¬¬(Json.objNil.truthy = true) by simp [Json.truthy])]
      rfl
  | objCons k v t =>
      rw [fixF]
      rw [if_neg (show ¬¬((Json.objCons k v t).truthy = true) by simp [Json.truthy])]
      have hfold := fixFold_plain n (Json.objCons k v t) (Json.objCons k v t) hov hpl
        Json.objNil rfl (fun key _ => rfl)
      rw [hinv]
      cases hpw : fixPointwise n (Json.objCons k v t) with
      | error e =>
          rw [hpw] at hfold
          simp [hfold, bind, Except.bind]
      | ok ps =>
          rw [hpw] at hfold
          simp [hfold, bind, Except.bind, pure, Except.pure, objAppend]
  | undef => simp [Json.isObjVal] at hov
  | null => simp [Json.isObjVal] at hov
  | bool b => simp [Json.isObjVal] at hov
  | num m => simp [Json.isObjVal] at hov
  | str s => simp [Json.isObjVal] at hov
  | arrNil => simp [Json.isObjVal] at hov
  | arrCons x t => simp [Json.isObjVal] at hov

theorem fixPointwise_getF : ∀ {j : Json}, j.objSpine = true → ∀ {n : Nat} {r : Json},
    fixPointwise n j = Except.ok r →
    r.objSpine = true ∧
    (∀ key, j.hasKeyB key = false → r.getF key = Json.undef) ∧
    (∀ key, j.hasKeyB key = true → fixF n (j.getF key) = Except.ok (r.getF key)) ∧
    (∀ key, r.hasKeyB key = j.hasKeyB key) := by
  intro j
  induction j with
  | objNil =>
      intro _ n r hp
      simp only [fixPointwise, pure, Except.pure, Except.ok.injEq] at hp
      subst hp
      refine ⟨rfl, fun key _ => rfl, fun key h => ?_, fun key => rfl⟩
      simp [Json.hasKeyB] at h
  | objCons k v t ihv iht =>
      intro hsp n r hp
      simp only [Json.objSpine] at hsp
      rw [fixPointwise] at hp
      obtain ⟨v2, hv2, hp2⟩ := exceptBind_ok.mp hp
      obtain ⟨ts, hts, hp3⟩ := exceptBind_ok.mp hp2
      simp only [pure, Except.pure, Except.ok.injEq] at hp3
      subst hp3
      obtain ⟨hssp, habs, hpres, hkeys⟩ := iht hsp hts
      refine ⟨hssp, ?_, ?_, ?_⟩
      · intro key hab
        simp only [Json.hasKeyB, Bool.or_eq_false_iff, decide_eq_false_iff_not] at hab
        simp only [Json.getF, if_neg hab.1]
        exact habs key hab.2
      · intro key hpr
        by_cases hke : k = key
        · subst hke
          simp only [Json.getF, if_pos rfl]
          exact hv2
        · simp only [Json.hasKeyB, Bool.or_eq_true, decide_eq_true_eq] at hpr
          rcases hpr with h | h
          · exact absurd h hke
          · simp only [Json.getF, if_neg hke]
            exact hpres key h
      · intro key
        simp only [Json.hasKeyB, hkeys]
  | undef => intro h; simp [Json.objSpine] at h
  | null => intro h; simp [Json.objSpine] at h
  | bool b => intro h; simp [Json.objSpine] at h
  | num m => intro h; simp [Json.objSpine] at h
  | str s => intro h; simp [Json.objSpine] at h
  | arrNil => intro h; simp [Json.objSpine] at h
  | arrCons x t ihh iht => intro h; simp [Json.objSpine] at h

theorem fixF_arrCons (n : Nat) (h t : Json) :
    fixF (n + 1) (Json.arrCons h t) = (do
      let h2 ← fixF n h
      let t2 ← fixF n t
      pure (Json.arrCons h2 t2)) := by
  rw [fixF]
  rw [if_neg (show ¬¬((Json.arrCons h t).truthy = true) by simp [Json.truthy])]

/- ### Totality of the modern-to-legacy pipeline on well-formed documents (claim C1). -/

theorem foldAppendM_total {α : Type} (f : α → Except JsErr (List String)) :
    ∀ (l : List α), (∀ x ∈ l, ∃ w, f x = Except.ok w) →
    ∃ w, foldAppendM f l = Except.ok w := by
  intro l
  induction l with
  | nil => intro _; exact ⟨[], rfl⟩
  | cons x xs ih =>
      intro h
      obtain ⟨w, hw⟩ := h x (List.mem_cons_self _ _)
      obtain ⟨ws, hws⟩ := ih (fun y hy => h y (List.mem_cons_of_mem _ hy))
      refine ⟨w ++ ws, ?_⟩
      rw [foldAppendM]
      exact exceptBind_ok.mpr ⟨w, hw, exceptBind_ok.mpr ⟨ws, hws, rfl⟩⟩

theorem Json.getF_undef_of_not_hasKeyB : ∀ {j : Json} {k : String},
    j.hasKeyB k = false → j.getF k = Json.undef := by
  intro j
  induction j with
  | objCons k0 v t ihv iht =>
      intro k h
      simp only [Json.hasKeyB, Bool.or_eq_false_iff, decide_eq_false_iff_not] at h
      simp only [Json.getF, if_neg h.1]
      exact iht h.2
  | objNil => intro k _; rfl
  | undef => intro k _; rfl
  | null => intro k _; rfl
  | bool b => intro k _; rfl
  | num m => intro k _; rfl
  | str s => intro k _; rfl
  | arrNil => intro k _; rfl
  | arrCons x t ihh iht => intro k _; rfl

theorem fixSafe_getF : ∀ {j : Json}, fixSafe j = true → ∀ (k : String),
    fixSafe (j.getF k) = true := by
  intro j
  induction j with
  | objCons k0 v t ihv iht =>
      intro h k
      obtain ⟨_, _, _, h4, h5⟩ := fixSafe_parts h
      by_cases hk : k0 = k
      · simp only [Json.getF, if_pos hk]
        exact h4
      · simp only [Json.getF, if_neg hk]
        exact iht h5 k
  | objNil => intro _ k; rfl
  | undef => intro _ k; rfl
  | null => intro _ k; rfl
  | bool b => intro _ k; rfl
  | num m => intro _ k; rfl
  | str s => intro _ k; rfl
  | arrNil => intro _ k; rfl
  | arrCons x t ihh iht => intro _ k; rfl

theorem fixSafe_cons {k : String} {v t : Json}
    (hc1 : (!(k = "description") || (v.isStr || !v.truthy)) = true)
    (hc2 : (!(k = "anyOf" || k = "oneOf") || arrOfObjs v) = true)
    (hc3 : (!(k = "allOf") || allOfRefMembers v) = true)
    (hv : fixSafe v = true) (ht : fixSafe t = true) :
    fixSafe (Json.objCons k v t) = true := by
  simp only [fixSafe, Bool.and_eq_true]
  exact ⟨⟨⟨⟨hc1, hc2⟩, hc3⟩, hv⟩, ht⟩

theorem fixSafe_setKey : ∀ {j : Json}, fixSafe j = true → ∀ {k : String} {v : Json},
    fixSafe v = true →
    ((!(k = "description") || (v.isStr || !v.truthy)) = true) →
    ((!(k = "anyOf" || k = "oneOf") || arrOfObjs v) = true) →
    ((!(k = "allOf") || allOfRefMembers v) = true) →
    fixSafe (j.setKey k v) = true := by
  intro j
  induction j with
  | objCons k0 v0 t ihv iht =>
      intro h k v hv hc1 hc2 hc3
      obtain ⟨g1, g2, g3, g4, g5⟩ := fixSafe_parts h
      by_cases hk : k0 = k
      · subst hk
        rw [Json.setKey, if_pos rfl]
        exact fixSafe_cons hc1 hc2 hc3 hv g5
      · rw [Json.setKey, if_neg hk]
        exact fixSafe_cons g1 g2 g3 g4 (iht g5 hv hc1 hc2 hc3)
  | objNil =>
      intro _ k v hv hc1 hc2 hc3
      rw [Json.setKey]
      exact fixSafe_cons hc1 hc2 hc3 hv rfl
  | undef => intro h k v hv _ _ _; exact h
  | null => intro h k v hv _ _ _; exact h
  | bool b => intro h k v hv _ _ _; exact h
  | num m => intro h k v hv _ _ _; exact h
  | str s => intro h k v hv _ _ _; exact h
  | arrNil => intro h k v hv _ _ _; exact h
  | arrCons x t ihh iht => intro h k v hv _ _ _; exact h

theorem fixSafe_removeKey : ∀ {j : Json}, fixSafe j = true → ∀ (k : String),
    fixSafe (j.removeKey k) = true := by
  intro j
  induction j with
  | objCons k0 v t ihv iht =>
      intro h k
      obtain ⟨g1, g2, g3, g4, g5⟩ := fixSafe_parts h
      by_cases hk : k0 = k
      · rw [Json.removeKey, if_pos hk]
        exact iht g5 k
      · rw [Json.removeKey, if_neg hk]
        exact fixSafe_cons g1 g2 g3 g4 (iht g5 k)
  | objNil => intro h k; exact h
  | undef => intro h k; exact h
  | null => intro h k; exact h
  | bool b => intro h k; exact h
  | num m => intro h k; exact h
  | str s => intro h k; exact h
  | arrNil => intro h k; exact h
  | arrCons x t ihh iht => intro h k; exact h

theorem plainObj_setKey : ∀ {j : Json}, plainObj j = true → ∀ {k : String},
    plainKey k = true → ∀ (v : Json), plainObj (j.setKey k v) = true := by
  intro j
  induction j with
  | objCons k0 v0 t ihv iht =>
      intro h k hk v
      simp only [plainObj, Bool.and_eq_true] at h
      obtain ⟨⟨h1, h2⟩, h3⟩ := h
      by_cases hke : k0 = k
      · rw [Json.setKey, if_pos hke]
        simp [plainObj, h1, h2, h3]
      · rw [Json.setKey, if_neg hke]
        have h2' : Json.hasKeyB (t.setKey k v) k0 = false := by
          rw [Json.hasKeyB_setKey_ne hke]
          simpa using h2
        simp [plainObj, h1, h2', iht h3 hk v]
  | objNil =>
      intro _ k hk v
      simp [Json.setKey, plainObj, hk, Json.hasKeyB]
  | undef => intro h; simp [plainObj] at h
  | null => intro h; simp [plainObj] at h
  | bool b => intro h; simp [plainObj] at h
  | num m => intro h; simp [plainObj] at h
  | str s => intro h; simp [plainObj] at h
  | arrNil => intro h; simp [plainObj] at h
  | arrCons x t ihh iht => intro h; simp [plainObj] at h

theorem hasInvalidEnum_of_enum_undef {j : Json} (h : j.getF "enum" = Json.undef) :
    hasInvalidEnumValues j = false := by
  rw [hasInvalidEnumValues, h]
  split
  · rfl
  · rfl

theorem safeName_plainKey {k : String} (h : safeName k = true) : plainKey k = true := by
  simp only [safeName, Bool.not_eq_true', Bool.or_eq_false_iff,
    decide_eq_false_iff_not] at h
  obtain ⟨⟨⟨⟨⟨⟨⟨⟨h1, h2⟩, h3⟩, h4⟩, h5⟩, h6⟩, h7⟩, h8⟩, h9⟩ := h
  simp [plainKey, h1, h2, h3, h4, h5, h6, h7]

theorem isHttpMethod_facts {k : String} (h : isHttpMethod k = true) :
    plainKey k = true ∧ ¬ k = "parameters" ∧ ¬ k = "$ref" ∧ ¬ k = "enum" ∧
    ¬ k = "description" ∧ ¬ k = "anyOf" ∧ ¬ k = "oneOf" ∧ ¬ k = "allOf" := by
  simp only [isHttpMethod, Bool.or_eq_true, decide_eq_true_eq] at h
  rcases h with ((((((h | h) | h) | h) | h) | h) | h) | h <;> subst h <;>
    exact ⟨by decide, by decide, by decide, by decide, by decide, by decide,
      by decide, by decide⟩

theorem Json.isObjVal_truthy {j : Json} (h : j.isObjVal = true) : j.truthy = true := by
  cases j <;> simp_all [Json.isObjVal, Json.truthy]

theorem Json.objSpine_isObjVal {j : Json} (h : j.objSpine = true) : j.isObjVal = true := by
  cases j <;> simp_all [Json.objSpine, Json.isObjVal]

theorem jsEntries_spine {j : Json} (h : j.objSpine = true) : jsEntries j = j.fieldsOf := by
  cases j <;> simp_all [Json.objSpine, jsEntries, Json.fieldsOf]

theorem Json.truthy_of_getF_truthy : ∀ {j : Json} {k : String},
    (j.getF k).truthy = true → j.truthy = true := by
  intro j k h
  cases j <;> first
    | rfl
    | simp [Json.getF, Json.truthy] at h ⊢

theorem wfSchemaMap_spine : ∀ {m : Json}, wfSchemaMap m = true → m.objSpine = true := by
  intro m
  induction m with
  | objCons k v t ihv iht =>
      intro h
      simp only [wfSchemaMap, Bool.and_eq_true] at h
      exact iht h.2
  | objNil => intro _; rfl
  | undef => intro h; simp [wfSchemaMap] at h
  | null => intro h; simp [wfSchemaMap] at h
  | bool b => intro h; simp [wfSchemaMap] at h
  | num n => intro h; simp [wfSchemaMap] at h
  | str s => intro h; simp [wfSchemaMap] at h
  | arrNil => intro h; simp [wfSchemaMap] at h
  | arrCons x t ihh iht => intro h; simp [wfSchemaMap] at h

theorem wfSchemaMap_fields : ∀ {m : Json}, wfSchemaMap m = true →
    ∀ p ∈ m.fieldsOf, safeName p.1 = true ∧ p.2.isObjVal = true ∧ fixSafe p.2 = true := by
  intro m
  induction m with
  | objCons k v t ihv iht =>
      intro h p hp
      simp only [wfSchemaMap, Bool.and_eq_true] at h
      obtain ⟨⟨⟨h1, h2⟩, h3⟩, h4⟩ := h
      rcases List.mem_cons.mp hp with he | hm
      · subst he; exact ⟨h1, h2, h3⟩
      · exact iht h4 p hm
  | objNil => intro _ p hp; simp [Json.fieldsOf] at hp
  | undef => intro h; simp [wfSchemaMap] at h
  | null => intro h; simp [wfSchemaMap] at h
  | bool b => intro h; simp [wfSchemaMap] at h
  | num n => intro h; simp [wfSchemaMap] at h
  | str s => intro h; simp [wfSchemaMap] at h
  | arrNil => intro h; simp [wfSchemaMap] at h
  | arrCons x t ihh iht => intro h; simp [wfSchemaMap] at h

theorem wfSecSchemes_spine : ∀ {m : Json}, wfSecSchemes m = true → m.objSpine = true := by
  intro m
  induction m with
  | objCons k v t ihv iht =>
      intro h
      simp only [wfSecSchemes, Bool.and_eq_true] at h
      exact iht h.2
  | objNil => intro _; rfl
  | undef => intro h; simp [wfSecSchemes] at h
  | null => intro h; simp [wfSecSchemes] at h
  | bool b => intro h; simp [wfSecSchemes] at h
  | num n => intro h; simp [wfSecSchemes] at h
  | str s => intro h; simp [wfSecSchemes] at h
  | arrNil => intro h; simp [wfSecSchemes] at h
  | arrCons x t ihh iht => intro h; simp [wfSecSchemes] at h

theorem wfSecSchemes_fields : ∀ {m : Json}, wfSecSchemes m = true →
    ∀ p ∈ m.fieldsOf, safeName p.1 = true ∧ wfScheme p.2 = true := by
  intro m
  induction m with
  | objCons k v t ihv iht =>
      intro h p hp
      simp only [wfSecSchemes, Bool.and_eq_true] at h
      obtain ⟨⟨h1, h2⟩, h3⟩ := h
      rcases List.mem_cons.mp hp with he | hm
      · subst he; exact ⟨h1, h2⟩
      · exact iht h3 p hm
  | objNil => intro _ p hp; simp [Json.fieldsOf] at hp
  | undef => intro h; simp [wfSecSchemes] at h
  | null => intro h; simp [wfSecSchemes] at h
  | bool b => intro h; simp [wfSecSchemes] at h
  | num n => intro h; simp [wfSecSchemes] at h
  | str s => intro h; simp [wfSecSchemes] at h
  | arrNil => intro h; simp [wfSecSchemes] at h
  | arrCons x t ihh iht => intro h; simp [wfSecSchemes] at h

theorem wfContent_spine : ∀ {m : Json}, wfContent m = true → m.objSpine = true := by
  intro m
  induction m with
  | objCons k v t ihv iht =>
      intro h
      simp only [wfContent, Bool.and_eq_true] at h
      exact iht h.2
  | objNil => intro _; rfl
  | undef => intro h; simp [wfContent] at h
  | null => intro h; simp [wfContent] at h
  | bool b => intro h; simp [wfContent] at h
  | num n => intro h; simp [wfContent] at h
  | str s => intro h; simp [wfContent] at h
  | arrNil => intro h; simp [wfContent] at h
  | arrCons x t ihh iht => intro h; simp [wfContent] at h

theorem wfContent_fields : ∀ {m : Json}, wfContent m = true →
    ∀ p ∈ m.fieldsOf, p.2.isObjVal = true ∧ fixSafe p.2 = true := by
  intro m
  induction m with
  | objCons k v t ihv iht =>
      intro h p hp
      simp only [wfContent, Bool.and_eq_true] at h
      obtain ⟨⟨h1, h2⟩, h3⟩ := h
      rcases List.mem_cons.mp hp with he | hm
      · subst he; exact ⟨h1, h2⟩
      · exact iht h3 p hm
  | objNil => intro _ p hp; simp [Json.fieldsOf] at hp
  | undef => intro h; simp [wfContent] at h
  | null => intro h; simp [wfContent] at h
  | bool b => intro h; simp [wfContent] at h
  | num n => intro h; simp [wfContent] at h
  | str s => intro h; simp [wfContent] at h
  | arrNil => intro h; simp [wfContent] at h
  | arrCons x t ihh iht => intro h; simp [wfContent] at h

theorem wfContent_getF : ∀ {m : Json}, wfContent m = true → ∀ (k : String),
    m.getF k = Json.undef ∨ ((m.getF k).isObjVal = true ∧ fixSafe (m.getF k) = true) := by
  intro m
  induction m with
  | objCons k0 v t ihv iht =>
      intro h k
      simp only [wfContent, Bool.and_eq_true] at h
      obtain ⟨⟨h1, h2⟩, h3⟩ := h
      by_cases hk : k0 = k
      · right; simp only [Json.getF, if_pos hk]; exact ⟨h1, h2⟩
      · simp only [Json.getF, if_neg hk]; exact iht h3 k
  | objNil => intro _ k; left; rfl
  | undef => intro h; simp [wfContent] at h
  | null => intro h; simp [wfContent] at h
  | bool b => intro h; simp [wfContent] at h
  | num n => intro h; simp [wfContent] at h
  | str s => intro h; simp [wfContent] at h
  | arrNil => intro h; simp [wfContent] at h
  | arrCons x t ihh iht => intro h; simp [wfContent] at h

theorem wfResponses_spine : ∀ {m : Json}, wfResponses m = true → m.objSpine = true := by
  intro m
  induction m with
  | objCons k v t ihv iht =>
      intro h
      simp only [wfResponses, Bool.and_eq_true] at h
      exact iht h.2
  | objNil => intro _; rfl
  | undef => intro h; simp [wfResponses] at h
  | null => intro h; simp [wfResponses] at h
  | bool b => intro h; simp [wfResponses] at h
  | num n => intro h; simp [wfResponses] at h
  | str s => intro h; simp [wfResponses] at h
  | arrNil => intro h; simp [wfResponses] at h
  | arrCons x t ihh iht => intro h; simp [wfResponses] at h

theorem wfResponses_fields : ∀ {m : Json}, wfResponses m = true →
    ∀ p ∈ m.fieldsOf, safeName p.1 = true ∧ p.2.isObjVal = true ∧ fixSafe p.2 = true ∧
      (!(p.2.getF "content").truthy || wfContent (p.2.getF "content")) = true := by
  intro m
  induction m with
  | objCons k v t ihv iht =>
      intro h p hp
      simp only [wfResponses, Bool.and_eq_true] at h
      obtain ⟨⟨⟨⟨h1, h2⟩, h3⟩, h4⟩, h5⟩ := h
      rcases List.mem_cons.mp hp with he | hm
      · subst he; exact ⟨h1, h2, h3, h4⟩
      · exact iht h5 p hm
  | objNil => intro _ p hp; simp [Json.fieldsOf] at hp
  | undef => intro h; simp [wfResponses] at h
  | null => intro h; simp [wfResponses] at h
  | bool b => intro h; simp [wfResponses] at h
  | num n => intro h; simp [wfResponses] at h
  | str s => intro h; simp [wfResponses] at h
  | arrNil => intro h; simp [wfResponses] at h
  | arrCons x t ihh iht => intro h; simp [wfResponses] at h

theorem wfPathItem_spine : ∀ {m : Json}, wfPathItem m = true → m.objSpine = true := by
  intro m
  induction m with
  | objCons k v t ihv iht =>
      intro h
      simp only [wfPathItem, Bool.and_eq_true] at h
      exact iht h.2
  | objNil => intro _; rfl
  | undef => intro h; simp [wfPathItem] at h
  | null => intro h; simp [wfPathItem] at h
  | bool b => intro h; simp [wfPathItem] at h
  | num n => intro h; simp [wfPathItem] at h
  | str s => intro h; simp [wfPathItem] at h
  | arrNil => intro h; simp [wfPathItem] at h
  | arrCons x t ihh iht => intro h; simp [wfPathItem] at h

theorem wfPathItem_fields : ∀ {m : Json}, wfPathItem m = true →
    ∀ p ∈ m.fieldsOf, isHttpMethod p.1 = true ∧ wfOperation p.2 = true := by
  intro m
  induction m with
  | objCons k v t ihv iht =>
      intro h p hp
      simp only [wfPathItem, Bool.and_eq_true] at h
      obtain ⟨⟨⟨h1, h2⟩, h3⟩, h4⟩ := h
      rcases List.mem_cons.mp hp with he | hm
      · subst he; exact ⟨h1, h3⟩
      · exact iht h4 p hm
  | objNil => intro _ p hp; simp [Json.fieldsOf] at hp
  | undef => intro h; simp [wfPathItem] at h
  | null => intro h; simp [wfPathItem] at h
  | bool b => intro h; simp [wfPathItem] at h
  | num n => intro h; simp [wfPathItem] at h
  | str s => intro h; simp [wfPathItem] at h
  | arrNil => intro h; simp [wfPathItem] at h
  | arrCons x t ihh iht => intro h; simp [wfPathItem] at h

theorem wfPathItem_hasKeyB : ∀ {m : Json}, wfPathItem m = true →
    ∀ {k : String}, m.hasKeyB k = true → isHttpMethod k = true := by
  intro m
  induction m with
  | objCons k0 v t ihv iht =>
      intro h k hk
      simp only [wfPathItem, Bool.and_eq_true] at h
      obtain ⟨⟨⟨h1, h2⟩, h3⟩, h4⟩ := h
      simp only [Json.hasKeyB, Bool.or_eq_true, decide_eq_true_eq] at hk
      rcases hk with he | hm
      · subst he; exact h1
      · exact iht h4 hm
  | objNil => intro _ k hk; simp [Json.hasKeyB] at hk
  | undef => intro h; simp [wfPathItem] at h
  | null => intro h; simp [wfPathItem] at h
  | bool b => intro h; simp [wfPathItem] at h
  | num n => intro h; simp [wfPathItem] at h
  | str s => intro h; simp [wfPathItem] at h
  | arrNil => intro h; simp [wfPathItem] at h
  | arrCons x t ihh iht => intro h; simp [wfPathItem] at h

theorem wfPathItem_no_parameters {m : Json} (h : wfPathItem m = true) :
    m.getF "parameters" = Json.undef := by
  apply Json.getF_undef_of_not_hasKeyB
  by_contra hc
  have hk := wfPathItem_hasKeyB h (Bool.of_not_eq_false hc)
  simp [isHttpMethod] at hk

theorem wfPaths_spine : ∀ {m : Json}, wfPaths m = true → m.objSpine = true := by
  intro m
  induction m with
  | objCons k v t ihv iht =>
      intro h
      simp only [wfPaths, Bool.and_eq_true] at h
      exact iht h.2
  | objNil => intro _; rfl
  | undef => intro h; simp [wfPaths] at h
  | null => intro h; simp [wfPaths] at h
  | bool b => intro h; simp [wfPaths] at h
  | num n => intro h; simp [wfPaths] at h
  | str s => intro h; simp [wfPaths] at h
  | arrNil => intro h; simp [wfPaths] at h
  | arrCons x t ihh iht => intro h; simp [wfPaths] at h

theorem wfPaths_fields : ∀ {m : Json}, wfPaths m = true →
    ∀ p ∈ m.fieldsOf, safeName p.1 = true ∧ wfPathItem p.2 = true := by
  intro m
  induction m with
  | objCons k v t ihv iht =>
      intro h p hp
      simp only [wfPaths, Bool.and_eq_true] at h
      obtain ⟨⟨⟨h1, h2⟩, h3⟩, h4⟩ := h
      rcases List.mem_cons.mp hp with he | hm
      · subst he; exact ⟨h1, h3⟩
      · exact iht h4 p hm
  | objNil => intro _ p hp; simp [Json.fieldsOf] at hp
  | undef => intro h; simp [wfPaths] at h
  | null => intro h; simp [wfPaths] at h
  | bool b => intro h; simp [wfPaths] at h
  | num n => intro h; simp [wfPaths] at h
  | str s => intro h; simp [wfPaths] at h
  | arrNil => intro h; simp [wfPaths] at h
  | arrCons x t ihh iht => intro h; simp [wfPaths] at h

theorem wfOperation_parts {op : Json} (h : wfOperation op = true) :
    op.isObjVal = true ∧ op.hasKeyB "parameters" = false ∧ fixSafe op = true ∧
    (!(op.getF "requestBody").truthy ||
      (!((op.getF "requestBody").getF "content").truthy ||
        wfContent ((op.getF "requestBody").getF "content"))) = true ∧
    (!(op.getF "responses").truthy || wfResponses (op.getF "responses")) = true := by
  simp only [wfOperation, Bool.and_eq_true, Bool.not_eq_true'] at h
  obtain ⟨⟨⟨⟨h1, h2⟩, h3⟩, h4⟩, h5⟩ := h
  exact ⟨h1, h2, h3, h4, h5⟩

theorem schemaWarnings_total (p : String × Json) (h : p.2.isObjVal = true) :
    ∃ w, schemaWarnings p = Except.ok w := by
  simp [schemaWarnings, jsGet_ok_of_isObjVal h, Bind.bind, Except.bind, pure, Except.pure]

theorem respWarning_total (mU path : String) (p : String × Json) (h : p.2.isObjVal = true) :
    ∃ w, respWarning mU path p = Except.ok w := by
  simp [respWarning, jsGet_ok_of_isObjVal h, Bind.bind, Except.bind, pure, Except.pure]

theorem or_guard_true {b c : Bool} (h : (!b || c) = true) (hb : b = true) : c = true := by
  rcases Bool.or_eq_true _ _ |>.mp h with hx | hx
  · rw [Bool.not_eq_true'] at hx; rw [hx] at hb; exact absurd hb (by simp)
  · exact hx

theorem methodWarnings_total (path : String) (p : String × Json)
    (h : wfOperation p.2 = true) : ∃ w, methodWarnings path p = Except.ok w := by
  obtain ⟨h1, h2, h3, h4, h5⟩ := wfOperation_parts h
  have hpar : p.2.getF "parameters" = Json.undef := Json.getF_undef_of_not_hasKeyB h2
  simp only [methodWarnings]
  split
  · exact ⟨[], rfl⟩
  · by_cases hrt : (p.2.getF "responses").truthy = true
    · have hwr : wfResponses (p.2.getF "responses") = true := or_guard_true h5 hrt
      have hsp := wfResponses_spine hwr
      obtain ⟨wr, hwrok⟩ := foldAppendM_total (respWarning (sToUpper p.1) path)
        ((p.2.getF "responses").fieldsOf)
        (fun q hq => respWarning_total _ _ q (wfResponses_fields hwr q hq).2.1)
      simp [hpar, show Json.undef.truthy = false from rfl, hrt,
        jsEntries_spine hsp, hwrok, Bind.bind, Except.bind, pure, Except.pure]
    · simp [hpar, show Json.undef.truthy = false from rfl, hrt,
        Bind.bind, Except.bind, pure, Except.pure]

theorem pathWarnings_total (p : String × Json) (h : wfPathItem p.2 = true) :
    ∃ w, pathWarnings p = Except.ok w := by
  have hsp := wfPathItem_spine h
  have hobj := Json.objSpine_isObjVal hsp
  have hpar := wfPathItem_no_parameters h
  obtain ⟨wm, hwm⟩ := foldAppendM_total (methodWarnings p.1) (p.2.fieldsOf)
    (fun q hq => methodWarnings_total p.1 q (wfPathItem_fields h q hq).2)
  simp [pathWarnings, jsGet_ok_of_isObjVal hobj, hpar,
    show Json.undef.truthy = false from rfl, jsEntries_spine hsp, hwm,
    Bind.bind, Except.bind, pure, Except.pure]

theorem WFDoc_parts {spec : Json} (h : WFDoc spec = true) :
    spec.isObjVal = true ∧
    (match spec.getF "openapi" with
     | .str s => sStartsWith s "3."
     | _ => false) = true ∧
    fixSafe (spec.getF "info") = true ∧
    fixSafe (spec.getF "security") = true ∧
    (!(spec.getF "servers").truthy || wfServers (spec.getF "servers")) = true ∧
    (!(spec.getF "components").truthy ||
      ((!((spec.getF "components").getF "schemas").truthy ||
         wfSchemaMap ((spec.getF "components").getF "schemas")) &&
       (!((spec.getF "components").getF "securitySchemes").truthy ||
         wfSecSchemes ((spec.getF "components").getF "securitySchemes")))) = true ∧
    (!(spec.getF "paths").truthy || wfPaths (spec.getF "paths")) = true := by
  simp only [WFDoc, Bool.and_eq_true] at h
  obtain ⟨⟨⟨⟨⟨⟨h1, h2⟩, h3⟩, h4⟩, h5⟩, h6⟩, h7⟩ := h
  exact ⟨h1, h2, h3, h4, h5, h6, h7⟩

theorem detectUnsupportedFeatures_total {spec : Json} (h : WFDoc spec = true) :
    ∃ w, detectUnsupportedFeatures spec = Except.ok w := by
  obtain ⟨h1, h2, h3, h4, h5, h6, h7⟩ := WFDoc_parts h
  by_cases hsch : ((spec.getF "components").getF "schemas").truthy = true
  · have hct := Json.truthy_of_getF_truthy hsch
    have hmaps := or_guard_true h6 hct
    have hmap : wfSchemaMap ((spec.getF "components").getF "schemas") = true :=
      or_guard_true (Bool.and_eq_true _ _ |>.mp hmaps).1 hsch
    have hspn := wfSchemaMap_spine hmap
    obtain ⟨ws, hws⟩ := foldAppendM_total schemaWarnings
      (((spec.getF "components").getF "schemas").fieldsOf)
      (fun q hq => schemaWarnings_total q (wfSchemaMap_fields hmap q hq).2.1)
    by_cases hpt : (spec.getF "paths").truthy = true
    · have hwp := or_guard_true h7 hpt
      have hpsp := wfPaths_spine hwp
      obtain ⟨wp, hwps⟩ := foldAppendM_total pathWarnings ((spec.getF "paths").fieldsOf)
        (fun q hq => pathWarnings_total q (wfPaths_fields hwp q hq).2)
      simp [detectUnsupportedFeatures, jsGet_ok_of_isObjVal h1, hsch,
        jsEntries_spine hspn, hws, hpt, jsEntries_spine hpsp, hwps,
        Bind.bind, Except.bind, pure, Except.pure]
    · simp [detectUnsupportedFeatures, jsGet_ok_of_isObjVal h1, hsch,
        jsEntries_spine hspn, hws, hpt, Bind.bind, Except.bind, pure, Except.pure]
  · by_cases hpt : (spec.getF "paths").truthy = true
    · have hwp := or_guard_true h7 hpt
      have hpsp := wfPaths_spine hwp
      obtain ⟨wp, hwps⟩ := foldAppendM_total pathWarnings ((spec.getF "paths").fieldsOf)
        (fun q hq => pathWarnings_total q (wfPaths_fields hwp q hq).2)
      simp [detectUnsupportedFeatures, jsGet_ok_of_isObjVal h1, hsch,
        hpt, jsEntries_spine hpsp, hwps, Bind.bind, Except.bind, pure, Except.pure]
    · simp [detectUnsupportedFeatures, jsGet_ok_of_isObjVal h1, hsch, hpt,
        Bind.bind, Except.bind, pure, Except.pure]

theorem jsGet_ok_of_not_nullish {j : Json} (h1 : (j == Json.null) = false)
    (h2 : (j == Json.undef) = false) (k : String) :
    jsGet j k = Except.ok (j.getF k) := by
  cases j <;> simp_all [jsGet, pure, Except.pure]

theorem fixSafe_setKey_named {j : Json} (hj : fixSafe j = true) (k : String) {v : Json}
    (hv : fixSafe v = true) (hk1 : ¬ k = "description") (hk2 : ¬ k = "anyOf")
    (hk3 : ¬ k = "oneOf") (hk4 : ¬ k = "allOf") :
    fixSafe (j.setKey k v) = true :=
  fixSafe_setKey hj hv (by simp [hk1]) (by simp [hk2, hk3]) (by simp [hk4])

theorem fixSafe_setKey_descF {j v : Json} (hj : fixSafe j = true) (hv : fixSafe v = true)
    (hd : strOrFalsy v = true) : fixSafe (j.setKey "description" v) = true :=
  fixSafe_setKey hj hv (by simpa [strOrFalsy] using hd) (by simp) (by simp)

theorem fixSafe_ite {c : Prop} [inst : Decidable c] {a b : Json} (ha : fixSafe a = true)
    (hb : fixSafe b = true) : fixSafe (if c then a else b) = true := by
  split
  · exact ha
  · exact hb

theorem strOrFalsy_str (s : String) : strOrFalsy (Json.str s) = true := by
  simp [strOrFalsy, Json.isStr]

theorem wfScheme_parts {s : Json} (h : wfScheme s = true) :
    s.isObjVal = true ∧ fixSafe s = true ∧
    (!(s.getF "type" == Json.str "oauth2") ||
      (!(s.getF "flows" == Json.null) && !(s.getF "flows" == Json.undef))) = true := by
  simp only [wfScheme, Bool.and_eq_true] at h
  obtain ⟨⟨h1, h2⟩, h3⟩ := h
  exact ⟨h1, h2, h3⟩

theorem convertSecurityScheme_char {scheme : Json} (h : wfScheme scheme = true) :
    ∃ r, convertSecurityScheme scheme = Except.ok r ∧ fixSafe r = true := by
  obtain ⟨hobj, hfs, hfl⟩ := wfScheme_parts h
  have hget := fixSafe_getF hfs
  have hdo : strOrFalsy (scheme.getF "description") = true := descOk_of_fixSafe hfs
  have hbase : fixSafe (jobj [("type", scheme.getF "type")]) = true :=
    fixSafe_cons (by simp) (by simp) (by simp) (hget "type") rfl
  have hfinish : ∀ {X : Json}, fixSafe X = true →
      fixSafe (if (scheme.getF "description").truthy = true then
        X.setKey "description" (scheme.getF "description") else X) = true :=
    fun hX => fixSafe_ite (fixSafe_setKey_descF hX (hget "description") hdo) hX
  simp only [convertSecurityScheme, jsGet_ok_of_isObjVal hobj, Bind.bind, Except.bind,
    pure, Except.pure]
  by_cases b1 : (scheme.getF "type" == Json.str "http") = true
  · simp only [if_pos b1]
    by_cases b2 : (scheme.getF "scheme" == Json.str "basic") = true
    · simp only [if_pos b2, Except.bind]
      refine ⟨_, rfl, ?_⟩
      exact hfinish (fixSafe_setKey_named hbase "type" rfl
        (by decide) (by decide) (by decide) (by decide))
    · simp only [if_neg b2]
      by_cases b3 : (scheme.getF "scheme" == Json.str "bearer") = true
      · simp only [if_pos b3, Except.bind]
        refine ⟨_, rfl, ?_⟩
        refine hfinish ?_
        refine fixSafe_setKey_descF ?_ rfl (strOrFalsy_str _)
        refine fixSafe_setKey_named ?_ "in" rfl (by decide) (by decide) (by decide) (by decide)
        refine fixSafe_setKey_named ?_ "name" rfl (by decide) (by decide) (by decide) (by decide)
        exact fixSafe_setKey_named hbase "type" rfl (by decide) (by decide) (by decide) (by decide)
      · simp only [if_neg b3, Except.bind]
        refine ⟨_, rfl, ?_⟩
        exact hfinish hbase
  · simp only [if_neg b1]
    by_cases b4 : (scheme.getF "type" == Json.str "apiKey") = true
    · simp only [if_pos b4, Except.bind]
      refine ⟨_, rfl, ?_⟩
      refine hfinish ?_
      refine fixSafe_setKey_named ?_ "in" (hget "in") (by decide) (by decide) (by decide) (by decide)
      exact fixSafe_setKey_named hbase "name" (hget "name")
        (by decide) (by decide) (by decide) (by decide)
    · simp only [if_neg b4]
      by_cases b5 : (scheme.getF "type" == Json.str "oauth2") = true
      · have hnn := or_guard_true hfl b5
        obtain ⟨hn1, hn2⟩ := Bool.and_eq_true _ _ |>.mp hnn
        rw [Bool.not_eq_true'] at hn1 hn2
        have hres2 : fixSafe ((jobj [("type", scheme.getF "type")]).setKey "type"
            (Json.str "oauth2")) = true :=
          fixSafe_setKey_named hbase "type" rfl (by decide) (by decide) (by decide) (by decide)
        have himpl : fixSafe ((scheme.getF "flows").getF "implicit") = true :=
          fixSafe_getF (hget "flows") "implicit"
        simp only [if_pos b5, jsGet_ok_of_not_nullish hn1 hn2, Except.bind]
        by_cases c1 : ((scheme.getF "flows").getF "implicit").truthy = true
        · simp only [if_pos c1, Except.bind]
          refine ⟨_, rfl, ?_⟩
          refine hfinish ?_
          refine fixSafe_setKey_named ?_ "scopes"
            (fixSafe_ite (fixSafe_getF himpl "scopes") rfl)
            (by decide) (by decide) (by decide) (by decide)
          refine fixSafe_setKey_named ?_ "authorizationUrl" (fixSafe_getF himpl "authorizationUrl")
            (by decide) (by decide) (by decide) (by decide)
          exact fixSafe_setKey_named hres2 "flow" rfl (by decide) (by decide) (by decide) (by decide)
        · have hpw : fixSafe ((scheme.getF "flows").getF "password") = true :=
            fixSafe_getF (hget "flows") "password"
          simp only [if_neg c1]
          by_cases c2 : ((scheme.getF "flows").getF "password").truthy = true
          · simp only [if_pos c2, Except.bind]
            refine ⟨_, rfl, ?_⟩
            refine hfinish ?_
            refine fixSafe_setKey_named ?_ "scopes"
              (fixSafe_ite (fixSafe_getF hpw "scopes") rfl)
              (by decide) (by decide) (by decide) (by decide)
            refine fixSafe_setKey_named ?_ "tokenUrl" (fixSafe_getF hpw "tokenUrl")
              (by decide) (by decide) (by decide) (by decide)
            exact fixSafe_setKey_named hres2 "flow" rfl
              (by decide) (by decide) (by decide) (by decide)
          · have hcc : fixSafe ((scheme.getF "flows").getF "clientCredentials") = true :=
              fixSafe_getF (hget "flows") "clientCredentials"
            simp only [if_neg c2]
            by_cases c3 : ((scheme.getF "flows").getF "clientCredentials").truthy = true
            · simp only [if_pos c3, Except.bind]
              refine ⟨_, rfl, ?_⟩
              refine hfinish ?_
              refine fixSafe_setKey_named ?_ "scopes"
                (fixSafe_ite (fixSafe_getF hcc "scopes") rfl)
                (by decide) (by decide) (by decide) (by decide)
              refine fixSafe_setKey_named ?_ "tokenUrl" (fixSafe_getF hcc "tokenUrl")
                (by decide) (by decide) (by decide) (by decide)
              exact fixSafe_setKey_named hres2 "flow" rfl
                (by decide) (by decide) (by decide) (by decide)
            · have hac : fixSafe ((scheme.getF "flows").getF "authorizationCode") = true :=
                fixSafe_getF (hget "flows") "authorizationCode"
              simp only [if_neg c3]
              by_cases c4 : ((scheme.getF "flows").getF "authorizationCode").truthy = true
              · simp only [if_pos c4, Except.bind]
                refine ⟨_, rfl, ?_⟩
                refine hfinish ?_
                refine fixSafe_setKey_named ?_ "scopes"
                  (fixSafe_ite (fixSafe_getF hac "scopes") rfl)
                  (by decide) (by decide) (by decide) (by decide)
                refine fixSafe_setKey_named ?_ "tokenUrl" (fixSafe_getF hac "tokenUrl")
                  (by decide) (by decide) (by decide) (by decide)
                refine fixSafe_setKey_named ?_ "authorizationUrl"
                  (fixSafe_getF hac "authorizationUrl")
                  (by decide) (by decide) (by decide) (by decide)
                exact fixSafe_setKey_named hres2 "flow" rfl
                  (by decide) (by decide) (by decide) (by decide)
              · simp only [if_neg c4, Except.bind]
                refine ⟨_, rfl, ?_⟩
                exact hfinish hres2
      · simp only [if_neg b5]
        by_cases b6 : (scheme.getF "type" == Json.str "openIdConnect") = true
        · simp only [if_pos b6, Except.bind]
          refine ⟨_, rfl, ?_⟩
          refine hfinish ?_
          refine fixSafe_setKey_descF ?_ rfl (strOrFalsy_str _)
          refine fixSafe_setKey_named ?_ "scopes" rfl
            (by decide) (by decide) (by decide) (by decide)
          refine fixSafe_setKey_named ?_ "flow" rfl
            (by decide) (by decide) (by decide) (by decide)
          exact fixSafe_setKey_named hbase "type" rfl
            (by decide) (by decide) (by decide) (by decide)
        · simp only [if_neg b6, Except.bind]
          refine ⟨_, rfl, ?_⟩
          exact hfinish hbase

theorem safeName_parts {k : String} (h : safeName k = true) :
    ¬ k = "description" ∧ ¬ k = "anyOf" ∧ ¬ k = "oneOf" ∧ ¬ k = "allOf" ∧
    ¬ k = "not" ∧ ¬ k = "$ref" ∧ ¬ k = "enum" ∧ ¬ k = "type" ∧ ¬ k = "parameters" := by
  simp only [safeName, Bool.not_eq_true', Bool.or_eq_false_iff,
    decide_eq_false_iff_not] at h
  obtain ⟨⟨⟨⟨⟨⟨⟨⟨h1, h2⟩, h3⟩, h4⟩, h5⟩, h6⟩, h7⟩, h8⟩, h9⟩ := h
  exact ⟨h1, h2, h3, h4, h5, h6, h7, h8, h9⟩

theorem objSpread_objVal {j : Json} (h : j.isObjVal = true) : objSpread j = j := by
  cases j <;> simp_all [Json.isObjVal] <;> rfl

theorem simplifyInvalidEnumSchema_fixSafe {sc : Json} (ho : sc.isObjVal = true)
    (hs : fixSafe sc = true) : fixSafe (simplifyInvalidEnumSchema sc) = true := by
  simp only [simplifyInvalidEnumSchema, objSpread_objVal ho]
  exact fixSafe_setKey_descF (fixSafe_removeKey hs "enum") rfl (strOrFalsy_str _)

theorem buildDefinitions_fixSafe : ∀ (l : List (String × Json)) (defs : Json),
    (∀ p ∈ l, safeName p.1 = true ∧ p.2.isObjVal = true ∧ fixSafe p.2 = true) →
    fixSafe defs = true → fixSafe (buildDefinitions l defs) = true := by
  intro l
  induction l with
  | nil => intro defs _ hd; exact hd
  | cons p rest ih =>
      intro defs hl hd
      obtain ⟨k, sc⟩ := p
      obtain ⟨hn, hov, hsf⟩ := hl (k, sc) (List.mem_cons_self _ _)
      obtain ⟨n1, n2, n3, n4, _⟩ := safeName_parts hn
      rw [buildDefinitions]
      refine ih _ (fun q hq => hl q (List.mem_cons_of_mem _ hq)) ?_
      exact fixSafe_setKey_named hd k
        (fixSafe_ite (simplifyInvalidEnumSchema_fixSafe hov hsf) hsf) n1 n2 n3 n4

theorem buildSecurityDefinitions_char : ∀ (l : List (String × Json)) (acc : Json),
    (∀ p ∈ l, safeName p.1 = true ∧ wfScheme p.2 = true) → fixSafe acc = true →
    ∃ r, buildSecurityDefinitions l acc = Except.ok r ∧ fixSafe r = true := by
  intro l
  induction l with
  | nil => intro acc _ ha; exact ⟨acc, rfl, ha⟩
  | cons p rest ih =>
      intro acc hl ha
      obtain ⟨k, sc⟩ := p
      obtain ⟨hn, hws⟩ := hl (k, sc) (List.mem_cons_self _ _)
      obtain ⟨n1, n2, n3, n4, _⟩ := safeName_parts hn
      obtain ⟨cs, hcs, hcsf⟩ := convertSecurityScheme_char hws
      obtain ⟨r, hr, hrf⟩ := ih (acc.setKey k cs)
        (fun q hq => hl q (List.mem_cons_of_mem _ hq))
        (fixSafe_setKey_named ha k hcsf n1 n2 n3 n4)
      refine ⟨r, ?_, hrf⟩
      rw [buildSecurityDefinitions]
      exact exceptBind_ok.mpr ⟨cs, hcs, hr⟩

theorem Json.isObjVal_setKey {j : Json} (h : j.isObjVal = true) (k : String) (v : Json) :
    (j.setKey k v).isObjVal = true := by
  cases j with
  | objCons k0 v0 t => rw [Json.setKey]; split <;> rfl
  | objNil => rfl
  | undef => simp [Json.isObjVal] at h
  | null => simp [Json.isObjVal] at h
  | bool b => simp [Json.isObjVal] at h
  | num n => simp [Json.isObjVal] at h
  | str s => simp [Json.isObjVal] at h
  | arrNil => simp [Json.isObjVal] at h
  | arrCons x t => simp [Json.isObjVal] at h

theorem respFoldE_char : ∀ (l : List (String × Json)) (acc : Json),
    (∀ p ∈ l, safeName p.1 = true ∧ p.2.isObjVal = true ∧ fixSafe p.2 = true ∧
      (!(p.2.getF "content").truthy || wfContent (p.2.getF "content")) = true) →
    fixSafe acc = true →
    ∃ r, respFoldE l acc = Except.ok r ∧ fixSafe r = true := by
  intro l
  induction l with
  | nil => intro acc _ ha; exact ⟨acc, rfl, ha⟩
  | cons p rest ih =>
      intro acc hl ha
      obtain ⟨code, response⟩ := p
      obtain ⟨hn, hov, hrfs, hcc⟩ := hl (code, response) (List.mem_cons_self _ _)
      obtain ⟨n1, n2, n3, n4, _⟩ := safeName_parts hn
      have hrest := fun q hq => hl q (List.mem_cons_of_mem _ hq)
      have hdsf : strOrFalsy (response.getF "description") = true := descOk_of_fixSafe hrfs
      have hv : strOrFalsy (if (response.getF "description").truthy = true then
          response.getF "description" else Json.str "") = true := by
        split
        · exact hdsf
        · exact strOrFalsy_str _
      have hr0fs : fixSafe (jobj [("description",
          if (response.getF "description").truthy = true then response.getF "description"
          else Json.str "")]) = true :=
        fixSafe_cons (by simpa [strOrFalsy] using hv) (by simp) (by simp)
          (fixSafe_ite (fixSafe_getF hrfs "description") rfl) rfl
      simp only [respFoldE, jsGet_ok_of_isObjVal hov, Bind.bind, Except.bind,
        pure, Except.pure]
      by_cases hct : (response.getF "content").truthy = true
      · have hwc := or_guard_true hcc hct
        simp only [if_pos hct]
        by_cases hjson : ((response.getF "content").getF "application/json").truthy = true
        · have hent : ((response.getF "content").getF "application/json").isObjVal = true ∧
              fixSafe ((response.getF "content").getF "application/json") = true := by
            rcases wfContent_getF hwc "application/json" with he | hh
            · rw [he] at hjson; exact absurd hjson (by simp [Json.truthy])
            · exact hh
          have hschf : fixSafe (((response.getF "content").getF "application/json").getF
              "schema") = true := fixSafe_getF hent.2 "schema"
          simp only [if_pos hjson,
            if_pos (show (Json.str "application/json").truthy = true by decide),
            jsGet_ok_of_truthy hjson, Except.bind]
          obtain ⟨r, hr, hrf⟩ := ih _ hrest
            (fixSafe_setKey_named ha code
              (@fixSafe_ite ((((response.getF "content").getF "application/json").getF
                  "schema").truthy = true) _ _ _
                (fixSafe_setKey_named hr0fs "schema" hschf
                  (by decide) (by decide) (by decide) (by decide)) hr0fs)
              n1 n2 n3 n4)
          exact ⟨r, hr, hrf⟩
        · simp only [if_neg hjson]
          cases hcon : response.getF "content" with
          | objNil =>
              simp only [jsEntries, List.head?, Option.map, Except.bind]
              obtain ⟨r, hr, hrf⟩ := ih _ hrest
                (fixSafe_setKey_named ha code hr0fs n1 n2 n3 n4)
              exact ⟨r, hr, hrf⟩
          | objCons k0 v0 t0 =>
              rw [hcon] at hwc
              simp only [wfContent, Bool.and_eq_true] at hwc
              obtain ⟨⟨hv0o, hv0f⟩, _⟩ := hwc
              simp only [jsEntries, Json.fieldsOf, List.head?, Option.map, Except.bind]
              by_cases hk0 : (Json.str k0).truthy = true
              · have hgk0 : (Json.objCons k0 v0 t0).getF k0 = v0 := by
                  simp [Json.getF]
                simp only [if_pos hk0, hgk0, jsGet_ok_of_isObjVal hv0o, Except.bind]
                obtain ⟨r, hr, hrf⟩ := ih _ hrest
                  (fixSafe_setKey_named ha code
                    (@fixSafe_ite ((v0.getF "schema").truthy = true) _ _ _
                      (fixSafe_setKey_named hr0fs "schema"
                        (fixSafe_getF hv0f "schema")
                        (by decide) (by decide) (by decide) (by decide)) hr0fs)
                    n1 n2 n3 n4)
                exact ⟨r, hr, hrf⟩
              · simp only [if_neg hk0, Except.bind]
                obtain ⟨r, hr, hrf⟩ := ih _ hrest
                  (fixSafe_setKey_named ha code hr0fs n1 n2 n3 n4)
                exact ⟨r, hr, hrf⟩
          | undef => rw [hcon] at hwc; simp [wfContent] at hwc
          | null => rw [hcon] at hwc; simp [wfContent] at hwc
          | bool b => rw [hcon] at hwc; simp [wfContent] at hwc
          | num n => rw [hcon] at hwc; simp [wfContent] at hwc
          | str s => rw [hcon] at hwc; simp [wfContent] at hwc
          | arrNil => rw [hcon] at hwc; simp [wfContent] at hwc
          | arrCons x t => rw [hcon] at hwc; simp [wfContent] at hwc
      · simp only [if_neg hct, Except.bind]
        obtain ⟨r, hr, hrf⟩ := ih _ hrest
          (fixSafe_setKey_named ha code hr0fs n1 n2 n3 n4)
        exact ⟨r, hr, hrf⟩

theorem bpSchema {b0 sch : Json} (hfs : fixSafe b0 = true) (hpl : plainObj b0 = true)
    (hov : b0.isObjVal = true) (hen : b0.hasKeyB "enum" = false)
    (hin : b0.getF "in" = Json.str "body") (hs : fixSafe sch = true) :
    fixSafe (b0.setKey "schema" sch) = true ∧ plainObj (b0.setKey "schema" sch) = true ∧
    (b0.setKey "schema" sch).isObjVal = true ∧
    (b0.setKey "schema" sch).hasKeyB "enum" = false ∧
    (b0.setKey "schema" sch).getF "in" = Json.str "body" := by
  refine ⟨fixSafe_setKey_named hfs "schema" hs (by decide) (by decide) (by decide) (by decide),
    plainObj_setKey hpl (by decide) _, Json.isObjVal_setKey hov _ _, ?_, ?_⟩
  · rw [Json.hasKeyB_setKey_ne (by decide)]; exact hen
  · rw [Json.getF_setKey_ne (by decide)]; exact hin

theorem opWithBody {X bp : Json} (hXfs : fixSafe X = true) (hXpl : plainObj X = true)
    (hXsp : X.objSpine = true) (hXen : X.hasKeyB "enum" = false)
    (hbfs : fixSafe bp = true) (hbpl : plainObj bp = true) (hbov : bp.isObjVal = true)
    (hben : bp.hasKeyB "enum" = false) (hbin : bp.getF "in" = Json.str "body") :
    fixSafe (X.setKey "parameters" ((jarr []).arrPush bp)) = true ∧
    plainObj (X.setKey "parameters" ((jarr []).arrPush bp)) = true ∧
    (X.setKey "parameters" ((jarr []).arrPush bp)).objSpine = true ∧
    (X.setKey "parameters" ((jarr []).arrPush bp)).hasKeyB "enum" = false ∧
    ((X.setKey "parameters" ((jarr []).arrPush bp)).getF "parameters" = Json.undef ∨
      ∃ bq, (X.setKey "parameters" ((jarr []).arrPush bp)).getF "parameters" =
          Json.arrCons bq Json.arrNil ∧ fixSafe bq = true ∧ plainObj bq = true ∧
        bq.isObjVal = true ∧ bq.hasKeyB "enum" = false ∧
        bq.getF "in" = Json.str "body") := by
  have harr : fixSafe ((jarr []).arrPush bp) = true := by
    show fixSafe (Json.arrCons bp Json.arrNil) = true
    simp [fixSafe, hbfs]
  refine ⟨fixSafe_setKey_named hXfs "parameters" harr
      (by decide) (by decide) (by decide) (by decide),
    plainObj_setKey hXpl (by decide) _, Json.objSpine_setKey hXsp _ _, ?_, ?_⟩
  · rw [Json.hasKeyB_setKey_ne (by decide)]; exact hXen
  · refine Or.inr ⟨bp, ?_, hbfs, hbpl, hbov, hben, hbin⟩
    rw [Json.getF_setKey_self hXsp]
    rfl

theorem convertOperation_char {op : Json} (h : wfOperation op = true) :
    ∃ r, convertOperation op = Except.ok r ∧ fixSafe r = true ∧ plainObj r = true ∧
      r.objSpine = true ∧ r.hasKeyB "enum" = false ∧
      (r.getF "parameters" = Json.undef ∨
        ∃ bp, r.getF "parameters" = Json.arrCons bp Json.arrNil ∧ fixSafe bp = true ∧
          plainObj bp = true ∧ bp.isObjVal = true ∧ bp.hasKeyB "enum" = false ∧
          bp.getF "in" = Json.str "body") := by
  obtain ⟨hobj, hnp, hfs, hrbc, hresp⟩ := wfOperation_parts h
  have hget := fixSafe_getF hfs
  have hdo : strOrFalsy (op.getF "description") = true := descOk_of_fixSafe hfs
  have hopar : op.getF "parameters" = Json.undef := Json.getF_undef_of_not_hasKeyB hnp
  simp only [convertOperation, jsGet_ok_of_isObjVal hobj, Bind.bind, Except.bind,
    pure, Except.pure, hopar]
  rw [if_neg (show ¬ (Json.undef.truthy = true) by simp [Json.truthy])]
  try simp only [Except.bind]
  set r0 : Json := jobj [("summary", op.getF "summary"),
    ("description", op.getF "description"),
    ("operationId", op.getF "operationId"), ("tags", op.getF "tags"),
    ("responses", Json.objNil)] with hr0
  have hr0fs : fixSafe r0 = true := by
    rw [hr0]
    simp only [jobj, List.foldr_cons, List.foldr_nil]
    refine fixSafe_cons (by simp) (by simp) (by simp) (hget "summary") ?_
    refine fixSafe_cons (by simpa [strOrFalsy] using hdo) (by simp) (by simp)
      (hget "description") ?_
    refine fixSafe_cons (by simp) (by simp) (by simp) (hget "operationId") ?_
    refine fixSafe_cons (by simp) (by simp) (by simp) (hget "tags") ?_
    exact fixSafe_cons (by simp) (by simp) (by simp) rfl rfl
  have hr0pl : plainObj r0 = true := by
    rw [hr0]; simp [jobj, plainObj, plainKey, Json.hasKeyB]
  have hr0sp : r0.objSpine = true := by rw [hr0]; rfl
  have hr0enum : r0.hasKeyB "enum" = false := by rw [hr0]; rfl
  have hr0par : r0.getF "parameters" = Json.undef := by rw [hr0]; rfl
  set r1 : Json := if (op.getF "security").truthy = true then
    r0.setKey "security" (op.getF "security") else r0 with hr1
  have hr1fs : fixSafe r1 = true := by
    rw [hr1]; split
    · exact fixSafe_setKey_named hr0fs "security" (hget "security")
        (by decide) (by decide) (by decide) (by decide)
    · exact hr0fs
  have hr1pl : plainObj r1 = true := by
    rw [hr1]; split
    · exact plainObj_setKey hr0pl (by decide) _
    · exact hr0pl
  have hr1sp : r1.objSpine = true := by
    rw [hr1]; split
    · exact Json.objSpine_setKey hr0sp _ _
    · exact hr0sp
  have hr1enum : r1.hasKeyB "enum" = false := by
    rw [hr1]; split
    · rw [Json.hasKeyB_setKey_ne (by decide)]; exact hr0enum
    · exact hr0enum
  have hr1par : r1.getF "parameters" = Json.undef := by
    rw [hr1]; split
    · rw [Json.getF_setKey_ne (by decide)]; exact hr0par
    · exact hr0par
  have hfinC : ∀ {X : Json}, fixSafe X = true → plainObj X = true → X.objSpine = true →
      X.hasKeyB "enum" = false →
      (X.getF "parameters" = Json.undef ∨
        ∃ bp, X.getF "parameters" = Json.arrCons bp Json.arrNil ∧ fixSafe bp = true ∧
          plainObj bp = true ∧ bp.isObjVal = true ∧ bp.hasKeyB "enum" = false ∧
          bp.getF "in" = Json.str "body") →
      ∃ r, (if (op.getF "responses").truthy = true then
              Except.bind (respFoldE (jsEntries (op.getF "responses")) Json.objNil)
                (fun resps => Except.ok (X.setKey "responses" resps))
            else Except.ok X) = Except.ok r ∧
        fixSafe r = true ∧ plainObj r = true ∧ r.objSpine = true ∧
        r.hasKeyB "enum" = false ∧
        (r.getF "parameters" = Json.undef ∨
          ∃ bp, r.getF "parameters" = Json.arrCons bp Json.arrNil ∧ fixSafe bp = true ∧
            plainObj bp = true ∧ bp.isObjVal = true ∧ bp.hasKeyB "enum" = false ∧
            bp.getF "in" = Json.str "body") := by
    intro X hXfs hXpl hXsp hXen hXpar
    by_cases hre : (op.getF "responses").truthy = true
    · have hwre := or_guard_true hresp hre
      rw [if_pos hre, jsEntries_spine (wfResponses_spine hwre)]
      obtain ⟨R, hR, hRfs⟩ := respFoldE_char _ Json.objNil (wfResponses_fields hwre) rfl
      rw [hR]
      refine ⟨_, rfl, fixSafe_setKey_named hXfs "responses" hRfs
          (by decide) (by decide) (by decide) (by decide),
        plainObj_setKey hXpl (by decide) _, Json.objSpine_setKey hXsp _ _, ?_, ?_⟩
      · rw [Json.hasKeyB_setKey_ne (by decide)]; exact hXen
      · rcases hXpar with hp | ⟨bp, hbp, f1, f2, f3, f4, f5⟩
        · exact Or.inl (by rw [Json.getF_setKey_ne (by decide)]; exact hp)
        · exact Or.inr ⟨bp, by rw [Json.getF_setKey_ne (by decide)]; exact hbp,
            f1, f2, f3, f4, f5⟩
    · rw [if_neg hre]
      exact ⟨X, rfl, hXfs, hXpl, hXsp, hXen, hXpar⟩
  by_cases hrb : (op.getF "requestBody").truthy = true
  · rw [if_pos hrb]
    have hparIte : (if (r1.getF "parameters").truthy = true then r1.getF "parameters"
        else jarr []) = jarr [] := by
      rw [hr1par]; simp [Json.truthy]
    simp only [hparIte]
    set b0 : Json := jobj [("name", Json.str "body"), ("in", Json.str "body"),
      ("required", (op.getF "requestBody").getF "required"),
      ("description", (op.getF "requestBody").getF "description")] with hb0
    have hrbfs : fixSafe (op.getF "requestBody") = true := hget "requestBody"
    have hrbdo : strOrFalsy ((op.getF "requestBody").getF "description") = true :=
      descOk_of_fixSafe hrbfs
    have hb0fs : fixSafe b0 = true := by
      rw [hb0]
      simp only [jobj, List.foldr_cons, List.foldr_nil]
      refine fixSafe_cons (by simp) (by simp) (by simp) rfl ?_
      refine fixSafe_cons (by simp) (by simp) (by simp) rfl ?_
      refine fixSafe_cons (by simp) (by simp) (by simp) (fixSafe_getF hrbfs "required") ?_
      exact fixSafe_cons (by simpa [strOrFalsy] using hrbdo) (by simp) (by simp)
        (fixSafe_getF hrbfs "description") rfl
    have hb0pl : plainObj b0 = true := by
      rw [hb0]; simp [jobj, plainObj, plainKey, Json.hasKeyB]
    have hb0ov : b0.isObjVal = true := by rw [hb0]; rfl
    have hb0en : b0.hasKeyB "enum" = false := by rw [hb0]; rfl
    have hb0in : b0.getF "in" = Json.str "body" := by rw [hb0]; rfl
    by_cases hct : ((op.getF "requestBody").getF "content").truthy = true
    · rw [if_pos hct]
      have hwc := or_guard_true (or_guard_true hrbc hrb) hct
      by_cases hjson : (((op.getF "requestBody").getF "content").getF
          "application/json").truthy = true
      · have hent : (((op.getF "requestBody").getF "content").getF
            "application/json").isObjVal = true ∧
            fixSafe (((op.getF "requestBody").getF "content").getF
              "application/json") = true := by
          rcases wfContent_getF hwc "application/json" with he | hh
          · rw [he] at hjson; exact absurd hjson (by simp [Json.truthy])
          · exact hh
        simp only [if_pos hjson,
          if_pos (show (Json.str "application/json").truthy = true by decide),
          jsGet_ok_of_truthy hjson, Except.bind]
        obtain ⟨w1, w2, w3, w4, w5⟩ := bpSchema hb0fs hb0pl hb0ov hb0en hb0in
          (fixSafe_getF hent.2 "schema")
        obtain ⟨x1, x2, x3, x4, x5⟩ := opWithBody hr1fs hr1pl hr1sp hr1enum w1 w2 w3 w4 w5
        exact hfinC x1 x2 x3 x4 x5
      · simp only [if_neg hjson]
        cases hcon : (op.getF "requestBody").getF "content" with
        | objNil =>
            simp only [jsEntries, List.head?, Option.map, Except.bind]
            obtain ⟨x1, x2, x3, x4, x5⟩ := opWithBody hr1fs hr1pl hr1sp hr1enum
              hb0fs hb0pl hb0ov hb0en hb0in
            exact hfinC x1 x2 x3 x4 x5
        | objCons k0 v0 t0 =>
            rw [hcon] at hwc
            simp only [wfContent, Bool.and_eq_true] at hwc
            obtain ⟨⟨hv0o, hv0f⟩, _⟩ := hwc
            simp only [jsEntries, Json.fieldsOf, List.head?, Option.map]
            by_cases hk0 : (Json.str k0).truthy = true
            · have hgk0 : (Json.objCons k0 v0 t0).getF k0 = v0 := by simp [Json.getF]
              simp only [if_pos hk0, hgk0, jsGet_ok_of_isObjVal hv0o, Except.bind]
              obtain ⟨w1, w2, w3, w4, w5⟩ := bpSchema hb0fs hb0pl hb0ov hb0en hb0in
                (fixSafe_getF hv0f "schema")
              obtain ⟨x1, x2, x3, x4, x5⟩ := opWithBody hr1fs hr1pl hr1sp hr1enum
                w1 w2 w3 w4 w5
              exact hfinC x1 x2 x3 x4 x5
            · simp only [if_neg hk0, Except.bind]
              obtain ⟨x1, x2, x3, x4, x5⟩ := opWithBody hr1fs hr1pl hr1sp hr1enum
                hb0fs hb0pl hb0ov hb0en hb0in
              exact hfinC x1 x2 x3 x4 x5
        | undef => rw [hcon] at hwc; simp [wfContent] at hwc
        | null => rw [hcon] at hwc; simp [wfContent] at hwc
        | bool b => rw [hcon] at hwc; simp [wfContent] at hwc
        | num n => rw [hcon] at hwc; simp [wfContent] at hwc
        | str s => rw [hcon] at hwc; simp [wfContent] at hwc
        | arrNil => rw [hcon] at hwc; simp [wfContent] at hwc
        | arrCons x t => rw [hcon] at hwc; simp [wfContent] at hwc
    · rw [if_neg hct]
      try simp only [Except.bind]
      obtain ⟨x1, x2, x3, x4, x5⟩ := opWithBody hr1fs hr1pl hr1sp hr1enum
        hb0fs hb0pl hb0ov hb0en hb0in
      exact hfinC x1 x2 x3 x4 x5
  · rw [if_neg hrb]
    try simp only [Except.bind]
    exact hfinC hr1fs hr1pl hr1sp hr1enum (Or.inl hr1par)

theorem plainObj_objSpine : ∀ {j : Json}, plainObj j = true → j.objSpine = true := by
  intro j
  induction j with
  | objCons k v t ihv iht =>
      intro h
      simp only [plainObj, Bool.and_eq_true] at h
      exact iht h.2
  | objNil => intro _; rfl
  | undef => intro h; simp [plainObj] at h
  | null => intro h; simp [plainObj] at h
  | bool b => intro h; simp [plainObj] at h
  | num n => intro h; simp [plainObj] at h
  | str s => intro h; simp [plainObj] at h
  | arrNil => intro h; simp [plainObj] at h
  | arrCons x t ihh iht => intro h; simp [plainObj] at h

theorem fixF_arrNil (n : Nat) : fixF (n + 1) Json.arrNil = Except.ok Json.arrNil := by
  rw [fixF]
  rw [if_neg (show ¬¬(Json.arrNil.truthy = true) by simp [Json.truthy])]
  rfl

theorem fixF_ok_pos {n : Nat} {j r : Json} (h : fixF n j = Except.ok r) :
    ∃ m, n = m + 1 := by
  cases n with
  | zero => simp [fixF] at h
  | succ m => exact ⟨m, rfl⟩

theorem Json.fieldsOf_setKey_sub : ∀ {j : Json} {k : String} {v : Json} {q : String × Json},
    q ∈ (j.setKey k v).fieldsOf → q ∈ j.fieldsOf ∨ q = (k, v) := by
  intro j
  induction j with
  | objCons k0 v0 t ihv iht =>
      intro k v q hq
      by_cases hk : k0 = k
      · rw [Json.setKey, if_pos hk] at hq
        rcases List.mem_cons.mp hq with he | hm
        · subst hk; right; rw [he]
        · left; exact List.mem_cons_of_mem _ hm
      · rw [Json.setKey, if_neg hk] at hq
        rcases List.mem_cons.mp hq with he | hm
        · left; rw [he]; exact List.mem_cons_self _ _
        · rcases iht hm with hx | hx
          · left; exact List.mem_cons_of_mem _ hx
          · right; exact hx
  | objNil =>
      intro k v q hq
      rw [Json.setKey] at hq
      rcases List.mem_cons.mp hq with he | hm
      · right; exact he
      · simp [Json.fieldsOf] at hm
  | undef => intro k v q hq; left; exact hq
  | null => intro k v q hq; left; exact hq
  | bool b => intro k v q hq; left; exact hq
  | num n => intro k v q hq; left; exact hq
  | str s => intro k v q hq; left; exact hq
  | arrNil => intro k v q hq; left; exact hq
  | arrCons x t ihh iht => intro k v q hq; left; exact hq

theorem fixPointwise_fields : ∀ {j : Json}, j.objSpine = true → ∀ {n : Nat} {r : Json},
    fixPointwise n j = Except.ok r →
    ∀ q ∈ r.fieldsOf, ∃ v0, (q.1, v0) ∈ j.fieldsOf ∧ fixF n v0 = Except.ok q.2 := by
  intro j
  induction j with
  | objCons k v t ihv iht =>
      intro hsp n r hp q hq
      rw [fixPointwise] at hp
      obtain ⟨v1, hv1, hrest⟩ := exceptBind_ok.mp hp
      obtain ⟨t1, ht1, heq⟩ := exceptBind_ok.mp hrest
      simp only [pure, Except.pure, Except.ok.injEq] at heq
      subst heq
      rcases List.mem_cons.mp hq with he | hm
      · refine ⟨v, ?_, ?_⟩
        · rw [he]; exact List.mem_cons_self _ _
        · rw [he]; exact hv1
      · obtain ⟨v0, hv0m, hv0f⟩ := iht hsp ht1 q hm
        exact ⟨v0, List.mem_cons_of_mem _ hv0m, hv0f⟩
  | objNil =>
      intro _ n r hp q hq
      simp only [fixPointwise, pure, Except.pure, Except.ok.injEq] at hp
      subst hp
      simp [Json.fieldsOf] at hq
  | undef => intro hsp; simp [Json.objSpine] at hsp
  | null => intro hsp; simp [Json.objSpine] at hsp
  | bool b => intro hsp; simp [Json.objSpine] at hsp
  | num n => intro hsp; simp [Json.objSpine] at hsp
  | str s => intro hsp; simp [Json.objSpine] at hsp
  | arrNil => intro hsp; simp [Json.objSpine] at hsp
  | arrCons x t ihh iht => intro hsp; simp [Json.objSpine] at hsp

theorem opFixed_shape {op' OP : Json} {n : Nat} (hpl : plainObj op' = true)
    (hen : op'.hasKeyB "enum" = false)
    (hpar : op'.getF "parameters" = Json.undef ∨
      ∃ bp, op'.getF "parameters" = Json.arrCons bp Json.arrNil ∧ fixSafe bp = true ∧
        plainObj bp = true ∧ bp.isObjVal = true ∧ bp.hasKeyB "enum" = false ∧
        bp.getF "in" = Json.str "body")
    (hfix : fixF n op' = Except.ok OP) :
    OP.isObjVal = true ∧
    (OP.getF "parameters" = Json.undef ∨
      ∃ bq, OP.getF "parameters" = Json.arrCons bq Json.arrNil ∧ bq.isObjVal = true ∧
        bq.getF "in" = Json.str "body") := by
  have hsp : op'.objSpine = true := plainObj_objSpine hpl
  have hov : op'.isObjVal = true := Json.objSpine_isObjVal hsp
  obtain ⟨m, rfl⟩ := fixF_ok_pos hfix
  rw [fixF_plainObj m hov hpl
    (hasInvalidEnum_of_enum_undef (Json.getF_undef_of_not_hasKeyB hen))] at hfix
  obtain ⟨hsp2, habs, hpres, hkeys⟩ := fixPointwise_getF hsp hfix
  refine ⟨Json.objSpine_isObjVal hsp2, ?_⟩
  rcases hpar with hp | ⟨bp, hbp, f1, f2, f3, f4, f5⟩
  · by_cases hk : op'.hasKeyB "parameters" = true
    · have hstep := hpres "parameters" hk
      rw [hp] at hstep
      obtain ⟨m2, rfl⟩ := fixF_ok_pos hstep
      rw [@fixF_falsy Json.undef m2 rfl] at hstep
      left
      exact (Except.ok.injEq _ _ |>.mp hstep).symm
    · left
      exact habs "parameters" (by simpa using hk)
  · have hk : op'.hasKeyB "parameters" = true :=
      Json.hasKeyB_of_getF_ne (by rw [hbp]; exact fun hc => Json.noConfusion hc)
    have hstep := hpres "parameters" hk
    rw [hbp] at hstep
    obtain ⟨m2, rfl⟩ := fixF_ok_pos hstep
    rw [fixF_arrCons] at hstep
    obtain ⟨BP, hBP, hrest⟩ := exceptBind_ok.mp hstep
    obtain ⟨T, hT, heq⟩ := exceptBind_ok.mp hrest
    simp only [pure, Except.pure, Except.ok.injEq] at heq
    obtain ⟨m3, rfl⟩ := fixF_ok_pos hT
    rw [fixF_arrNil] at hT
    have hTeq : T = Json.arrNil := (Except.ok.injEq _ _ |>.mp hT).symm
    subst hTeq
    have hbsp : bp.objSpine = true := plainObj_objSpine f2
    rw [fixF_plainObj m3 f3 f2
      (hasInvalidEnum_of_enum_undef (Json.getF_undef_of_not_hasKeyB f4))] at hBP
    obtain ⟨hbsp2, _, hbpres, _⟩ := fixPointwise_getF hbsp hBP
    have hkin : bp.hasKeyB "in" = true :=
      Json.hasKeyB_of_getF_ne (by rw [f5]; exact fun hc => Json.noConfusion hc)
    have hin := hbpres "in" hkin
    rw [f5] at hin
    obtain ⟨m4, rfl⟩ := fixF_ok_pos hin
    rw [fixF_scalar m4 (Json.str "body") rfl] at hin
    refine Or.inr ⟨BP, ?_, Json.objSpine_isObjVal hbsp2, ?_⟩
    · rw [← heq]
    · exact (Except.ok.injEq _ _ |>.mp hin).symm

theorem eptOne_body {bq : Json} (hov : bq.isObjVal = true)
    (hin : bq.getF "in" = Json.str "body") : eptOne bq = Except.ok (objSpread bq) := by
  simp only [eptOne, jsGet_ok_of_isObjVal hov, hin, Bind.bind, Except.bind,
    pure, Except.pure]
  rw [if_neg (show ¬ (((Json.str "body").truthy &&
    !(Json.str "body" == Json.str "body")) = true) by decide)]

theorem ensureParameterTypes_body {bq : Json} (hov : bq.isObjVal = true)
    (hin : bq.getF "in" = Json.str "body") :
    ensureParameterTypes (Json.arrCons bq Json.arrNil)
      = Except.ok (Json.arrCons (objSpread bq) Json.arrNil) := by
  rw [ensureParameterTypes]
  rw [if_neg (show ¬¬((Json.arrCons bq Json.arrNil).truthy = true) by simp [Json.truthy])]
  rw [eptSpine]
  rw [eptOne_body hov hin]
  rfl

theorem finalOpFix_total : ∀ (l : List (String × Json)) (acc : Json),
    (∀ q ∈ l, q.2.getF "parameters" = Json.undef ∨
      ∃ bq, q.2.getF "parameters" = Json.arrCons bq Json.arrNil ∧ bq.isObjVal = true ∧
        bq.getF "in" = Json.str "body") →
    ∃ r, finalOpFix l acc = Except.ok r := by
  intro l
  induction l with
  | nil => intro acc _; exact ⟨acc, rfl⟩
  | cons q rest ih =>
      intro acc hl
      obtain ⟨method, operation⟩ := q
      have hrest := fun p hp => hl p (List.mem_cons_of_mem _ hp)
      simp only [finalOpFix]
      split
      · exact ih acc hrest
      · rcases hl (method, operation) (List.mem_cons_self _ _) with hp | ⟨bq, hbq, hbov, hbin⟩
        · rw [hp]
          rw [if_neg (show ¬ (Json.undef.truthy = true) by simp [Json.truthy])]
          exact ih _ hrest
        · rw [hbq]
          rw [if_pos (show (Json.arrCons bq Json.arrNil).truthy = true by
            simp [Json.truthy])]
          rw [ensureParameterTypes_body hbov hbin]
          exact ih _ hrest

theorem finalPathsFix_total : ∀ (l : List (String × Json)) (acc : Json),
    (∀ q ∈ l, q.2.isObjVal = true ∧ q.2.getF "parameters" = Json.undef ∧
      (∀ p ∈ jsEntries q.2, p.2.getF "parameters" = Json.undef ∨
        ∃ bq, p.2.getF "parameters" = Json.arrCons bq Json.arrNil ∧ bq.isObjVal = true ∧
          bq.getF "in" = Json.str "body")) →
    ∃ r, finalPathsFix l acc = Except.ok r := by
  intro l
  induction l with
  | nil => intro acc _; exact ⟨acc, rfl⟩
  | cons q rest ih =>
      intro acc hl
      obtain ⟨p, pathItem⟩ := q
      obtain ⟨hov, hpar, hops⟩ := hl (p, pathItem) (List.mem_cons_self _ _)
      have hrest := fun x hx => hl x (List.mem_cons_of_mem _ hx)
      simp only [finalPathsFix, jsGet_ok_of_isObjVal hov, Bind.bind, Except.bind,
        pure, Except.pure, hpar]
      rw [if_neg (show ¬ (Json.undef.truthy = true) by simp [Json.truthy])]
      obtain ⟨pi2, hpi2⟩ := finalOpFix_total (jsEntries pathItem) pathItem hops
      rw [hpi2]
      exact ih _ hrest

theorem buildSwaggerPathMethods_char : ∀ (l : List (String × Json)) (sp : Json),
    (∀ q ∈ l, isHttpMethod q.1 = true ∧ wfOperation q.2 = true) →
    fixSafe sp = true → plainObj sp = true → sp.hasKeyB "enum" = false →
    sp.hasKeyB "parameters" = false → (∀ q ∈ sp.fieldsOf, opShape q.2) →
    ∃ r, buildSwaggerPathMethods l sp = Except.ok r ∧ piShape r := by
  intro l
  induction l with
  | nil => intro sp _ h1 h2 h3 h4 h5; exact ⟨sp, rfl, h1, h2, h3, h4, h5⟩
  | cons q rest ih =>
      intro sp hl h1 h2 h3 h4 h5
      obtain ⟨method, operation⟩ := q
      obtain ⟨hm, hwop⟩ := hl (method, operation) (List.mem_cons_self _ _)
      obtain ⟨hpk, hnp, hnr, hne, hnd, hna, hno, hnal⟩ := isHttpMethod_facts hm
      have hrest := fun x hx => hl x (List.mem_cons_of_mem _ hx)
      have hofs : fixSafe operation = true := (wfOperation_parts hwop).2.2.1
      simp only [buildSwaggerPathMethods]
      split
      · exact ih sp hrest h1 h2 h3 h4 h5
      · obtain ⟨op', hop, f1, f2, f3, f4, f5⟩ := convertOperation_char hwop
        have g1 : fixSafe (if (operation.getF "security").truthy = true then
            op'.setKey "security" (operation.getF "security") else op') = true := by
          split
          · exact fixSafe_setKey_named f1 "security" (fixSafe_getF hofs "security")
              (by decide) (by decide) (by decide) (by decide)
          · exact f1
        have g2 : plainObj (if (operation.getF "security").truthy = true then
            op'.setKey "security" (operation.getF "security") else op') = true := by
          split
          · exact plainObj_setKey f2 (by decide) _
          · exact f2
        have g4 : (if (operation.getF "security").truthy = true then
            op'.setKey "security" (operation.getF "security") else op').hasKeyB
            "enum" = false := by
          split
          · rw [Json.hasKeyB_setKey_ne (by decide)]; exact f4
          · exact f4
        have g5 : opParamShape (if (operation.getF "security").truthy = true then
            op'.setKey "security" (operation.getF "security") else op') := by
          rw [opParamShape]
          split
          · rcases f5 with hp | ⟨bp, hbp, b1, b2, b3, b4, b5⟩
            · exact Or.inl (by rw [Json.getF_setKey_ne (by decide)]; exact hp)
            · exact Or.inr ⟨bp, by rw [Json.getF_setKey_ne (by decide)]; exact hbp,
                b1, b2, b3, b4, b5⟩
          · exact f5
        obtain ⟨r, hr, hrs⟩ := ih (sp.setKey method (if (operation.getF
            "security").truthy = true then op'.setKey "security"
            (operation.getF "security") else op')) hrest
          (fixSafe_setKey_named h1 method g1 hnd hna hno hnal)
          (plainObj_setKey h2 hpk _)
          (by rw [Json.hasKeyB_setKey_ne (fun hc => hne hc.symm)]; exact h3)
          (by rw [Json.hasKeyB_setKey_ne (fun hc => hnp hc.symm)]; exact h4)
          (by
            intro x hx
            rcases Json.fieldsOf_setKey_sub hx with hmem | heq
            · exact h5 x hmem
            · rw [heq]
              exact ⟨g1, g2, g4, g5⟩)
        refine ⟨r, ?_, hrs⟩
        rw [hop]
        exact hr

theorem buildSwaggerPaths_char : ∀ (l : List (String × Json)) (acc : Json),
    (∀ q ∈ l, safeName q.1 = true ∧ wfPathItem q.2 = true) →
    fixSafe acc = true → plainObj acc = true → acc.hasKeyB "enum" = false →
    (∀ q ∈ acc.fieldsOf, piShape q.2) →
    ∃ r, buildSwaggerPaths l acc = Except.ok r ∧ pathsShape r := by
  intro l
  induction l with
  | nil => intro acc _ h1 h2 h3 h4; exact ⟨acc, rfl, h1, h2, h3, h4⟩
  | cons q rest ih =>
      intro acc hl h1 h2 h3 h4
      obtain ⟨path, pathItem⟩ := q
      obtain ⟨hn, hwpi⟩ := hl (path, pathItem) (List.mem_cons_self _ _)
      obtain ⟨n1, n2, n3, n4, _, _, n7, _, _⟩ := safeName_parts hn
      have hrest := fun x hx => hl x (List.mem_cons_of_mem _ hx)
      have hsp := wfPathItem_spine hwpi
      have hov := Json.objSpine_isObjVal hsp
      have hpar := wfPathItem_no_parameters hwpi
      simp only [buildSwaggerPaths, jsGet_ok_of_isObjVal hov, Bind.bind, Except.bind,
        pure, Except.pure, hpar]
      rw [if_neg (show ¬ (Json.undef.truthy = true) by simp [Json.truthy])]
      rw [jsEntries_spine hsp]
      obtain ⟨PI, hPI, hPIs⟩ := buildSwaggerPathMethods_char pathItem.fieldsOf
        Json.objNil (wfPathItem_fields hwpi) rfl rfl rfl rfl
        (fun x hx => absurd hx (by simp [Json.fieldsOf]))
      rw [hPI]
      obtain ⟨p1, p2, p3, p4, p5⟩ := hPIs
      obtain ⟨r, hr, hrs⟩ := ih (acc.setKey path PI) hrest
        (fixSafe_setKey_named h1 path (p1) n1 n2 n3 n4)
        (plainObj_setKey h2 (safeName_plainKey hn) _)
        (by rw [Json.hasKeyB_setKey_ne (fun hc => n7 hc.symm)]; exact h3)
        (by
          intro x hx
          rcases Json.fieldsOf_setKey_sub hx with hmem | heq
          · exact h4 x hmem
          · rw [heq]
            exact ⟨p1, p2, p3, p4, p5⟩)
      exact ⟨r, hr, hrs⟩

theorem fixF_objNil (n : Nat) : fixF (n + 1) Json.objNil = Except.ok Json.objNil := by
  rw [fixF]
  rw [if_neg (show ¬¬(Json.objNil.truthy = true) by simp [Json.truthy])]
  rfl

theorem truthy_of_startsWith3 {s : String} (h : sStartsWith s "3." = true) :
    (Json.str s).truthy = true := by
  have hne : s ≠ "" := by
    intro he
    rw [he] at h
    exact absurd h (by decide)
  simp [Json.truthy]
  exact hne

theorem owaServers_char {spec : Json}
    (h5 : (!(spec.getF "servers").truthy || wfServers (spec.getF "servers")) = true)
    {sw : Json} (hfs : fixSafe sw = true) (hpl : plainObj sw = true)
    (hen : sw.hasKeyB "enum" = false) :
    ∃ r, owaServers spec sw = Except.ok r ∧ fixSafe r = true ∧ plainObj r = true ∧
      r.hasKeyB "enum" = false ∧ r.getF "paths" = sw.getF "paths" := by
  simp only [owaServers, Bind.bind, Except.bind, pure, Except.pure]
  by_cases hsv : ((spec.getF "servers").truthy && jsLengthGt (spec.getF "servers") 0) = true
  · obtain ⟨hst, hsl⟩ := Bool.and_eq_true _ _ |>.mp hsv
    have hws := or_guard_true h5 hst
    cases hsrv : spec.getF "servers" with
    | arrCons hd tl =>
        rw [hsrv] at hws
        simp only [wfServers, Bool.and_eq_true] at hws
        obtain ⟨hmatch, _⟩ := hws
        rw [hsrv] at hsv
        rw [if_pos hsv]
        split at hmatch
        · rename_i u
          obtain ⟨parts, hp⟩ := Option.isSome_iff_exists.mp hmatch
          simp only [jsIndex0, jsGet, Json.getF, pure, Except.pure, Except.bind]
          simp only [if_true, hp]
          refine ⟨_, rfl, ?_, ?_, ?_, ?_⟩
          · refine fixSafe_setKey_named ?_ "schemes" (by simp [fixSafe])
              (by decide) (by decide) (by decide) (by decide)
            refine fixSafe_setKey_named ?_ "basePath" rfl
              (by decide) (by decide) (by decide) (by decide)
            exact fixSafe_setKey_named hfs "host" rfl
              (by decide) (by decide) (by decide) (by decide)
          · refine plainObj_setKey ?_ (by decide) _
            refine plainObj_setKey ?_ (by decide) _
            exact plainObj_setKey hpl (by decide) _
          · rw [Json.hasKeyB_setKey_ne (by decide), Json.hasKeyB_setKey_ne (by decide),
              Json.hasKeyB_setKey_ne (by decide)]
            exact hen
          · rw [Json.getF_setKey_ne (by decide), Json.getF_setKey_ne (by decide),
              Json.getF_setKey_ne (by decide)]
        · exact absurd hmatch (by simp)
    | arrNil =>
        rw [hsrv] at hsl
        exact absurd hsl (by decide)
    | undef => rw [hsrv] at hws; exact absurd hws (by simp [wfServers])
    | null => rw [hsrv] at hws; exact absurd hws (by simp [wfServers])
    | bool b => rw [hsrv] at hws; exact absurd hws (by simp [wfServers])
    | num n => rw [hsrv] at hws; exact absurd hws (by simp [wfServers])
    | str s => rw [hsrv] at hws; exact absurd hws (by simp [wfServers])
    | objNil => rw [hsrv] at hws; exact absurd hws (by simp [wfServers])
    | objCons k v t => rw [hsrv] at hws; exact absurd hws (by simp [wfServers])
  · rw [if_neg hsv]
    exact ⟨sw, rfl, hfs, hpl, hen, rfl⟩

theorem owaFinish_char (W : List String) {F : Json}
    (hp : F.getF "paths" = Json.objNil ∨
      ((F.getF "paths").objSpine = true ∧
        ∀ q ∈ (F.getF "paths").fieldsOf, q.2.isObjVal = true ∧
          q.2.getF "parameters" = Json.undef ∧
          (∀ p ∈ jsEntries q.2, p.2.getF "parameters" = Json.undef ∨
            ∃ bq, p.2.getF "parameters" = Json.arrCons bq Json.arrNil ∧
              bq.isObjVal = true ∧ bq.getF "in" = Json.str "body"))) :
    ∃ out, owaFinish W F = Except.ok (out, W) := by
  simp only [owaFinish, Bind.bind, Except.bind, pure, Except.pure]
  rcases hp with hnil | ⟨hsp, hinv⟩
  · rw [hnil]
    rw [if_pos (show Json.objNil.truthy = true by simp [Json.truthy])]
    simp only [jsEntries, finalPathsFix, pure, Except.pure, Except.bind]
    exact ⟨_, rfl⟩
  · have htr : (F.getF "paths").truthy = true :=
      Json.isObjVal_truthy (Json.objSpine_isObjVal hsp)
    rw [if_pos htr, jsEntries_spine hsp]
    obtain ⟨PF, hPF⟩ := finalPathsFix_total _ _ hinv
    rw [hPF]
    exact ⟨_, rfl⟩

theorem owaFix_char {spec : Json}
    (h7 : (!(spec.getF "paths").truthy || wfPaths (spec.getF "paths")) = true)
    (W : List String) {sw : Json} (hfs : fixSafe sw = true) (hpl : plainObj sw = true)
    (hen : sw.hasKeyB "enum" = false) (hpaths : sw.getF "paths" = Json.objNil) :
    ∃ out, owaFix spec W sw = Except.ok (out, W) := by
  have hfix : ∀ {Y : Json}, fixSafe Y = true → plainObj Y = true →
      Y.hasKeyB "enum" = false →
      (Y.getF "paths" = Json.objNil ∨ pathsShape (Y.getF "paths")) →
      ∃ out, Except.bind (fixSwagger2References Y) (fun fixed => owaFinish W fixed)
        = Except.ok (out, W) := by
    intro Y hYfs hYpl hYen hYpath
    obtain ⟨F, hF⟩ := fixF_total Y.weight Y le_rfl hYfs
    have hFR : fixSwagger2References Y = Except.ok F := hF
    rw [hFR]
    obtain ⟨m, hm⟩ : ∃ m, Y.weight = m + 1 :=
      ⟨Y.weight - 1, by have := Json.weight_pos Y; omega⟩
    rw [hm] at hF
    have hYsp := plainObj_objSpine hYpl
    have hYov := Json.objSpine_isObjVal hYsp
    rw [fixF_plainObj m hYov hYpl
      (hasInvalidEnum_of_enum_undef (Json.getF_undef_of_not_hasKeyB hYen))] at hF
    obtain ⟨hFsp, hFabs, hFpres, hFkeys⟩ := fixPointwise_getF hYsp hF
    rcases hYpath with hnil | hPs
    · have hknil : Y.hasKeyB "paths" = true :=
        Json.hasKeyB_of_getF_ne (by rw [hnil]; exact fun hc => Json.noConfusion hc)
      have hstep := hFpres "paths" hknil
      rw [hnil] at hstep
      obtain ⟨m2, rfl⟩ := fixF_ok_pos hstep
      rw [fixF_objNil] at hstep
      have hFnil : F.getF "paths" = Json.objNil :=
        (Except.ok.injEq _ _ |>.mp hstep).symm
      obtain ⟨out, hout⟩ := owaFinish_char W (Or.inl hFnil)
      exact ⟨out, hout⟩
    · obtain ⟨Pfs, Ppl, Pen, Pflds⟩ := hPs
      have hPne : Y.getF "paths" ≠ Json.undef := by
        intro hc
        rw [hc] at Ppl
        simp [plainObj] at Ppl
      have hk : Y.hasKeyB "paths" = true := Json.hasKeyB_of_getF_ne hPne
      have hstep := hFpres "paths" hk
      obtain ⟨m2, rfl⟩ := fixF_ok_pos hstep
      have hPsp := plainObj_objSpine Ppl
      rw [fixF_plainObj m2 (Json.objSpine_isObjVal hPsp) Ppl
        (hasInvalidEnum_of_enum_undef (Json.getF_undef_of_not_hasKeyB Pen))] at hstep
      obtain ⟨hP2sp, _, _, _⟩ := fixPointwise_getF hPsp hstep
      have hinv : ∀ q ∈ (F.getF "paths").fieldsOf, q.2.isObjVal = true ∧
          q.2.getF "parameters" = Json.undef ∧
          (∀ p ∈ jsEntries q.2, p.2.getF "parameters" = Json.undef ∨
            ∃ bq, p.2.getF "parameters" = Json.arrCons bq Json.arrNil ∧
              bq.isObjVal = true ∧ bq.getF "in" = Json.str "body") := by
        intro q hq
        obtain ⟨PIv, hPIm, hPIfix⟩ := fixPointwise_fields hPsp hstep q hq
        obtain ⟨pi1, pi2, pi3, pi4, pi5⟩ := Pflds (q.1, PIv) hPIm
        obtain ⟨m3, rfl⟩ := fixF_ok_pos hPIfix
        have hPIsp := plainObj_objSpine pi2
        rw [fixF_plainObj m3 (Json.objSpine_isObjVal hPIsp) pi2
          (hasInvalidEnum_of_enum_undef (Json.getF_undef_of_not_hasKeyB pi3))] at hPIfix
        obtain ⟨hq2sp, hq2abs, _, _⟩ := fixPointwise_getF hPIsp hPIfix
        refine ⟨Json.objSpine_isObjVal hq2sp, hq2abs "parameters" pi4, ?_⟩
        intro p hp2
        rw [jsEntries_spine hq2sp] at hp2
        obtain ⟨opv, hopm, hopfix⟩ := fixPointwise_fields hPIsp hPIfix p hp2
        obtain ⟨o1, o2, o3, o4⟩ := pi5 (p.1, opv) hopm
        exact (opFixed_shape o2 o3 o4 hopfix).2
      obtain ⟨out, hout⟩ := owaFinish_char W (Or.inr ⟨hP2sp, hinv⟩)
      exact ⟨out, hout⟩
  simp only [owaFix, Bind.bind, Except.bind, pure, Except.pure]
  by_cases hps : (spec.getF "paths").truthy = true
  · have hwp := or_guard_true h7 hps
    obtain ⟨P, hP, hPs⟩ := buildSwaggerPaths_char (jsEntries (spec.getF "paths"))
      (sw.getF "paths")
      (fun q hq => wfPaths_fields hwp q (by rwa [jsEntries_spine (wfPaths_spine hwp)] at hq))
      (by rw [hpaths]; rfl) (by rw [hpaths]; rfl) (by rw [hpaths]; rfl)
      (fun q hq => absurd (show q ∈ Json.objNil.fieldsOf by rwa [hpaths] at hq)
        (by simp [Json.fieldsOf]))
    rw [if_pos hps, hP]
    obtain ⟨Pfs, Ppl, Pen, Pflds⟩ := hPs
    exact hfix (fixSafe_setKey_named hfs "paths" Pfs
        (by decide) (by decide) (by decide) (by decide))
      (plainObj_setKey hpl (by decide) _)
      (by rw [Json.hasKeyB_setKey_ne (by decide)]; exact hen)
      (Or.inr (by
        rw [Json.getF_setKey_self (plainObj_objSpine hpl)]
        exact ⟨Pfs, Ppl, Pen, Pflds⟩))
  · rw [if_neg hps]
    exact hfix hfs hpl hen (Or.inl hpaths)

theorem owaTail_char {spec : Json}
    (h6 : (!(spec.getF "components").truthy ||
      ((!((spec.getF "components").getF "schemas").truthy ||
         wfSchemaMap ((spec.getF "components").getF "schemas")) &&
       (!((spec.getF "components").getF "securitySchemes").truthy ||
         wfSecSchemes ((spec.getF "components").getF "securitySchemes")))) = true)
    (h7 : (!(spec.getF "paths").truthy || wfPaths (spec.getF "paths")) = true)
    (W : List String) {sw : Json} (hfs : fixSafe sw = true) (hpl : plainObj sw = true)
    (hen : sw.hasKeyB "enum" = false) (hpaths : sw.getF "paths" = Json.objNil) :
    ∃ out, owaTail spec W sw = Except.ok (out, W) := by
  simp only [owaTail, Bind.bind, Except.bind, pure, Except.pure]
  set d1 : Json := if ((spec.getF "components").truthy &&
      ((spec.getF "components").getF "schemas").truthy) = true then
    sw.setKey "definitions" (buildDefinitions
      (jsEntries ((spec.getF "components").getF "schemas")) (sw.getF "definitions"))
    else sw with hd1
  have hd1fs : fixSafe d1 = true := by
    rw [hd1]
    split
    · rename_i hc
      obtain ⟨hct, hsch⟩ := Bool.and_eq_true _ _ |>.mp hc
      have hmap : wfSchemaMap ((spec.getF "components").getF "schemas") = true :=
        or_guard_true (Bool.and_eq_true _ _ |>.mp (or_guard_true h6 hct)).1 hsch
      refine fixSafe_setKey_named hfs "definitions" ?_
        (by decide) (by decide) (by decide) (by decide)
      exact buildDefinitions_fixSafe _ _
        (fun q hq => wfSchemaMap_fields hmap q
          (by rwa [jsEntries_spine (wfSchemaMap_spine hmap)] at hq))
        (fixSafe_getF hfs "definitions")
    · exact hfs
  have hd1pl : plainObj d1 = true := by
    rw [hd1]
    split
    · exact plainObj_setKey hpl (by decide) _
    · exact hpl
  have hd1en : d1.hasKeyB "enum" = false := by
    rw [hd1]
    split
    · rw [Json.hasKeyB_setKey_ne (by decide)]; exact hen
    · exact hen
  have hd1pa : d1.getF "paths" = Json.objNil := by
    rw [hd1]
    split
    · rw [Json.getF_setKey_ne (by decide)]; exact hpaths
    · exact hpaths
  by_cases hc2 : ((spec.getF "components").truthy &&
      ((spec.getF "components").getF "securitySchemes").truthy) = true
  · obtain ⟨hct2, hss⟩ := Bool.and_eq_true _ _ |>.mp hc2
    have hsec : wfSecSchemes ((spec.getF "components").getF "securitySchemes") = true :=
      or_guard_true (Bool.and_eq_true _ _ |>.mp (or_guard_true h6 hct2)).2 hss
    obtain ⟨SD, hSD, hSDf⟩ := buildSecurityDefinitions_char
      (jsEntries ((spec.getF "components").getF "securitySchemes"))
      (d1.getF "securityDefinitions")
      (fun q hq => wfSecSchemes_fields hsec q
        (by rwa [jsEntries_spine (wfSecSchemes_spine hsec)] at hq))
      (fixSafe_getF hd1fs "securityDefinitions")
    rw [if_pos hc2, hSD]
    exact owaFix_char h7 W
      (fixSafe_setKey_named hd1fs "securityDefinitions" hSDf
        (by decide) (by decide) (by decide) (by decide))
      (plainObj_setKey hd1pl (by decide) _)
      (by rw [Json.hasKeyB_setKey_ne (by decide)]; exact hd1en)
      (by rw [Json.getF_setKey_ne (by decide)]; exact hd1pa)
  · rw [if_neg hc2]
    exact owaFix_char h7 W hd1fs hd1pl hd1en hd1pa

theorem sw0_facts (spec : Json) (hinfo : fixSafe (spec.getF "info") = true) :
    fixSafe (jobj [("swagger", Json.str "2.0"), ("info", spec.getF "info"),
      ("host", Json.str ""), ("basePath", Json.str "/"),
      ("schemes", jarr [Json.str "https"]),
      ("consumes", jarr [Json.str "application/json"]),
      ("produces", jarr [Json.str "application/json"]), ("paths", Json.objNil),
      ("definitions", Json.objNil), ("securityDefinitions", Json.objNil)]) = true ∧
    plainObj (jobj [("swagger", Json.str "2.0"), ("info", spec.getF "info"),
      ("host", Json.str ""), ("basePath", Json.str "/"),
      ("schemes", jarr [Json.str "https"]),
      ("consumes", jarr [Json.str "application/json"]),
      ("produces", jarr [Json.str "application/json"]), ("paths", Json.objNil),
      ("definitions", Json.objNil), ("securityDefinitions", Json.objNil)]) = true ∧
    (jobj [("swagger", Json.str "2.0"), ("info", spec.getF "info"),
      ("host", Json.str ""), ("basePath", Json.str "/"),
      ("schemes", jarr [Json.str "https"]),
      ("consumes", jarr [Json.str "application/json"]),
      ("produces", jarr [Json.str "application/json"]), ("paths", Json.objNil),
      ("definitions", Json.objNil), ("securityDefinitions", Json.objNil)]).hasKeyB
      "enum" = false ∧
    (jobj [("swagger", Json.str "2.0"), ("info", spec.getF "info"),
      ("host", Json.str ""), ("basePath", Json.str "/"),
      ("schemes", jarr [Json.str "https"]),
      ("consumes", jarr [Json.str "application/json"]),
      ("produces", jarr [Json.str "application/json"]), ("paths", Json.objNil),
      ("definitions", Json.objNil), ("securityDefinitions", Json.objNil)]).getF
      "paths" = Json.objNil := by
  refine ⟨?_, by simp [jobj, plainObj, plainKey, Json.hasKeyB], by rfl, by rfl⟩
  simp only [jobj, List.foldr_cons, List.foldr_nil]
  refine fixSafe_cons (by simp) (by simp) (by simp) rfl ?_
  refine fixSafe_cons (by simp) (by simp) (by simp) hinfo ?_
  refine fixSafe_cons (by simp) (by simp) (by simp) rfl ?_
  refine fixSafe_cons (by simp) (by simp) (by simp) rfl ?_
  refine fixSafe_cons (by simp) (by simp) (by simp) (by decide) ?_
  refine fixSafe_cons (by simp) (by simp) (by simp) (by decide) ?_
  refine fixSafe_cons (by simp) (by simp) (by simp) (by decide) ?_
  refine fixSafe_cons (by simp) (by simp) (by simp) rfl ?_
  refine fixSafe_cons (by simp) (by simp) (by simp) rfl ?_
  exact fixSafe_cons (by simp) (by simp) (by simp) rfl rfl

theorem convertOpenApiToSwagger_total {spec : Json} (h : WFDoc spec = true) :
    ∃ out w, convertOpenApiToSwagger (some spec) = Except.ok (out, w) := by
  obtain ⟨h1, h2, h3, h4, h5, h6, h7⟩ := WFDoc_parts h
  obtain ⟨W, hW⟩ := detectUnsupportedFeatures_total h
  cases hv : spec.getF "openapi" with
  | str s =>
      rw [hv] at h2
      have h2' : sStartsWith s "3." = true := h2
      simp [convertOpenApiToSwagger, Bind.bind, Except.bind, pure, Except.pure,
        jsGet_ok_of_isObjVal h1, hv, truthy_of_startsWith3 h2', h2', hW]
      set s0 : Json := jobj [("swagger", Json.str "2.0"), ("info", spec.getF "info"),
        ("host", Json.str ""), ("basePath", Json.str "/"),
        ("schemes", jarr [Json.str "https"]),
        ("consumes", jarr [Json.str "application/json"]),
        ("produces", jarr [Json.str "application/json"]), ("paths", Json.objNil),
        ("definitions", Json.objNil), ("securityDefinitions", Json.objNil)] with hs0
      obtain ⟨s0fs, s0pl, s0en, s0pa⟩ := sw0_facts spec h3
      rw [← hs0] at s0fs s0pl s0en s0pa
      set s1 : Json := if (spec.getF "security").truthy = true then
        s0.setKey "security" (spec.getF "security") else s0 with hs1
      have s1fs : fixSafe s1 = true := by
        rw [hs1]
        split
        · exact fixSafe_setKey_named s0fs "security" h4
            (by decide) (by decide) (by decide) (by decide)
        · exact s0fs
      have s1pl : plainObj s1 = true := by
        rw [hs1]
        split
        · exact plainObj_setKey s0pl (by decide) _
        · exact s0pl
      have s1en : s1.hasKeyB "enum" = false := by
        rw [hs1]
        split
        · rw [Json.hasKeyB_setKey_ne (by decide)]; exact s0en
        · exact s0en
      have s1pa : s1.getF "paths" = Json.objNil := by
        rw [hs1]
        split
        · rw [Json.getF_setKey_ne (by decide)]; exact s0pa
        · exact s0pa
      obtain ⟨s2, hs2, s2fs, s2pl, s2en, s2pa⟩ := owaServers_char h5 s1fs s1pl s1en
      rw [hs2]
      obtain ⟨out, hout⟩ := owaTail_char h6 h7 W s2fs s2pl s2en (s2pa.trans s1pa)
      exact ⟨out, W, hout⟩
  | undef => rw [hv] at h2; exact absurd h2 (by simp)
  | null => rw [hv] at h2; exact absurd h2 (by simp)
  | bool b => rw [hv] at h2; exact absurd h2 (by simp)
  | num n => rw [hv] at h2; exact absurd h2 (by simp)
  | arrNil => rw [hv] at h2; exact absurd h2 (by simp)
  | arrCons x t => rw [hv] at h2; exact absurd h2 (by simp)
  | objNil => rw [hv] at h2; exact absurd h2 (by simp)
  | objCons k v t => rw [hv] at h2; exact absurd h2 (by simp)

set_option maxRecDepth 400000 in
/-- Claim C1 (amended): parse failure maps to MalformedInput in both
directions, a falsy dialect marker aborts with DialectMismatch before any
target tree is produced, and for every well-formed modern document — with
composition keywords, openIdConnect schemes, `not`, multiple content types
and multiple servers all allowed — the modern-to-legacy conversion returns
a complete document plus warnings and never throws for an unrepresentable
construct.  The error model is, however, not limited to those two kinds:
a relative first server URL raises a third, URL-constructor-backed error
(see the counterexample), which is why the claim is corrected rather than
confirmed. -/
theorem C1_error_model_amended :
    (convertOpenApiToSwagger none = Except.error JsErr.malformedInput ∧
     convertSwaggerToOpenApi none = Except.error JsErr.malformedInput) ∧
    (∀ spec : Json, spec.isObjVal = true → (spec.getF "openapi").truthy = false →
      convertOpenApiToSwagger (some spec) = Except.error JsErr.dialectMismatch) ∧
    (∀ sw : Json, sw.isObjVal = true → (sw.getF "swagger").truthy = false →
      convertSwaggerToOpenApi (some sw) = Except.error JsErr.dialectMismatch) ∧
    (∀ spec : Json, WFDoc spec = true →
      ∃ out w, convertOpenApiToSwagger (some spec) = Except.ok (out, w)) := by
  refine ⟨⟨rfl, rfl⟩, ?_, ?_, fun spec h => convertOpenApiToSwagger_total h⟩
  · intro spec hov ht
    simp [convertOpenApiToSwagger, jsGet_ok_of_isObjVal hov, ht,
      Bind.bind, Except.bind, pure, Except.pure]
  · intro sw hov ht
    simp [convertSwaggerToOpenApi, jsGet_ok_of_isObjVal hov, ht,
      Bind.bind, Except.bind, pure, Except.pure]

set_option maxRecDepth 400000 in
/-- Witness for C1: the dialect check at the empty object and the totality
guarantee at a concrete well-formed document holding an anyOf union, an
openIdConnect scheme and a response map. -/
theorem C1_error_model_amended_witness :
    (Json.objNil.isObjVal = true ∧ (Json.objNil.getF "openapi").truthy = false ∧
      convertOpenApiToSwagger (some Json.objNil) = Except.error JsErr.dialectMismatch) ∧
    (Json.objNil.isObjVal = true ∧ (Json.objNil.getF "swagger").truthy = false ∧
      convertSwaggerToOpenApi (some Json.objNil) = Except.error JsErr.dialectMismatch) ∧
    (WFDoc c1WfDoc = true ∧
      ∃ out w, convertOpenApiToSwagger (some c1WfDoc) = Except.ok (out, w)) :=
  ⟨⟨by decide, by decide,
      C1_error_model_amended.2.1 Json.objNil (by decide) (by decide)⟩,
   ⟨by decide, by decide,
      C1_error_model_amended.2.2.1 Json.objNil (by decide) (by decide)⟩,
   ⟨by decide, C1_error_model_amended.2.2.2 c1WfDoc (by decide)⟩⟩
